import Mathlib

/-!
Package `underflow`: Cadence values to and from plain Go values.

A shallow embedding of the Go package `underflow`: the decoder of `output.go`
(`CadenceValueToInterfaceWithOption`, from a `cadence.Value` to a nested
`interface{}` structure), the string normalizer and the address codec of
`utils.go`, and the encoder of `input.go` (`ReflectToCadence`, from a native Go
value to a `cadence.Value`).  The file `cadence.go` is an older copy of the
same functions and is not embedded.

Conventions of the embedding

* A Go `string` is a Lean `String`: a sequence of Unicode code points, that is,
  a valid UTF-8 byte string (the only strings `cadence.NewString` accepts).
* A Go panic (failed type assertion, index out of range, method call on a nil
  interface) is the result `none` of the decoder and `Failure.panic` in the
  encoder.
* A Go `map[string]interface{}` is an association list with unique keys, kept
  in order of first insertion; Go maps are unordered, so only the lookups of
  such a list are meaningful.
* The types and functions of the libraries the package calls
  (`github.com/onflow/cadence`, `strconv`, `strings`, `encoding/hex`,
  `reflect`, `structtag`) are not part of the package; the parts of them the
  package uses are modelled here and marked as such.
-/

set_option autoImplicit false

namespace Underflow

/-! ## Go values returned by the decoder -/

/-- Go integer kinds (the integer members of `reflect.Kind`). -/
inductive IntKind where
  | int | int8 | int16 | int32 | int64 | uint | uint8 | uint16 | uint32 | uint64
  deriving DecidableEq, Repr

/-- A Go `interface{}` value as the decoder returns it.  `null` is the nil
interface; `num k v` is the integer `v` held in the Go type `k`; `bigInt` is a
`*big.Int`; `float64 d` is the double `strconv.ParseFloat(d, 64)` yields for the
decimal text `d`; `list` is a `[]interface{}`; `map` is a
`map[string]interface{}`; `other t` is a value of any other Go type `t`. -/
inductive IValue where
  | null
  | bool (b : Bool)
  | num (kind : IntKind) (v : Int)
  | bigInt (v : Int)
  | float64 (decimal : String)
  | string (s : String)
  | list (xs : List IValue)
  | map (entries : List (String × IValue))
  | other (goType : String)
  deriving Repr

/-- The Go test `value == nil` on an `interface{}`. -/
def IValue.isNil : IValue → Bool
  | .null => true
  | _ => false

/-- Go map read `m[k]` with presence flag. -/
def mapGet (m : List (String × IValue)) (k : String) : Option IValue :=
  match m with
  | [] => none
  | (k', v) :: rest => if k' = k then some v else mapGet rest k

/-- Go map assignment `m[k] = v`: overwrite the entry of `k`, or add one. -/
def mapSet (m : List (String × IValue)) (k : String) (v : IValue) : List (String × IValue) :=
  match m with
  | [] => [(k, v)]
  | (k', v') :: rest => if k' = k then (k, v) :: rest else (k', v') :: mapSet rest k v

/-- The entry `(k, v)` is present in the decoded value, which then is a map. -/
def IValue.hasEntry (r : IValue) (k : String) (v : IValue) : Prop :=
  match r with
  | .map m => mapGet m k = some v
  | _ => False

/-! ## The Cadence value model (library) -/

/-- Modelled from the spec: `cadence.Field` (library type, absent from src/):
a declared field name with (the identifier of) its declared type. -/
structure Field where
  Identifier : String
  fieldType : String
  deriving DecidableEq, Repr

/-- Modelled from the spec: `cadence.StructType`, `cadence.ResourceType` and
`cadence.EventType` (library types, absent from src/): an optional location, a
qualified identifier and the declared fields. -/
structure CompositeType where
  Location : Option String
  QualifiedIdentifier : String
  Fields : List Field
  deriving DecidableEq, Repr

/-- Modelled from the spec: the method `ID()` of a composite type (library,
absent from src/): the qualified identifier, prefixed by the location when
there is one (`A.f8d6e0586b0a20c7.Contract.Bar`). -/
def CompositeType.ID (t : CompositeType) : String :=
  match t.Location with
  | none => t.QualifiedIdentifier
  | some l => l ++ "." ++ t.QualifiedIdentifier

/-- Modelled from the spec: `cadence.Value` (the ledger value of the library,
absent from src/).  `nil` is the nil interface value.  An `Address` holds its
bytes.  Integers hold their value, fixed-point numbers their scaled integer
(scale `10^8`).  A composite holds its type and its field values.  A
`Capability` holds its id, its address and the identifier of its borrow type; a
`TypeValue` the identifier of its static type.  `Other r g` is a value of any
variant not listed, with `r` its `String()` rendering and `g` its `ToGoValue()`
result. -/
inductive Value where
  | nil
  | Optional (value : Value)
  | Bool (b : Bool)
  | String (s : String)
  | Address (bytes : List Nat)
  | Int (v : Int)
  | UInt (v : Nat)
  | Int8 (v : Int)
  | Int16 (v : Int)
  | Int32 (v : Int)
  | Int64 (v : Int)
  | UInt8 (v : Nat)
  | UInt16 (v : Nat)
  | UInt32 (v : Nat)
  | UInt64 (v : Nat)
  | Fix64 (v : Int)
  | UFix64 (v : Nat)
  | Array (values : List Value)
  | Dictionary (pairs : List (Value × Value))
  | Struct (structType : CompositeType) (fields : List Value)
  | Resource (resourceType : CompositeType) (fields : List Value)
  | Event (eventType : CompositeType) (fields : List Value)
  | Capability (id : Nat) (address : List Nat) (borrowType : String)
  | TypeValue (staticType : String)
  | Other (rendering : String) (goValue : IValue)

/-! ### Text rendering of values (library) -/

/-- Decimal digits of a natural number. -/
def natDigits (n : Nat) : List Char := Nat.toDigits 10 n

/-- Decimal text of an integer, with `-` for negative numbers. -/
def intDigits (v : Int) : List Char :=
  if v < 0 then '-' :: natDigits v.natAbs else natDigits v.natAbs

/-- Lower-case hexadecimal digits of a natural number. -/
def hexDigits (n : Nat) : List Char := Nat.toDigits 16 n

/-- The two lower-case hexadecimal digits of a byte. -/
def hexByte (b : Nat) : List Char :=
  [Nat.digitChar (b / 16 % 16), Nat.digitChar (b % 16)]

/-- Modelled from the spec: `Address.String()` (library, absent from src/):
the canonical form, `0x` followed by two lower-case hexadecimal digits per
byte. -/
def addressString (bytes : List Nat) : String :=
  ⟨'0' :: 'x' :: bytes.flatMap hexByte⟩

/-- Left padding with a character up to a width. -/
def padLeft (s : List Char) (c : Char) (n : Nat) : List Char :=
  List.replicate (n - s.length) c ++ s

/-- Modelled from the spec: `UFix64.String()` (library, absent from src/): the
exact decimal text of `v / 10^8` with exactly 8 fractional digits. -/
def formatUFix64 (v : Nat) : String :=
  ⟨natDigits (v / 100000000) ++ '.' :: padLeft (natDigits (v % 100000000)) '0' 8⟩

/-- Modelled from the spec: `Fix64.String()` (library, absent from src/): the
exact decimal text of `v / 10^8` with exactly 8 fractional digits, with a
leading `-` for a negative value.  Integer and fraction come from Go's
truncating `/` and `%`. -/
def formatFix64 (v : Int) : String :=
  let integer := Int.tdiv v 100000000
  let fraction := Int.tmod v 100000000
  let sign : List Char := if fraction < 0 ∧ integer = 0 then ['-'] else []
  ⟨sign ++ intDigits integer ++ '.' :: padLeft (natDigits fraction.natAbs) '0' 8⟩

/-- Modelled from the spec: one rune of the library's `QuoteString` (absent
from src/): NUL, newline, carriage return, tab, backslash and double quote are
written as the escapes `\0 \n \r \t \\ \"`, the printable ASCII characters
`0x20..0x7E` as themselves, any other rune as `\u{…}` with its lower-case
hexadecimal code. -/
def quoteRune (r : Char) : List Char :=
  if r.toNat = 0 then ['\\', '0']
  else if r = '\n' then ['\\', 'n']
  else if r = '\r' then ['\\', 'r']
  else if r = '\t' then ['\\', 't']
  else if r = '\\' then ['\\', '\\']
  else if r = '"' then ['\\', '"']
  else if 0x20 ≤ r.toNat ∧ r.toNat ≤ 0x7E then [r]
  else '\\' :: 'u' :: '{' :: (hexDigits r.toNat ++ ['}'])

/-- Modelled from the spec: the library's `QuoteString`, the rendering
`String()` of a `cadence.String` (absent from src/): the escaped runes between
double quotes. -/
def QuoteString (s : String) : String :=
  ⟨'"' :: (s.data.flatMap quoteRune ++ ['"'])⟩

/-- Concatenation of texts with a separator (`strings.Join`). -/
def joinSep (sep : List Char) : List (List Char) → List Char
  | [] => []
  | [x] => x
  | x :: y :: rest => x ++ sep ++ joinSep sep (y :: rest)

mutual
/-- Modelled from the spec: the method `String()` of a `cadence.Value`
(library, absent from src/), the value's native textual rendering.  `none` is
the panic of a method call on a nil interface. -/
def valueChars : Value → Option (List Char)
  | .nil => none
  | .Optional .nil => some "nil".data
  | .Optional v => valueChars v
  | .Bool b => some (if b then "true".data else "false".data)
  | .String s => some (QuoteString s).data
  | .Address bytes => some (addressString bytes).data
  | .Int v => some (intDigits v)
  | .UInt v => some (natDigits v)
  | .Int8 v => some (intDigits v)
  | .Int16 v => some (intDigits v)
  | .Int32 v => some (intDigits v)
  | .Int64 v => some (intDigits v)
  | .UInt8 v => some (natDigits v)
  | .UInt16 v => some (natDigits v)
  | .UInt32 v => some (natDigits v)
  | .UInt64 v => some (natDigits v)
  | .Fix64 v => some (formatFix64 v).data
  | .UFix64 v => some (formatUFix64 v).data
  | .Array values =>
    match valueCharsList values with
    | none => none
    | some xs => some ('[' :: (joinSep ", ".data xs ++ [']']))
  | .Dictionary pairs =>
    match valueCharsPairs pairs with
    | none => none
    | some xs => some ('{' :: (joinSep ", ".data xs ++ ['}']))
  | .Struct t fields =>
    match valueCharsFields fields t.Fields with
    | none => none
    | some xs => some (t.ID.data ++ '(' :: (joinSep ", ".data xs ++ [')']))
  | .Resource t fields =>
    match valueCharsFields fields t.Fields with
    | none => none
    | some xs => some (t.ID.data ++ '(' :: (joinSep ", ".data xs ++ [')']))
  | .Event t fields =>
    match valueCharsFields fields t.Fields with
    | none => none
    | some xs => some (t.ID.data ++ '(' :: (joinSep ", ".data xs ++ [')']))
  | .Capability id address borrowType =>
    some ("Capability<".data ++ borrowType.data ++ ">(address: ".data
      ++ (addressString address).data ++ ", id: ".data ++ natDigits id ++ [')'])
  | .TypeValue staticType => some ("Type<".data ++ staticType.data ++ ">()".data)
  | .Other rendering _ => some rendering.data
/-- Renderings of the elements of an array. -/
def valueCharsList : List Value → Option (List (List Char))
  | [] => some []
  | v :: rest =>
    match valueChars v with
    | none => none
    | some x =>
      match valueCharsList rest with
      | none => none
      | some xs => some (x :: xs)
/-- Renderings `key: value` of the pairs of a dictionary. -/
def valueCharsPairs : List (Value × Value) → Option (List (List Char))
  | [] => some []
  | (k, v) :: rest =>
    match valueChars k with
    | none => none
    | some x =>
      match valueChars v with
      | none => none
      | some y =>
        match valueCharsPairs rest with
        | none => none
        | some xs => some ((x ++ ": ".data ++ y) :: xs)
/-- Renderings `name: value` of the fields of a composite, one per declared
field; a declared field without a value is an index out of range. -/
def valueCharsFields : List Value → List Field → Option (List (List Char))
  | _, [] => some []
  | [], _ :: _ => none
  | v :: rest, f :: fs =>
    match valueChars v with
    | none => none
    | some x =>
      match valueCharsFields rest fs with
      | none => none
      | some xs => some ((f.Identifier.data ++ ": ".data ++ x) :: xs)
end

/-- The rendering `value.String()` as a string. -/
def valueString (v : Value) : Option String := (valueChars v).map String.mk

/-- Modelled from the spec: the method `ToGoValue()` of a `cadence.Value`
(library, absent from src/), the value's best-effort primitive conversion.
Go values that are no interchange values (a byte array, a map with arbitrary
keys, a type) are `IValue.other`.  The decoder calls it only in its default
case and the string normalizer only asserts that its result is a string. -/
def ToGoValue : Value → IValue
  | .nil => .null
  | .Optional v => ToGoValue v
  | .Bool b => .bool b
  | .String s => .string s
  | .Address _ => .other "[8]uint8"
  | .Int v => .bigInt v
  | .UInt v => .bigInt v
  | .Int8 v => .num .int8 v
  | .Int16 v => .num .int16 v
  | .Int32 v => .num .int32 v
  | .Int64 v => .num .int64 v
  | .UInt8 v => .num .uint8 v
  | .UInt16 v => .num .uint16 v
  | .UInt32 v => .num .uint32 v
  | .UInt64 v => .num .uint64 v
  | .Fix64 v => .num .int64 v
  | .UFix64 v => .num .uint64 v
  | .Array _ => .other "[]interface {}"
  | .Dictionary _ => .other "map[interface {}]interface {}"
  | .Struct _ _ => .other "[]interface {}"
  | .Resource _ _ => .other "[]interface {}"
  | .Event _ _ => .other "[]interface {}"
  | .Capability _ _ _ => .null
  | .TypeValue _ => .other "cadence.Type"
  | .Other _ g => g

/-! ### `strconv.Unquote` and `strings` (Go standard library) -/

/-- Modelled from the spec: `unhex` of `strconv` (absent from src/): the value
of a hexadecimal digit. -/
def unhex (c : Char) : Option Nat :=
  if '0' ≤ c ∧ c ≤ '9' then some (c.toNat - '0'.toNat)
  else if 'a' ≤ c ∧ c ≤ 'f' then some (c.toNat - 'a'.toNat + 10)
  else if 'A' ≤ c ∧ c ≤ 'F' then some (c.toNat - 'A'.toNat + 10)
  else none

/-- The value of exactly `n` leading hexadecimal digits, with the rest of the
input; `none` when there are fewer than `n` digits or one is no digit. -/
def hexValue : Nat → List Char → Nat → Option (Nat × List Char)
  | 0, s, v => some (v, s)
  | _ + 1, [], _ => none
  | n + 1, c :: s, v =>
    match unhex c with
    | none => none
    | some x => hexValue n s (v * 16 + x)

/-- The value of exactly `n` leading octal digits after a first value `v`. -/
def octValue : Nat → List Char → Nat → Option (Nat × List Char)
  | 0, s, v => some (v, s)
  | _ + 1, [], _ => none
  | n + 1, c :: s, v =>
    if '0' ≤ c ∧ c ≤ '7' then octValue n s (v * 8 + (c.toNat - '0'.toNat)) else none

/-- Modelled from the spec: `strconv.UnquoteChar` (Go standard library, absent
from src/): decodes the first character or escape sequence of `s` and returns
it with the rest of the input; `none` is `ErrSyntax`.  A byte escape `\xHH` or
`\ooo` of value `0x80` or more, which in Go yields one raw byte, is identified
with the code point of that value. -/
def UnquoteChar (s : List Char) (quote : Char) : Option (Char × List Char) :=
  match s with
  | [] => none
  | c :: rest =>
    if c = quote ∧ (quote = '\'' ∨ quote = '"') then none
    else if c ≠ '\\' then some (c, rest)
    else
      match rest with
      | [] => none
      | e :: s =>
        if e = 'a' then some (Char.ofNat 7, s)
        else if e = 'b' then some (Char.ofNat 8, s)
        else if e = 'f' then some (Char.ofNat 12, s)
        else if e = 'n' then some ('\n', s)
        else if e = 'r' then some ('\r', s)
        else if e = 't' then some ('\t', s)
        else if e = 'v' then some (Char.ofNat 11, s)
        else if e = 'x' then
          match hexValue 2 s 0 with
          | none => none
          | some (v, tail) => some (Char.ofNat v, tail)
        else if e = 'u' then
          match hexValue 4 s 0 with
          | none => none
          | some (v, tail) => if v.isValidChar then some (Char.ofNat v, tail) else none
        else if e = 'U' then
          match hexValue 8 s 0 with
          | none => none
          | some (v, tail) => if v.isValidChar then some (Char.ofNat v, tail) else none
        else if '0' ≤ e ∧ e ≤ '7' then
          match octValue 2 s (e.toNat - '0'.toNat) with
          | none => none
          | some (v, tail) => if v > 255 then none else some (Char.ofNat v, tail)
        else if e = '\\' then some ('\\', s)
        else if e = '\'' ∨ e = '"' then (if e ≠ quote then none else some (e, s))
        else none

/-- The input before the first occurrence of `q` and the input after it. -/
def splitAtQuote (q : Char) : List Char → Option (List Char × List Char)
  | [] => none
  | c :: rest =>
    if c = q then some ([], rest)
    else
      match splitAtQuote q rest with
      | none => none
      | some (before, after) => some (c :: before, after)

/-- The loop of `strconv.Unquote` over a quoted text with escape sequences:
reads characters into `buf` until the input is empty or starts with the quote
and returns the buffer with the remaining input.  The fuel bounds the number
of iterations; every iteration consumes input, so the length of the input plus
one is enough. -/
def unquoteLoop (quote : Char) : Nat → List Char → List Char → Option (List Char × List Char)
  | 0, _, _ => none
  | fuel + 1, inp, buf =>
    match inp with
    | [] => some (buf, inp)
    | c :: _ =>
      if c = quote then some (buf, inp)
      else
        match UnquoteChar inp quote with
        | none => none
        | some (r, rem) =>
          if c = '\n' then none
          else if quote = '\'' then some (buf ++ [r], rem)
          else unquoteLoop quote fuel rem (buf ++ [r])

/-- Modelled from the spec: `strconv.Unquote` (Go standard library, absent from
src/): interprets `s` as a single-quoted, double-quoted or backquoted Go string
literal and returns the string it quotes; `none` is `ErrSyntax`. -/
def Unquote (s : String) : Option String :=
  match s.data with
  | [] => none
  | [_] => none
  | quote :: body =>
    match splitAtQuote quote body with
    | none => none
    | some (content, after) =>
      if quote = '`' then
        (if after = [] then some ⟨content.filter (fun c => c ≠ '\r')⟩ else none)
      else if quote = '"' ∨ quote = '\'' then
        if ¬ '\\' ∈ content ∧ ¬ '\n' ∈ content ∧ (quote = '"' ∨ content.length ≤ 1) then
          (if after = [] then some ⟨content⟩ else none)
        else
          match unquoteLoop quote (body.length + 1) body [] with
          | none => none
          | some (_, []) => none
          | some (buf, c :: rem) => if c = quote ∧ rem = [] then some ⟨buf⟩ else none
      else none

/-- The text `s` starts with `p`. -/
def hasPrefix (p s : List Char) : Bool :=
  match p, s with
  | [], _ => true
  | _ :: _, [] => false
  | a :: p', b :: s' => a = b && hasPrefix p' s'

/-- Modelled from the spec: `strings.Contains` (Go standard library, absent
from src/): `sub` occurs in `s`. -/
def stringsContains (s sub : List Char) : Bool :=
  match s with
  | [] => hasPrefix sub []
  | c :: rest => hasPrefix sub (c :: rest) || stringsContains rest sub

/-- The call `strings.Replace(result, "\x00", "", -1)`: every NUL is removed. -/
def stripNul (s : String) : String := ⟨s.data.filter (fun c => c.toNat ≠ 0)⟩

/-! ## utils.go -/

/-- The function `getAndUnquoteString` of utils.go, the string normalizer.
`none` is a panic: a method call on a nil value or the failed type assertion
`value.ToGoValue().(string)`. -/
def getAndUnquoteString (value : Value) : Option String :=
  match valueString value with
  | none => none
  | some rendering =>
    match Unquote rendering with
    | some result => some (stripNul result)
    | none =>
      let result := rendering
      if stringsContains result.data "\\u".data || stringsContains result.data "\\U".data then
        match ToGoValue value with
        | .string result => some (stripNul result)
        | _ => none
      else some (stripNul result)

/-! ## output.go -/

/-- The record `Options` of output.go. -/
structure Options where
  IncludeEmptyValues : Bool
  WrapWithComplexTypes : Bool
  UseStringForFixedNumbers : Bool
  deriving DecidableEq, Repr

/-- The variable `defaultOptions` of output.go. -/
def defaultOptions : Options :=
  { IncludeEmptyValues := false, WrapWithComplexTypes := false, UseStringForFixedNumbers := false }

mutual
/-- The function `CadenceValueToInterfaceWithOption` of output.go.  `none` is a
panic.  In the case of a `Capability` the two recursive calls are on an
`Address` and on a `UInt64`; their results (the cases `Address` and default
below) are written out. -/
def CadenceValueToInterfaceWithOption : Value → Options → Option IValue
  | .nil, _ => some .null
  | .Optional value, opt => CadenceValueToInterfaceWithOption value opt
  | .Dictionary pairs, opt =>
    match dictLoop pairs opt [] with
    | none => none
    | some result =>
      if result.length = 0 ∧ ¬ opt.IncludeEmptyValues then some .null
      else some (.map result)
  | .Struct structType fields, opt =>
    match structLoop fields structType.Fields 0 opt [] with
    | none => none
    | some result =>
      if result.length = 0 ∧ ¬ opt.IncludeEmptyValues then some .null
      else if ¬ opt.WrapWithComplexTypes then some (.map result)
      else some (.map [("<" ++ structType.ID ++ ">", .map result)])
  | .Array values, opt =>
    match arrayLoop values opt [] with
    | none => none
    | some result =>
      if result.length = 0 ∧ ¬ opt.IncludeEmptyValues then some .null
      else some (.list result)
  | .Int v, _ => some (.string ⟨intDigits v⟩)
  | .UInt v, _ => some (.string ⟨natDigits v⟩)
  | .Address bytes, _ => some (.string (addressString bytes))
  | .TypeValue staticType, _ => some (.string staticType)
  | .String s, opt =>
    match getAndUnquoteString (.String s) with
    | none => none
    | some value =>
      if value = "" ∧ ¬ opt.IncludeEmptyValues then some .null
      else some (.string value)
  | .UFix64 v, opt =>
    if opt.UseStringForFixedNumbers then some (.string (formatUFix64 v))
    else some (.float64 (formatUFix64 v))
  | .Fix64 v, opt =>
    if opt.UseStringForFixedNumbers then some (.string (formatFix64 v))
    else some (.float64 (formatFix64 v))
  | .Event eventType fields, opt =>
    match eventLoop fields eventType.Fields 0 opt [] with
    | none => none
    | some result =>
      if ¬ opt.WrapWithComplexTypes then some (.map result)
      else some (.map [("<" ++ eventType.ID ++ ">", .map result)])
  | .Resource resourceType fields, opt =>
    match structLoop fields resourceType.Fields 0 opt [] with
    | none => none
    | some result =>
      if ¬ opt.WrapWithComplexTypes then some (.map result)
      else some (.map [("<@" ++ resourceType.ID ++ ">", .map result)])
  | .Capability id address borrowType, opt =>
    let fields : List (String × IValue) :=
      mapSet (mapSet [] "address" (.string (addressString address))) "id" (.num .uint64 id)
    if ¬ opt.WrapWithComplexTypes then some (.map fields)
    else some (.map [("<Capability<" ++ borrowType ++ ">>", .map fields)])
  | .Bool b, _ => some (.bool b)
  | .Int8 v, _ => some (.num .int8 v)
  | .Int16 v, _ => some (.num .int16 v)
  | .Int32 v, _ => some (.num .int32 v)
  | .Int64 v, _ => some (.num .int64 v)
  | .UInt8 v, _ => some (.num .uint8 v)
  | .UInt16 v, _ => some (.num .uint16 v)
  | .UInt32 v, _ => some (.num .uint32 v)
  | .UInt64 v, _ => some (.num .uint64 v)
  | .Other rendering goValue, _ =>
    if ¬ goValue.isNil then some goValue else some (.string rendering)
/-- The loop over `field.Pairs` in the case `cadence.Dictionary`, with the map
`result` built so far. -/
def dictLoop : List (Value × Value) → Options → List (String × IValue) →
    Option (List (String × IValue))
  | [], _, result => some result
  | (itemKey, itemValue) :: rest, opt, result =>
    match CadenceValueToInterfaceWithOption itemValue opt with
    | none => none
    | some value =>
      match getAndUnquoteString itemKey with
      | none => none
      | some key =>
        if key ≠ "" then
          if ¬ value.isNil ∨ opt.IncludeEmptyValues then dictLoop rest opt (mapSet result key value)
          else dictLoop rest opt result
        else dictLoop rest opt result
/-- The loop over `field.Fields` in the cases `cadence.Struct` and
`cadence.Resource` (the same loop twice in the source), with the index `j`
into the declared fields and the map `result` built so far. -/
def structLoop : List Value → List Field → Nat → Options → List (String × IValue) →
    Option (List (String × IValue))
  | [], _, _, _, result => some result
  | subField :: rest, subStructNames, j, opt, result =>
    match CadenceValueToInterfaceWithOption subField opt with
    | none => none
    | some value =>
      match subStructNames[j]? with
      | none => none
      | some name =>
        if ¬ value.isNil ∨ opt.IncludeEmptyValues then
          structLoop rest subStructNames (j + 1) opt (mapSet result name.Identifier value)
        else structLoop rest subStructNames (j + 1) opt result
/-- The loop over `field.Fields` in the case `cadence.Event`; the declared
field is indexed only when the value is kept. -/
def eventLoop : List Value → List Field → Nat → Options → List (String × IValue) →
    Option (List (String × IValue))
  | [], _, _, _, result => some result
  | subField :: rest, eventFields, i, opt, result =>
    match CadenceValueToInterfaceWithOption subField opt with
    | none => none
    | some value =>
      if ¬ value.isNil ∨ opt.IncludeEmptyValues then
        match eventFields[i]? with
        | none => none
        | some name => eventLoop rest eventFields (i + 1) opt (mapSet result name.Identifier value)
      else eventLoop rest eventFields (i + 1) opt result
/-- The loop over `field.Values` in the case `cadence.Array`, with the slice
`result` built so far. -/
def arrayLoop : List Value → Options → List IValue → Option (List IValue)
  | [], _, result => some result
  | item :: rest, opt, result =>
    match CadenceValueToInterfaceWithOption item opt with
    | none => none
    | some value =>
      if ¬ value.isNil ∨ opt.IncludeEmptyValues then arrayLoop rest opt (result ++ [value])
      else arrayLoop rest opt result
end

/-- The function `CadenceValueToInterface` of output.go. -/
def CadenceValueToInterface (field : Value) : Option IValue :=
  CadenceValueToInterfaceWithOption field defaultOptions

/-! ## utils.go: the address codec -/

/-- An error value or a panic of the encoding path. -/
inductive Failure where
  | error (message : String)
  | panic (message : String)
  deriving DecidableEq, Repr

/-- Modelled from the spec: `strings.TrimPrefix` (Go standard library, absent
from src/): `s` without the leading `p`, or `s` itself. -/
def TrimPrefix (s p : List Char) : List Char :=
  if hasPrefix p s then s.drop p.length else s

/-- Modelled from the spec: `hex.DecodeString` (Go standard library, absent
from src/): the bytes denoted by pairs of hexadecimal digits; an error on a
character that is no hexadecimal digit or on an odd number of digits. -/
def hexDecodeString : List Char → Except String (List Nat)
  | [] => .ok []
  | [c] =>
    match unhex c with
    | none => .error ("encoding/hex: invalid byte: " ++ String.mk [c])
    | some _ => .error "encoding/hex: odd length hex string"
  | p :: q :: rest =>
    match unhex p with
    | none => .error ("encoding/hex: invalid byte: " ++ String.mk [p])
    | some a =>
      match unhex q with
      | none => .error ("encoding/hex: invalid byte: " ++ String.mk [q])
      | some b =>
        match hexDecodeString rest with
        | .error e => .error e
        | .ok bytes => .ok ((a * 16 + b) :: bytes)

/-- Modelled from the spec: `cadence.BytesToAddress` (library, absent from
src/): the 8-byte address that ends with `b`, padded with zero bytes at the
front; the slice expression of the library panics when `b` has more than 8
bytes. -/
def BytesToAddress (b : List Nat) : Except Failure (List Nat) :=
  if b.length > 8 then .error (.panic "slice bounds out of range")
  else .ok (List.replicate (8 - b.length) 0 ++ b)

/-- The function `hexToAddress` of utils.go. -/
def hexToAddress (h : String) : Except Failure (List Nat) :=
  let trimmed := TrimPrefix h.data "0x".data
  let trimmed := if trimmed.length % 2 = 1 then '0' :: trimmed else trimmed
  match hexDecodeString trimmed with
  | .error err => .error (.error err)
  | .ok b => BytesToAddress b

/-! ## input.go -/

/-- Modelled from the spec: a tag of the library `structtag` (absent from
src/): `key:"name,option,…"`. -/
structure Tag where
  Key : String
  Name : String
  Options : List String
  deriving DecidableEq, Repr

/-- Modelled from the spec: the result of `structtag.Parse` on the tag text of
a field (library, absent from src/): an error, a nil `*Tags`, or the tags. -/
inductive ParsedTags where
  | error (message : String)
  | nilTags
  | tags (ts : List Tag)
  deriving DecidableEq, Repr

/-- Modelled from the spec: `reflect.StructField` (Go standard library, absent
from src/): the name of a field, the result `Lower` of the library's
`strings.ToLower` on that name (the name with every Unicode letter mapped to
its lower case: `bar` for `Bar`, `éa` for `Éa`), and its tag, already parsed. -/
structure StructField where
  Name : String
  Lower : String
  Tag : ParsedTags
  deriving DecidableEq, Repr

/-- Modelled from the spec: `(*Tags).Get` of `structtag` (absent from src/):
the first tag with the key, if any. -/
def tagsGet (ts : List Tag) (key : String) : Option Tag :=
  ts.find? (fun t => t.Key = key)

/-- Modelled from the spec: `reflect.Value` (Go standard library, absent from
src/), a native Go value seen through reflection, by kind.  `Invalid` is the
zero `reflect.Value` (of a nil interface).  An `Interface` carries the result
of the library's `cadence.NewValue` on the value it holds, and a `Float64` the
result of `cadence.NewUFix64` on its `%f` text.  `defined` tells that the type
of a value of a primitive kind is a defined type (`type Celsius int8`), not the
predeclared type itself.  A `Map` lists its entries in the order of iteration.
`Unsupported k` is a value of any other kind, `k` being the name of the kind.
Struct fields are exported. -/
inductive Native where
  | Invalid
  | Interface (converted : Except String Value)
  | Struct (typeName : String) (fields : List (StructField × Native))
  | NilPointer
  | Pointer (elem : Native)
  | Int (kind : IntKind) (defined : Bool) (v : Int)
  | Bool (defined : Bool) (b : Bool)
  | String (defined : Bool) (s : String)
  | Float64 (defined : Bool) (converted : Except String Value)
  | Map (entries : List (Native × Native))
  | Slice (elems : List Native)
  | Array (elems : List Native)
  | Unsupported (kind : String)

/-- The type `InputResolver` of input.go. -/
abbrev InputResolver := String → Except String String

/-- Modelled from the spec: the method `Type()` of a `cadence.Value` (library,
absent from src/), by the identifier of the type; the empty text stands for a
type that is not set. -/
def valueType : Value → String
  | .nil => ""
  | .Optional _ => "Optional"
  | .Bool _ => "Bool"
  | .String _ => "String"
  | .Address _ => "Address"
  | .Int _ => "Int"
  | .UInt _ => "UInt"
  | .Int8 _ => "Int8"
  | .Int16 _ => "Int16"
  | .Int32 _ => "Int32"
  | .Int64 _ => "Int64"
  | .UInt8 _ => "UInt8"
  | .UInt16 _ => "UInt16"
  | .UInt32 _ => "UInt32"
  | .UInt64 _ => "UInt64"
  | .Fix64 _ => "Fix64"
  | .UFix64 _ => "UFix64"
  | .Array _ => ""
  | .Dictionary _ => ""
  | .Struct t _ => t.ID
  | .Resource t _ => t.ID
  | .Event t _ => t.ID
  | .Capability _ _ borrowType => "Capability<" ++ borrowType ++ ">"
  | .TypeValue _ => "Type"
  | .Other _ _ => ""

/-- The constructors `cadence.NewInt`, `cadence.NewInt8`, … `cadence.NewUInt64`
called in the integer cases of `ReflectToCadence`, by kind. -/
def newInteger (kind : IntKind) (v : Int) : Value :=
  match kind with
  | .int => .Int v
  | .int8 => .Int8 v
  | .int16 => .Int16 v
  | .int32 => .Int32 v
  | .int64 => .Int64 v
  | .uint => .UInt v.toNat
  | .uint8 => .UInt8 v.toNat
  | .uint16 => .UInt16 v.toNat
  | .uint32 => .UInt32 v.toNat
  | .uint64 => .UInt64 v.toNat

/-- The values of the Go type of an integer kind (`int` and `uint` have 64
bits). -/
def IntKind.inRange (kind : IntKind) (v : Int) : Prop :=
  match kind with
  | .int => -(2 ^ 63) ≤ v ∧ v < 2 ^ 63
  | .int8 => -(2 ^ 7) ≤ v ∧ v < 2 ^ 7
  | .int16 => -(2 ^ 15) ≤ v ∧ v < 2 ^ 15
  | .int32 => -(2 ^ 31) ≤ v ∧ v < 2 ^ 31
  | .int64 => -(2 ^ 63) ≤ v ∧ v < 2 ^ 63
  | .uint => 0 ≤ v ∧ v < 2 ^ 64
  | .uint8 => 0 ≤ v ∧ v < 2 ^ 8
  | .uint16 => 0 ≤ v ∧ v < 2 ^ 16
  | .uint32 => 0 ≤ v ∧ v < 2 ^ 32
  | .uint64 => 0 ≤ v ∧ v < 2 ^ 64

/-- The panic of a failed type assertion `value.Interface().(T)` on a value
whose type is a defined type of the kind of `T`. -/
def assertionPanic : Failure := .panic "interface conversion: interface {} is not of the asserted type"

/-- The function `IsTagCadecenAddress` of input.go. -/
def IsTagCadecenAddress (tag : Option Tag) : Bool :=
  match tag with
  | none => false
  | some t => t.Options.any (fun opt => opt = "cadenceAddress")

mutual
/-- The function `ReflectToCadence` of input.go.  The third argument and the
second component of the result are the names the resolver has been called
with so far, in order. -/
def ReflectToCadence : Native → InputResolver → List String →
    Except Failure Value × List String
  | .Invalid, _, calls =>
    (.error (.panic "reflect: call of reflect.Value.Type on zero Value"), calls)
  | .Interface converted, _, calls =>
    match converted with
    | .ok v => (.ok v, calls)
    | .error err => (.error (.error err), calls)
  | .Struct typeName fields, resolver, calls =>
    match structFields fields resolver calls [] [] with
    | (.error err, calls) => (.error err, calls)
    | (.ok (val, flds), calls) =>
      match resolver typeName with
      | .error err => (.error (.error err), calls ++ [typeName])
      | .ok resolvedIdentifier =>
        (.ok (.Struct { Location := none, QualifiedIdentifier := resolvedIdentifier,
                        Fields := flds } val), calls ++ [typeName])
  | .NilPointer, _, calls => (.ok (.Optional .nil), calls)
  | .Pointer elem, resolver, calls =>
    match ReflectToCadence elem resolver calls with
    | (.error err, calls) => (.error err, calls)
    | (.ok ptrValue, calls) => (.ok (.Optional ptrValue), calls)
  | .Int kind defined v, _, calls =>
    if defined then (.error assertionPanic, calls) else (.ok (newInteger kind v), calls)
  | .Bool defined b, _, calls =>
    if defined then (.error assertionPanic, calls) else (.ok (.Bool b), calls)
  | .String defined s, _, calls =>
    if defined then (.error assertionPanic, calls) else (.ok (.String s), calls)
  | .Float64 defined converted, _, calls =>
    if defined then (.error assertionPanic, calls)
    else
      match converted with
      | .ok v => (.ok v, calls)
      | .error err => (.error (.error err), calls)
  | .Map entries, resolver, calls =>
    match mapEntries entries resolver calls [] with
    | (.error err, calls) => (.error err, calls)
    | (.ok array, calls) => (.ok (.Dictionary array), calls)
  | .Slice elems, resolver, calls =>
    match sliceElems elems resolver calls [] with
    | (.error err, calls) => (.error err, calls)
    | (.ok array, calls) => (.ok (.Array array), calls)
  | .Array elems, resolver, calls =>
    match sliceElems elems resolver calls [] with
    | (.error err, calls) => (.error err, calls)
    | (.ok array, calls) => (.ok (.Array array), calls)
  | .Unsupported kind, _, calls =>
    (.error (.error ("Not supported type for now. Type : " ++ kind)), calls)
/-- The loop over the fields in the case `reflect.Struct`, with the values
`val` and the declared fields `fields` built so far. -/
def structFields : List (StructField × Native) → InputResolver → List String →
    List Value → List Field → Except Failure (List Value × List Field) × List String
  | [], _, calls, val, fields => (.ok (val, fields), calls)
  | (field, fieldValue) :: rest, resolver, calls, val, fields =>
    match ReflectToCadence fieldValue resolver calls with
    | (.error err, calls) => (.error err, calls)
    | (.ok cadenceVal, calls) =>
      match cadenceVal with
      | .nil => (.error (.panic "invalid memory address or nil pointer dereference"), calls)
      | _ =>
      let cadenceType := valueType cadenceVal
      match field.Tag with
      | .error err => (.error (.error err), calls)
      | .nilTags => (.error (.panic "invalid memory address or nil pointer dereference"), calls)
      | .tags tags =>
        let tag : Option Tag :=
          match tagsGet tags "cadence" with
          | some t => some t
          | none => tagsGet tags "json"
        let name : String :=
          match tag with
          | some t => t.Name
          | none => ""
        if name = "-" then structFields rest resolver calls val fields
        else
          let name := if name = "" then field.Lower else name
          if IsTagCadecenAddress tag then
            match getAndUnquoteString cadenceVal with
            | none => (.error assertionPanic, calls)
            | some stringVal =>
              match hexToAddress stringVal with
              | .error err => (.error err, calls)
              | .ok adr =>
                structFields rest resolver calls (val ++ [.Address adr])
                  (fields ++ [{ Identifier := name, fieldType := "Address" }])
          else
            structFields rest resolver calls (val ++ [cadenceVal])
              (fields ++ [{ Identifier := name, fieldType := cadenceType }])
/-- The loop over the entries in the case `reflect.Map`, with the pairs built
so far. -/
def mapEntries : List (Native × Native) → InputResolver → List String →
    List (Value × Value) → Except Failure (List (Value × Value)) × List String
  | [], _, calls, array => (.ok array, calls)
  | (key, val) :: rest, resolver, calls, array =>
    match ReflectToCadence key resolver calls with
    | (.error err, calls) => (.error err, calls)
    | (.ok cadenceKey, calls) =>
      match ReflectToCadence val resolver calls with
      | (.error err, calls) => (.error err, calls)
      | (.ok cadenceVal, calls) => mapEntries rest resolver calls (array ++ [(cadenceKey, cadenceVal)])
/-- The loop over the elements in the case `reflect.Slice, reflect.Array`,
with the values built so far. -/
def sliceElems : List Native → InputResolver → List String → List Value →
    Except Failure (List Value) × List String
  | [], _, calls, array => (.ok array, calls)
  | arrValue :: rest, resolver, calls, array =>
    match ReflectToCadence arrValue resolver calls with
    | (.error err, calls) => (.error err, calls)
    | (.ok cadenceVal, calls) => sliceElems rest resolver calls (array ++ [cadenceVal])
end

/-- The function `InputToCadence` of input.go: `reflect.ValueOf(v)` is the
native value itself, and no resolver call has been made yet. -/
def InputToCadence (v : Native) (resolver : InputResolver) : Except Failure Value :=
  (ReflectToCadence v resolver []).1

/-! ## input.go, with both results of each `return` -/

/-- What a call of `ReflectToCadence` gives back in Go: the two results
`value, err` of the `return` statement it leaves by (`Value.nil` is the nil
`cadence.Value`, `none` the nil error), or nothing, when it panics. -/
inductive Returned where
  | results (value : Value) (err : Option String)
  | panics (message : String)

/-- A result of the encoder as a value or a failure: with an error the value
that comes with it is dropped. -/
def Returned.toExcept : Returned → Except Failure Value
  | .results value none => .ok value
  | .results _ (some err) => .error (.error err)
  | .panics message => .error (.panic message)

mutual
/-- The function `ReflectToCadence` of input.go once more, with both results of
each `return` kept as they are written: `return nil, err` in the cases of the
struct, the pointer, the map and the slice or array, `return result, err` in
the cases of the string and the float64, and the results of `cadence.NewValue`
in the case of the interface.  The list of the resolver calls is left out.
Modelled from the spec, for the libraries absent from src/: `cadence.NewValue`
gives the nil value with its error, `cadence.NewUFix64` the zero `UFix64` with
its error, and `cadence.NewString` has no error on the strings of this model,
which are valid UTF-8. -/
def ReflectToCadenceReturned : Native → InputResolver → Returned
  | .Invalid, _ => .panics "reflect: call of reflect.Value.Type on zero Value"
  | .Interface converted, _ =>
    match converted with
    | .ok v => .results v none
    | .error err => .results .nil (some err)
  | .Struct typeName fields, resolver =>
    match structFieldsReturned fields resolver [] [] with
    | .error returned => returned
    | .ok (val, flds) =>
      match resolver typeName with
      | .error err => .results .nil (some err)
      | .ok resolvedIdentifier =>
        .results (.Struct { Location := none, QualifiedIdentifier := resolvedIdentifier,
                            Fields := flds } val) none
  | .NilPointer, _ => .results (.Optional .nil) none
  | .Pointer elem, resolver =>
    match ReflectToCadenceReturned elem resolver with
    | .panics message => .panics message
    | .results _ (some err) => .results .nil (some err)
    | .results ptrValue none => .results (.Optional ptrValue) none
  | .Int kind defined v, _ =>
    if defined then .panics "interface conversion: interface {} is not of the asserted type"
    else .results (newInteger kind v) none
  | .Bool defined b, _ =>
    if defined then .panics "interface conversion: interface {} is not of the asserted type"
    else .results (.Bool b) none
  | .String defined s, _ =>
    if defined then .panics "interface conversion: interface {} is not of the asserted type"
    else .results (.String s) none
  | .Float64 defined converted, _ =>
    if defined then .panics "interface conversion: interface {} is not of the asserted type"
    else
      match converted with
      | .ok v => .results v none
      | .error err => .results (.UFix64 0) (some err)
  | .Map entries, resolver =>
    match mapEntriesReturned entries resolver [] with
    | .error returned => returned
    | .ok array => .results (.Dictionary array) none
  | .Slice elems, resolver =>
    match sliceElemsReturned elems resolver [] with
    | .error returned => returned
    | .ok array => .results (.Array array) none
  | .Array elems, resolver =>
    match sliceElemsReturned elems resolver [] with
    | .error returned => returned
    | .ok array => .results (.Array array) none
  | .Unsupported kind, _ =>
    .results .nil (some ("Not supported type for now. Type : " ++ kind))
/-- The loop over the fields in the case `reflect.Struct`: the values and the
declared fields once the loop is done, or what the function gives back when it
is left from inside the loop. -/
def structFieldsReturned : List (StructField × Native) → InputResolver →
    List Value → List Field → Except Returned (List Value × List Field)
  | [], _, val, fields => .ok (val, fields)
  | (field, fieldValue) :: rest, resolver, val, fields =>
    match ReflectToCadenceReturned fieldValue resolver with
    | .panics message => .error (.panics message)
    | .results _ (some err) => .error (.results .nil (some err))
    | .results cadenceVal none =>
      match cadenceVal with
      | .nil => .error (.panics "invalid memory address or nil pointer dereference")
      | _ =>
      let cadenceType := valueType cadenceVal
      match field.Tag with
      | .error err => .error (.results .nil (some err))
      | .nilTags => .error (.panics "invalid memory address or nil pointer dereference")
      | .tags tags =>
        let tag : Option Tag :=
          match tagsGet tags "cadence" with
          | some t => some t
          | none => tagsGet tags "json"
        let name : String :=
          match tag with
          | some t => t.Name
          | none => ""
        if name = "-" then structFieldsReturned rest resolver val fields
        else
          let name := if name = "" then field.Lower else name
          if IsTagCadecenAddress tag then
            match getAndUnquoteString cadenceVal with
            | none =>
              .error (.panics "interface conversion: interface {} is not of the asserted type")
            | some stringVal =>
              match hexToAddress stringVal with
              | .error (.error err) => .error (.results .nil (some err))
              | .error (.panic message) => .error (.panics message)
              | .ok adr =>
                structFieldsReturned rest resolver (val ++ [.Address adr])
                  (fields ++ [{ Identifier := name, fieldType := "Address" }])
          else
            structFieldsReturned rest resolver (val ++ [cadenceVal])
              (fields ++ [{ Identifier := name, fieldType := cadenceType }])
/-- The loop over the entries in the case `reflect.Map`, likewise. -/
def mapEntriesReturned : List (Native × Native) → InputResolver →
    List (Value × Value) → Except Returned (List (Value × Value))
  | [], _, array => .ok array
  | (key, val) :: rest, resolver, array =>
    match ReflectToCadenceReturned key resolver with
    | .panics message => .error (.panics message)
    | .results _ (some err) => .error (.results .nil (some err))
    | .results cadenceKey none =>
      match ReflectToCadenceReturned val resolver with
      | .panics message => .error (.panics message)
      | .results _ (some err) => .error (.results .nil (some err))
      | .results cadenceVal none =>
        mapEntriesReturned rest resolver (array ++ [(cadenceKey, cadenceVal)])
/-- The loop over the elements in the case `reflect.Slice, reflect.Array`,
likewise. -/
def sliceElemsReturned : List Native → InputResolver → List Value →
    Except Returned (List Value)
  | [], _, array => .ok array
  | arrValue :: rest, resolver, array =>
    match ReflectToCadenceReturned arrValue resolver with
    | .panics message => .error (.panics message)
    | .results _ (some err) => .error (.results .nil (some err))
    | .results cadenceVal none => sliceElemsReturned rest resolver (array ++ [cadenceVal])
end

/-- The function `InputToCadence` of input.go, with both results of the
`return`. -/
def InputToCadenceReturned (v : Native) (resolver : InputResolver) : Returned :=
  ReflectToCadenceReturned v resolver

/-! ## address.go -/

/-- A Go value of type `[]string`: the nil slice, or a slice with its
elements (which may be none). -/
inductive StringSlice where
  | nilSlice
  | slice (elems : List String)
  deriving DecidableEq, Repr

/-- The elements of a slice; the nil slice has none. -/
def StringSlice.elems : StringSlice → List String
  | .nilSlice => []
  | .slice xs => xs

mutual
/-- The function `ExtractAddresses` of address.go; `none` is a panic, of the
string normalizer on a key. -/
def ExtractAddresses : Value → Option StringSlice
  | .nil => some .nilSlice
  | .Optional v => ExtractAddresses v
  | .Dictionary pairs =>
    match extractPairs pairs [] with
    | none => none
    | some result => if result.length = 0 then some .nilSlice else some (.slice result)
  | .Struct _ fields =>
    match extractValues fields [] with
    | none => none
    | some result => if result.length = 0 then some .nilSlice else some (.slice result)
  | .Array values =>
    match extractValues values [] with
    | none => none
    | some result => if result.length = 0 then some .nilSlice else some (.slice result)
  | .Address bytes => some (.slice [addressString bytes])
  | .Bool _ => some (.slice [])
  | .String _ => some (.slice [])
  | .Int _ => some (.slice [])
  | .UInt _ => some (.slice [])
  | .Int8 _ => some (.slice [])
  | .Int16 _ => some (.slice [])
  | .Int32 _ => some (.slice [])
  | .Int64 _ => some (.slice [])
  | .UInt8 _ => some (.slice [])
  | .UInt16 _ => some (.slice [])
  | .UInt32 _ => some (.slice [])
  | .UInt64 _ => some (.slice [])
  | .Fix64 _ => some (.slice [])
  | .UFix64 _ => some (.slice [])
  | .Resource _ _ => some (.slice [])
  | .Event _ _ => some (.slice [])
  | .Capability _ _ _ => some (.slice [])
  | .TypeValue _ => some (.slice [])
  | .Other _ _ => some (.slice [])
/-- The loop over the pairs in the case `cadence.Dictionary`, with the result
built so far. -/
def extractPairs : List (Value × Value) → List String → Option (List String)
  | [], result => some result
  | (itemKey, itemValue) :: rest, result =>
    match ExtractAddresses itemValue with
    | none => none
    | some value =>
      match getAndUnquoteString itemKey with
      | none => none
      | some key =>
        if value ≠ .nilSlice ∧ key ≠ "" then extractPairs rest (result ++ value.elems)
        else extractPairs rest result
/-- The loop over the fields in the case `cadence.Struct` and over the values
in the case `cadence.Array` (the two loops are the same), with the result built
so far. -/
def extractValues : List Value → List String → Option (List String)
  | [], result => some result
  | item :: rest, result =>
    match ExtractAddresses item with
    | none => none
    | some value =>
      if value ≠ .nilSlice then extractValues rest (result ++ value.elems)
      else extractValues rest result
end

/-! ## encoding/json (Go standard library) and the JSON entry points of output.go -/

/-- Modelled from the spec: the texts `encoding/json` writes for the values
whose text the interchange values do not determine (library, absent from
src/): `float d` is the text of the `float64` read from the decimal text `d`,
and `other t level` the lines, with their nesting levels, of a value of another
Go type `t` that begins at the nesting level `level`, or the error of the
library on it. -/
structure JsonLeaves where
  float : String → List Char
  other : String → Nat → Except String (List (Nat × List Char))

/-- Modelled from the spec: the text `encoding/json` writes for a character of
a string (library, absent from src/), with the escaping of HTML characters that
`json.MarshalIndent` applies: the quote, the backslash, the control characters,
`<`, `>`, `&` and the two Unicode line separators are escaped (backspace and
form feed as `\u0008` and `\u000c`, as Go writes them before version 1.22). -/
def jsonEscape (c : Char) : List Char :=
  if c = '"' then ['\\', '"']
  else if c = '\\' then ['\\', '\\']
  else if c = '\n' then ['\\', 'n']
  else if c = '\r' then ['\\', 'r']
  else if c = '\t' then ['\\', 't']
  else if c.toNat < 0x20 ∨ c = '<' ∨ c = '>' ∨ c = '&' then
    '\\' :: 'u' :: '0' :: '0' :: hexByte c.toNat
  else if c.toNat = 0x2028 ∨ c.toNat = 0x2029 then
    ['\\', 'u', '2', '0', '2', Nat.digitChar (c.toNat % 16)]
  else [c]

/-- Modelled from the spec: the JSON text of a Go string (library, absent from
src/). -/
def jsonString (s : String) : List Char :=
  '"' :: (s.data.flatMap jsonEscape ++ ['"'])

/-- The text `pre` put before the first of the lines. -/
def prependFirst (pre : List Char) : List (Nat × List Char) → List (Nat × List Char)
  | [] => []
  | (level, text) :: rest => (level, pre ++ text) :: rest

/-- The text `suf` put after the last of the lines. -/
def appendLast (suf : List Char) : List (Nat × List Char) → List (Nat × List Char)
  | [] => []
  | [(level, text)] => [(level, text ++ suf)]
  | line :: next :: rest => line :: appendLast suf (next :: rest)

/-- Insertion of an entry into entries sorted by key. -/
def insertEntry (e : String × IValue) : List (String × IValue) → List (String × IValue)
  | [] => [e]
  | f :: rest => if e.1 < f.1 then e :: f :: rest else f :: insertEntry e rest

/-- The entries sorted by key, as `encoding/json` writes the entries of a
map. -/
def sortEntries : List (String × IValue) → List (String × IValue)
  | [] => []
  | e :: rest => insertEntry e (sortEntries rest)

mutual
/-- The value with the entries of every map sorted by key. -/
def sortKeys : IValue → IValue
  | .list xs => .list (sortKeysList xs)
  | .map entries => .map (sortEntries (sortKeysEntries entries))
  | .null => .null
  | .bool b => .bool b
  | .num kind v => .num kind v
  | .bigInt v => .bigInt v
  | .float64 decimal => .float64 decimal
  | .string s => .string s
  | .other goType => .other goType
/-- The elements of a list with the entries of every map sorted by key. -/
def sortKeysList : List IValue → List IValue
  | [] => []
  | x :: xs => sortKeys x :: sortKeysList xs
/-- The entries of a map, their values with the entries of every map sorted by
key. -/
def sortKeysEntries : List (String × IValue) → List (String × IValue)
  | [] => []
  | (k, v) :: es => (k, sortKeys v) :: sortKeysEntries es
end

mutual
/-- Modelled from the spec: the lines of the indented JSON text of a value that
begins at the nesting level `level` (library `encoding/json`, absent from
src/), each line with its nesting level and its text without the indentation.
A list or map that is not empty opens on the line where it begins, has each of
its elements or entries on lines of its own one level deeper, with a comma
after each but the last, and closes on a line of its own level.  The empty list
is the nil slice, the only empty slice the decoder builds, and is written
`null`.  An error of the library on a leaf is the error of the whole. -/
def jsonLines (leaves : JsonLeaves) : IValue → Nat → Except String (List (Nat × List Char))
  | .null, level => .ok [(level, "null".data)]
  | .bool b, level => .ok [(level, if b then "true".data else "false".data)]
  | .num _ v, level => .ok [(level, intDigits v)]
  | .bigInt v, level => .ok [(level, intDigits v)]
  | .float64 decimal, level => .ok [(level, leaves.float decimal)]
  | .string s, level => .ok [(level, jsonString s)]
  | .list xs, level =>
    if xs.isEmpty then .ok [(level, "null".data)]
    else
      match jsonElems leaves xs (level + 1) with
      | .error err => .error err
      | .ok lines => .ok ((level, ['[']) :: (lines ++ [(level, [']'])]))
  | .map entries, level =>
    if entries.isEmpty then .ok [(level, "\x7b\x7d".data)]
    else
      match jsonEntries leaves entries (level + 1) with
      | .error err => .error err
      | .ok lines => .ok ((level, ['{']) :: (lines ++ [(level, ['}'])]))
  | .other goType, level => leaves.other goType level
/-- The lines of the elements of a list, at the nesting level `level`. -/
def jsonElems (leaves : JsonLeaves) : List IValue → Nat → Except String (List (Nat × List Char))
  | [], _ => .ok []
  | x :: rest, level =>
    match jsonLines leaves x level with
    | .error err => .error err
    | .ok lines =>
      match jsonElems leaves rest level with
      | .error err => .error err
      | .ok more => .ok ((if rest.isEmpty then lines else appendLast [','] lines) ++ more)
/-- The lines of the entries of a map, at the nesting level `level`: the key,
a colon and a blank come before the value. -/
def jsonEntries (leaves : JsonLeaves) :
    List (String × IValue) → Nat → Except String (List (Nat × List Char))
  | [], _ => .ok []
  | (k, v) :: rest, level =>
    match jsonLines leaves v level with
    | .error err => .error err
    | .ok lines =>
      match jsonEntries leaves rest level with
      | .error err => .error err
      | .ok more =>
        .ok ((if rest.isEmpty then prependFirst (jsonString k ++ [':', ' ']) lines
              else appendLast [','] (prependFirst (jsonString k ++ [':', ' ']) lines)) ++ more)
end

/-- The indented text of lines: the first line bare, every other line on a new
line that begins with `linePrefix` and one copy of `indent` for each nesting
level. -/
def indentLines (linePrefix indent : List Char) : List (Nat × List Char) → List Char
  | [] => []
  | first :: rest =>
    first.2 ++ rest.flatMap (fun line =>
      '\n' :: (linePrefix ++ ((List.replicate line.1 indent).flatten ++ line.2)))

/-- Modelled from the spec: `json.MarshalIndent` (Go standard library, absent
from src/) on an interchange value: the entries of the maps are written in the
order of their keys, each element on a line of its own that begins with
`linePrefix` and one copy of `indent` for each nesting level. -/
def MarshalIndent (leaves : JsonLeaves) (v : IValue) (linePrefix indent : String) :
    Except String String :=
  match jsonLines leaves (sortKeys v) 0 with
  | .error err => .error err
  | .ok lines => .ok ⟨indentLines linePrefix.data indent.data lines⟩

/-- The function `CadenceValueToJsonStringWithOption` of output.go; `none` is a
panic of the decoder, and an error stands for the result `("", err)`. -/
def CadenceValueToJsonStringWithOption (leaves : JsonLeaves) (value : Value) (opt : Options) :
    Option (Except String String) :=
  match CadenceValueToInterfaceWithOption value opt with
  | none => none
  | some result =>
    if result.isNil then some (.ok "")
    else
      match MarshalIndent leaves result "" "    " with
      | .error err => some (.error err)
      | .ok j => some (.ok j)

/-- The function `CadenceValueToJsonString` of output.go. -/
def CadenceValueToJsonString (leaves : JsonLeaves) (value : Value) :
    Option (Except String String) :=
  CadenceValueToJsonStringWithOption leaves value defaultOptions

/-! ## Definitions used in the statements -/

/-- The value `x` wrapped in `n` layers of `Optional`. -/
def nestOptional : Nat → Value → Value
  | 0, x => x
  | n + 1, x => .Optional (nestOptional n x)

/-- The decodings of the items of a list, in order; `none` when the decoding of
an item panics. -/
def decodeEach (opt : Options) : List Value → Option (List IValue)
  | [] => some []
  | x :: xs =>
    match CadenceValueToInterfaceWithOption x opt with
    | none => none
    | some v =>
      match decodeEach opt xs with
      | none => none
      | some vs => some (v :: vs)

/-- The test `value != nil || opt.IncludeEmptyValues` of the decoder: the value
is kept in its parent. -/
def kept (opt : Options) (v : IValue) : Bool := !v.isNil || opt.IncludeEmptyValues

/-- The result of `Unquote` on a double-quoted text, from the loop alone. -/
def unquoteSlow (body : List Char) : Option String :=
  match unquoteLoop '"' (body.length + 1) body [] with
  | none => none
  | some (_, []) => none
  | some (buf, c :: rem) => if c = '"' ∧ rem = [] then some ⟨buf⟩ else none

/-- The entries `es` assigned to the map `m`, one after the other. -/
def mapSetAll (m es : List (String × IValue)) : List (String × IValue) :=
  es.foldl (fun acc kv => mapSet acc kv.1 kv.2) m

/-- The value of the last entry of `es` with key `k`. -/
def lookupLast : List (String × IValue) → String → Option IValue
  | [], _ => none
  | (k0, v0) :: es, k =>
    match lookupLast es k with
    | some v => some v
    | none => if k0 = k then some v0 else none

/-- The pairs `(key, value)` of a dictionary after normalizing each key and
decoding each value; `none` when one of these panics. -/
def dictEntries (opt : Options) : List (Value × Value) → Option (List (String × IValue))
  | [] => some []
  | (k, x) :: rest =>
    match CadenceValueToInterfaceWithOption x opt, getAndUnquoteString k, dictEntries opt rest with
    | some v, some key, some es => some ((key, v) :: es)
    | _, _, _ => none

/-- The pairs `(name, value)` of a composite: the declared field names in
positional correspondence with the decoded field values; `none` when a
decoding panics or a value has no declared field. -/
def fieldEntries (opt : Options) : List Value → List Field → Option (List (String × IValue))
  | [], _ => some []
  | _ :: _, [] => none
  | x :: xs, f :: fs =>
    match CadenceValueToInterfaceWithOption x opt, fieldEntries opt xs fs with
    | some v, some es => some ((f.Identifier, v) :: es)
    | _, _ => none

/-- The entries the decoder keeps: those with a non-nil value, or all of them
under `IncludeEmptyValues`. -/
def keptEntries (opt : Options) (es : List (String × IValue)) : List (String × IValue) :=
  es.filter (fun kv => kept opt kv.2)

/-- The map of a composite: the declared names in positional correspondence
with the decoded field values `vs`, the kept entries assigned in order. -/
def fieldMap (opt : Options) (names : List Field) (vs : List IValue) : List (String × IValue) :=
  mapSetAll [] (keptEntries opt ((names.map Field.Identifier).zip vs))

/-- A value that is no container: not an optional, an array, a dictionary, a
composite or a capability. -/
def isScalar : Value → Bool
  | .Optional _ => false
  | .Array _ => false
  | .Dictionary _ => false
  | .Struct _ _ => false
  | .Resource _ _ => false
  | .Event _ _ => false
  | .Capability _ _ _ => false
  | _ => true

/-- The entries whose key is not the empty string. -/
def nonEmptyKeys (es : List (String × IValue)) : List (String × IValue) :=
  es.filter (fun kv => decide (kv.1 ≠ ""))

/-- A rune that `QuoteString` writes as itself or as an escape that
`strconv.Unquote` reads back. -/
def plainRune (c : Char) : Bool :=
  c = '\n' || c = '\r' || c = '\t' || (0x20 ≤ c.toNat && c.toNat ≤ 0x7E)

/-- The number a text of decimal digits denotes. -/
def digitsValue (ds : List Char) : Nat :=
  ds.foldl (fun acc c => acc * 10 + (c.toNat - '0'.toNat)) 0

/-- Reading a decimal text `[-]digits.digits` with exactly 8 fractional digits
as an exact decimal: the result is the number times `10^8`, an integer. -/
def parseFixed (s : String) : Option Int :=
  let negative : Bool := s.data.head? = some '-'
  let body : List Char := if negative then s.data.tail else s.data
  match splitAtQuote '.' body with
  | none => none
  | some (integer, fraction) =>
    if integer ≠ [] ∧ integer.all Char.isDigit ∧ fraction.length = 8 ∧ fraction.all Char.isDigit then
      let n : Int := (digitsValue integer * 100000000 + digitsValue fraction : Nat)
      some (if negative then -n else n)
    else none

/-- A native value of a primitive kind as the Go `interface{}` value it is:
the value a round trip through the encoder and the decoder has to give back. -/
def nativeAsIValue : Native → IValue
  | .Int kind _ v => .num kind v
  | .Bool _ b => .bool b
  | .String _ s => .string s
  | _ => .other "not a primitive"

mutual
/-- A condition under which the decoder does not panic: every composite has a
declared field for each of its values and every dictionary key is accepted by
the string normalizer. -/
def decodable : Value → Bool
  | .Optional v => decodable v
  | .Array values => decodableList values
  | .Dictionary pairs => decodablePairs pairs
  | .Struct t fields => decide (fields.length ≤ t.Fields.length) && decodableList fields
  | .Resource t fields => decide (fields.length ≤ t.Fields.length) && decodableList fields
  | .Event t fields => decide (fields.length ≤ t.Fields.length) && decodableList fields
  | _ => true
/-- All values of a list are decodable. -/
def decodableList : List Value → Bool
  | [] => true
  | v :: rest => decodable v && decodableList rest
/-- All values of the pairs are decodable and all keys normalize. -/
def decodablePairs : List (Value × Value) → Bool
  | [] => true
  | (k, v) :: rest => (getAndUnquoteString k).isSome && decodable v && decodablePairs rest
end

/-- A hexadecimal digit, in either letter case. -/
def isHexDigit (c : Char) : Bool := (unhex c).isSome

/-- The text the address codec decodes, after the leading zero of an odd
length. -/
def evenDigits (trimmed : List Char) : List Char :=
  if trimmed.length % 2 = 1 then '0' :: trimmed else trimmed

/-- A text of hexadecimal digits with the digits `A` to `F` in lower case (the
lower case of ASCII, which leaves every other character as it is). -/
def lowerDigits (s : String) : String := ⟨s.data.map Char.toLower⟩

/-- The canonical form of a text of at most 16 hexadecimal digits: `0x`, then
the digits in lower case, padded with `0` on the left to 16 digits. -/
def canonicalForm (h : String) : String :=
  ⟨'0' :: 'x' :: padLeft (lowerDigits h).data '0' 16⟩

mutual
/-- The canonical strings of the Address leaves of a value, in depth-first,
left-to-right pre-order: through Optional, Array, Struct fields and Dictionary
values; every other value is a leaf without addresses. -/
def addressLeaves : Value → List String
  | .Optional v => addressLeaves v
  | .Array values => addressLeavesList values
  | .Struct _ fields => addressLeavesList fields
  | .Dictionary pairs => addressLeavesPairs pairs
  | .Address bytes => [addressString bytes]
  | .nil => []
  | .Bool _ => []
  | .String _ => []
  | .Int _ => []
  | .UInt _ => []
  | .Int8 _ => []
  | .Int16 _ => []
  | .Int32 _ => []
  | .Int64 _ => []
  | .UInt8 _ => []
  | .UInt16 _ => []
  | .UInt32 _ => []
  | .UInt64 _ => []
  | .Fix64 _ => []
  | .UFix64 _ => []
  | .Resource _ _ => []
  | .Event _ _ => []
  | .Capability _ _ _ => []
  | .TypeValue _ => []
  | .Other _ _ => []
/-- The address leaves of the values of a list, in order. -/
def addressLeavesList : List Value → List String
  | [] => []
  | v :: vs => addressLeaves v ++ addressLeavesList vs
/-- The address leaves of the values of the pairs of a dictionary, in order. -/
def addressLeavesPairs : List (Value × Value) → List String
  | [] => []
  | (_, v) :: ps => addressLeaves v ++ addressLeavesPairs ps
end

/-- The key normalizes, without a panic, to a text that is not empty. -/
def keyNonEmpty (key : Value) : Bool :=
  match getAndUnquoteString key with
  | none => false
  | some k => k ≠ ""

mutual
/-- Every key of every dictionary reached through Optional, Array, Struct
fields and Dictionary values normalizes to a text that is not empty. -/
def keysNonEmpty : Value → Bool
  | .Optional v => keysNonEmpty v
  | .Array values => keysNonEmptyList values
  | .Struct _ fields => keysNonEmptyList fields
  | .Dictionary pairs => keysNonEmptyPairs pairs
  | .nil => true
  | .Address _ => true
  | .Bool _ => true
  | .String _ => true
  | .Int _ => true
  | .UInt _ => true
  | .Int8 _ => true
  | .Int16 _ => true
  | .Int32 _ => true
  | .Int64 _ => true
  | .UInt8 _ => true
  | .UInt16 _ => true
  | .UInt32 _ => true
  | .UInt64 _ => true
  | .Fix64 _ => true
  | .UFix64 _ => true
  | .Resource _ _ => true
  | .Event _ _ => true
  | .Capability _ _ _ => true
  | .TypeValue _ => true
  | .Other _ _ => true
/-- The values of a list have dictionaries with such keys only. -/
def keysNonEmptyList : List Value → Bool
  | [] => true
  | v :: vs => keysNonEmpty v && keysNonEmptyList vs
/-- The pairs have such keys, and their values dictionaries with such keys
only. -/
def keysNonEmptyPairs : List (Value × Value) → Bool
  | [] => true
  | (k, v) :: ps => keyNonEmpty k && keysNonEmpty v && keysNonEmptyPairs ps
end

/-- The tag the loop over the fields of a struct goes by: the tag of the key
`cadence` when there is one, else the tag of the key `json`, if any. -/
def chosenTag (tags : List Tag) : Option Tag :=
  match tagsGet tags "cadence" with
  | some t => some t
  | none => tagsGet tags "json"

/-- The name of the directive of a field: the name of the chosen tag, and the
empty text when there is none. -/
def directiveName (tags : List Tag) : String :=
  match chosenTag tags with
  | some t => t.Name
  | none => ""

/-- The name under which a field that is not skipped is declared. -/
def targetName (field : StructField) (tags : List Tag) : String :=
  if directiveName tags = "" then field.Lower else directiveName tags

/-- The body of the loop over the fields of a struct once the value of the
field is encoded to `cadenceVal`: a failure, nothing for a skipped field, or
the value and the declared field that are appended. -/
def fieldStep (field : StructField) (cadenceVal : Value) :
    Except Failure (Option (Value × Field)) :=
  match cadenceVal with
  | .nil => .error (.panic "invalid memory address or nil pointer dereference")
  | _ =>
    match field.Tag with
    | .error err => .error (.error err)
    | .nilTags => .error (.panic "invalid memory address or nil pointer dereference")
    | .tags tags =>
      if directiveName tags = "-" then .ok none
      else if IsTagCadecenAddress (chosenTag tags) then
        match getAndUnquoteString cadenceVal with
        | none => .error assertionPanic
        | some stringVal =>
          match hexToAddress stringVal with
          | .error err => .error err
          | .ok adr =>
            .ok (some (.Address adr,
              { Identifier := targetName field tags, fieldType := "Address" }))
      else
        .ok (some (cadenceVal,
          { Identifier := targetName field tags, fieldType := valueType cadenceVal }))

/-- One field of a struct: its value is encoded, then the body of the loop
runs on the result. -/
def encodeField (resolver : InputResolver) (p : StructField × Native) :
    Except Failure (Option (Value × Field)) :=
  match InputToCadence p.2 resolver with
  | .error err => .error err
  | .ok cadenceVal => fieldStep p.1 cadenceVal

/-- The fields of a struct in order, up to the first failure: the values and
declared fields of those that are not skipped. -/
def encodeFields (resolver : InputResolver) :
    List (StructField × Native) → Except Failure (List (Value × Field))
  | [] => .ok []
  | p :: rest =>
    match encodeField resolver p with
    | .error err => .error err
    | .ok o =>
      match encodeFields resolver rest with
      | .error err => .error err
      | .ok emitted =>
        match o with
        | none => .ok emitted
        | some x => .ok (x :: emitted)

/-- The elements of a slice or array in order, up to the first failure. -/
def encodeAll (resolver : InputResolver) : List Native → Except Failure (List Value)
  | [] => .ok []
  | x :: rest =>
    match InputToCadence x resolver with
    | .error err => .error err
    | .ok v =>
      match encodeAll resolver rest with
      | .error err => .error err
      | .ok vs => .ok (v :: vs)

/-- The entries of a map in order, the key before the value, up to the first
failure. -/
def encodePairs (resolver : InputResolver) :
    List (Native × Native) → Except Failure (List (Value × Value))
  | [] => .ok []
  | (key, val) :: rest =>
    match InputToCadence key resolver with
    | .error err => .error err
    | .ok k =>
      match InputToCadence val resolver with
      | .error err => .error err
      | .ok v =>
        match encodePairs resolver rest with
        | .error err => .error err
        | .ok ps => .ok ((k, v) :: ps)

/-- The field is not skipped: its tag text parses to tags whose directive name
is not `-`. -/
def notSkipped (p : StructField × Native) : Bool :=
  match p.1.Tag with
  | .tags tags => directiveName tags ≠ "-"
  | _ => false

/-- The name under which a field is declared, by its tags. -/
def declaredName (p : StructField × Native) : String :=
  match p.1.Tag with
  | .tags tags => targetName p.1 tags
  | _ => ""

/-- The encoder only extends the list of the resolver calls made before, and
its result does not depend on that list. -/
def extendsCalls (r : InputResolver) (v : Native) : Prop :=
  ∀ calls : List String, ReflectToCadence v r calls =
    ((ReflectToCadence v r []).1, calls ++ (ReflectToCadence v r []).2)

/-- The name the statement C17 gives to a field: the name of the tag of the key
`cadence` when there is one, else the name of the tag of the key `json` when
there is one, else the name of the field in lower case. -/
def claimedName (field : StructField) (tags : List Tag) : String :=
  match tagsGet tags "cadence" with
  | some t => t.Name
  | none =>
    match tagsGet tags "json" with
    | some t => t.Name
    | none => field.Lower

/-- The width of the kind is fixed: it is not `int` or `uint`. -/
def IntKind.fixedWidth : IntKind → Bool
  | .int => false
  | .uint => false
  | _ => true

/-- A value of a variant `ExtractAddresses` has no case for: not nil, an
Optional, a Dictionary, a Struct, an Array or an Address. -/
def otherVariant : Value → Bool
  | .nil => false
  | .Optional _ => false
  | .Dictionary _ => false
  | .Struct _ _ => false
  | .Array _ => false
  | .Address _ => false
  | _ => true

mutual
/-- A decoded value that is not null and holds, at every depth, no null element
of a list, no null value of a map, no empty string, no empty list and no empty
map. -/
def clean : IValue → Bool
  | .null => false
  | .string s => decide (s ≠ "")
  | .list xs => !xs.isEmpty && cleanList xs
  | .map entries => !entries.isEmpty && cleanEntries entries
  | .bool _ => true
  | .num _ _ => true
  | .bigInt _ => true
  | .float64 _ => true
  | .other _ => true
/-- All elements of a list are clean. -/
def cleanList : List IValue → Bool
  | [] => true
  | x :: xs => clean x && cleanList xs
/-- All values of the entries of a map are clean. -/
def cleanEntries : List (String × IValue) → Bool
  | [] => true
  | (_, v) :: es => clean v && cleanEntries es
end

mutual
/-- A value built from nil, Optional, String, Address, Bool, the integers of
fixed width, Array, Dictionary and Struct, each Struct with as many values as
declared fields and each key of a dictionary accepted by the string
normalizer. -/
def builtFrom : Value → Bool
  | .nil => true
  | .Optional v => builtFrom v
  | .String _ => true
  | .Address _ => true
  | .Bool _ => true
  | .Int8 _ => true
  | .Int16 _ => true
  | .Int32 _ => true
  | .Int64 _ => true
  | .UInt8 _ => true
  | .UInt16 _ => true
  | .UInt32 _ => true
  | .UInt64 _ => true
  | .Array values => builtFromList values
  | .Dictionary pairs => builtFromPairs pairs
  | .Struct t fields => decide (fields.length = t.Fields.length) && builtFromList fields
  | .Int _ => false
  | .UInt _ => false
  | .Fix64 _ => false
  | .UFix64 _ => false
  | .Resource _ _ => false
  | .Event _ _ => false
  | .Capability _ _ _ => false
  | .TypeValue _ => false
  | .Other _ _ => false
/-- All values of a list are built so. -/
def builtFromList : List Value → Bool
  | [] => true
  | v :: rest => builtFrom v && builtFromList rest
/-- All values of the pairs are built so, and the keys are accepted by the
string normalizer. -/
def builtFromPairs : List (Value × Value) → Bool
  | [] => true
  | (k, v) :: rest => (getAndUnquoteString k).isSome && builtFrom v && builtFromPairs rest
end

/-- The text of a line of indented JSON: not empty, not beginning with a blank,
and without a line break. -/
def lineText (t : List Char) : Prop :=
  t ≠ [] ∧ t.head? ≠ some ' ' ∧ '\n' ∉ t

/-- The texts of the leaves are texts of lines, and the lines of a value of
another Go type are not above the nesting level where the value begins. -/
def leavesOk (leaves : JsonLeaves) : Prop :=
  (∀ d, lineText (leaves.float d)) ∧
  ∀ t level lines, leaves.other t level = .ok lines →
    ∀ l ∈ lines, lineText l.2 ∧ level ≤ l.1

/-- Texts for the leaves, for the statements on values that have no such
leaves: the decimal text for a `float64` and an error for a value of another
Go type. -/
def sampleLeaves : JsonLeaves :=
  { float := fun d => d.data, other := fun _ _ => .error "json: unsupported type" }

/-- What the function gives back on a failure of the kind of `Failure`: the
nil value with an error, or a panic. -/
def Failure.returned : Failure → Returned
  | .error err => .results .nil (some err)
  | .panic message => .panics message

/-- A struct, a pointer, a map, a slice or an array: a value that encloses
others. -/
def encloses : Native → Bool
  | .Struct _ _ => true
  | .NilPointer => true
  | .Pointer _ => true
  | .Map _ => true
  | .Slice _ => true
  | .Array _ => true
  | _ => false

/-! ## Lemmas and theorems -/

theorem hexValue_length : ∀ (n : Nat) (s : List Char) (v w : Nat) (t : List Char),
    hexValue n s v = some (w, t) → t.length ≤ s.length := by
  intro n
  induction n with
  | zero =>
    intro s v w t h
    simp only [hexValue, Option.some.injEq, Prod.mk.injEq] at h
    rw [← h.2]
  | succ n ih =>
    intro s v w t h
    cases s with
    | nil => simp [hexValue] at h
    | cons c s =>
      simp only [hexValue] at h
      cases hu : unhex c with
      | none => simp [hu] at h
      | some x =>
        simp only [hu] at h
        have := ih s _ w t h
        simp only [List.length_cons]
        omega

theorem octValue_length : ∀ (n : Nat) (s : List Char) (v w : Nat) (t : List Char),
    octValue n s v = some (w, t) → t.length ≤ s.length := by
  intro n
  induction n with
  | zero =>
    intro s v w t h
    simp only [octValue, Option.some.injEq, Prod.mk.injEq] at h
    rw [← h.2]
  | succ n ih =>
    intro s v w t h
    cases s with
    | nil => simp [octValue] at h
    | cons c s =>
      simp only [octValue] at h
      split_ifs at h
      have := ih s _ w t h
      simp only [List.length_cons]
      omega

theorem tail_lt {x r : Char} {s rem : List Char} (c e : Char)
    (h : some (x, s) = some (r, rem)) : rem.length < (c :: e :: s).length := by
  simp only [Option.some.injEq, Prod.mk.injEq] at h
  rw [← h.2]
  simp only [List.length_cons]
  omega

theorem hex_tail_lt {r : Char} {s rem : List Char} (n : Nat) (c e : Char)
    (h : (match hexValue n s 0 with
      | none => none
      | some (v, tail) => some (Char.ofNat v, tail)) = some (r, rem)) :
    rem.length < (c :: e :: s).length := by
  cases hx : hexValue n s 0 with
  | none => simp [hx] at h
  | some p =>
    obtain ⟨v, tail⟩ := p
    simp only [hx, Option.some.injEq, Prod.mk.injEq] at h
    have := hexValue_length _ _ _ _ _ hx
    rw [← h.2]
    simp only [List.length_cons]
    omega

theorem hex_valid_tail_lt {r : Char} {s rem : List Char} (n : Nat) (c e : Char)
    (h : (match hexValue n s 0 with
      | none => none
      | some (v, tail) => if v.isValidChar then some (Char.ofNat v, tail) else none) =
        some (r, rem)) :
    rem.length < (c :: e :: s).length := by
  cases hx : hexValue n s 0 with
  | none => simp [hx] at h
  | some p =>
    obtain ⟨v, tail⟩ := p
    simp only [hx] at h
    split_ifs at h
    simp only [Option.some.injEq, Prod.mk.injEq] at h
    have := hexValue_length _ _ _ _ _ hx
    rw [← h.2]
    simp only [List.length_cons]
    omega

theorem oct_tail_lt {r : Char} {s rem : List Char} (v0 : Nat) (c e : Char)
    (h : (match octValue 2 s v0 with
      | none => none
      | some (v, tail) => if v > 255 then none else some (Char.ofNat v, tail)) =
        some (r, rem)) :
    rem.length < (c :: e :: s).length := by
  cases hx : octValue 2 s v0 with
  | none => simp [hx] at h
  | some p =>
    obtain ⟨v, tail⟩ := p
    simp only [hx] at h
    split_ifs at h
    simp only [Option.some.injEq, Prod.mk.injEq] at h
    have := octValue_length _ _ _ _ _ hx
    rw [← h.2]
    simp only [List.length_cons]
    omega

/-- Every successful step of `UnquoteChar` consumes input. -/
theorem UnquoteChar_length (s : List Char) (quote r : Char) (rem : List Char)
    (h : UnquoteChar s quote = some (r, rem)) : rem.length < s.length := by
  cases s with
  | nil => simp [UnquoteChar] at h
  | cons c rest =>
    unfold UnquoteChar at h
    simp only at h
    by_cases h1 : c = quote ∧ (quote = '\'' ∨ quote = '"')
    · rw [if_pos h1] at h; cases h
    rw [if_neg h1] at h
    by_cases h2 : c ≠ '\\'
    · rw [if_pos h2] at h
      simp only [Option.some.injEq, Prod.mk.injEq] at h
      rw [← h.2]; simp
    rw [if_neg h2] at h
    cases rest with
    | nil => cases h
    | cons e s =>
      simp only at h
      by_cases ha : e = 'a'
      · rw [if_pos ha] at h; exact tail_lt c e h
      rw [if_neg ha] at h
      by_cases hb : e = 'b'
      · rw [if_pos hb] at h; exact tail_lt c e h
      rw [if_neg hb] at h
      by_cases hf : e = 'f'
      · rw [if_pos hf] at h; exact tail_lt c e h
      rw [if_neg hf] at h
      by_cases hn : e = 'n'
      · rw [if_pos hn] at h; exact tail_lt c e h
      rw [if_neg hn] at h
      by_cases hr : e = 'r'
      · rw [if_pos hr] at h; exact tail_lt c e h
      rw [if_neg hr] at h
      by_cases ht : e = 't'
      · rw [if_pos ht] at h; exact tail_lt c e h
      rw [if_neg ht] at h
      by_cases hv : e = 'v'
      · rw [if_pos hv] at h; exact tail_lt c e h
      rw [if_neg hv] at h
      by_cases hx : e = 'x'
      · rw [if_pos hx] at h; exact hex_tail_lt 2 c e h
      rw [if_neg hx] at h
      by_cases hu : e = 'u'
      · rw [if_pos hu] at h; exact hex_valid_tail_lt 4 c e h
      rw [if_neg hu] at h
      by_cases hU : e = 'U'
      · rw [if_pos hU] at h; exact hex_valid_tail_lt 8 c e h
      rw [if_neg hU] at h
      by_cases ho : '0' ≤ e ∧ e ≤ '7'
      · rw [if_pos ho] at h; exact oct_tail_lt _ c e h
      rw [if_neg ho] at h
      by_cases hs : e = '\\'
      · rw [if_pos hs] at h; exact tail_lt c e h
      rw [if_neg hs] at h
      by_cases hq : e = '\'' ∨ e = '"'
      · rw [if_pos hq] at h
        split_ifs at h
        exact tail_lt c e h
      rw [if_neg hq] at h
      cases h

/-- The fuel of `unquoteLoop` is enough as soon as it exceeds the length of the
input: the result does not depend on it. -/
theorem unquoteLoop_fuel (quote : Char) : ∀ (f1 f2 : Nat) (inp buf : List Char),
    inp.length < f1 → inp.length < f2 →
      unquoteLoop quote f1 inp buf = unquoteLoop quote f2 inp buf := by
  intro f1
  induction f1 with
  | zero => intro f2 inp buf h; omega
  | succ f1 ih =>
    intro f2 inp buf h1 h2
    obtain ⟨g, rfl⟩ : ∃ g, f2 = g + 1 := ⟨f2 - 1, by omega⟩
    cases inp with
    | nil => simp [unquoteLoop]
    | cons c rest =>
      simp only [unquoteLoop]
      by_cases hq : c = quote
      · rw [if_pos hq, if_pos hq]
      · rw [if_neg hq, if_neg hq]
        cases hu : UnquoteChar (c :: rest) quote with
        | none => rfl
        | some p =>
          obtain ⟨r, rem⟩ := p
          have hl := UnquoteChar_length _ _ _ _ hu
          simp only [List.length_cons] at hl h1 h2
          simp only []
          by_cases hn : c = '\n'
          · rw [if_pos hn, if_pos hn]
          · rw [if_neg hn, if_neg hn]
            by_cases hs : quote = '\''
            · rw [if_pos hs, if_pos hs]
            · rw [if_neg hs, if_neg hs]
              exact ih g rem _ (by omega) (by omega)

theorem arrayLoop_eq (opt : Options) (items : List Value) (acc : List IValue) :
    arrayLoop items opt acc = (decodeEach opt items).map (fun vs => acc ++ vs.filter (kept opt)) := by
  induction items generalizing acc with
  | nil => simp [arrayLoop, decodeEach]
  | cons x xs ih =>
    simp only [arrayLoop, decodeEach]
    cases hx : CadenceValueToInterfaceWithOption x opt with
    | none => simp
    | some v =>
      simp only []
      by_cases hk : kept opt v = true
      · have : (¬ v.isNil = true ∨ opt.IncludeEmptyValues = true) := by
          simpa [kept] using hk
        rw [if_pos this, ih]
        cases decodeEach opt xs <;> simp [hk]
      · have : ¬ (¬ v.isNil = true ∨ opt.IncludeEmptyValues = true) := by
          simpa [kept] using hk
        rw [if_neg this, ih]
        cases decodeEach opt xs <;> simp [hk]
theorem unquoteLoop_quote (fuel : Nat) (rest buf : List Char) :
    unquoteLoop '"' (fuel + 1) ('"' :: rest) buf = some (buf, '"' :: rest) := by
  simp [unquoteLoop]

theorem unquoteLoop_plain (c : Char) (hc : plainRune c = true) (fuel : Nat) (rest buf : List Char) :
    unquoteLoop '"' (fuel + 1) (quoteRune c ++ rest) buf = unquoteLoop '"' fuel rest (buf ++ [c]) := by
  unfold quoteRune
  by_cases h0 : c.toNat = 0
  · exfalso
    have : c = Char.ofNat 0 := by
      apply Char.ext; apply UInt32.ext; simpa [Char.toNat, UInt32.toNat] using h0
    subst this
    simp [plainRune] at hc
  rw [if_neg h0]
  by_cases h1 : c = '\n'
  · subst h1; simp [unquoteLoop, UnquoteChar]
  rw [if_neg h1]
  by_cases h2 : c = '\r'
  · subst h2; simp [unquoteLoop, UnquoteChar]
  rw [if_neg h2]
  by_cases h3 : c = '\t'
  · subst h3; simp [unquoteLoop, UnquoteChar]
  rw [if_neg h3]
  by_cases h4 : c = '\\'
  · subst h4; simp [unquoteLoop, UnquoteChar]
  rw [if_neg h4]
  by_cases h5 : c = '"'
  · subst h5; simp [unquoteLoop, UnquoteChar]
  rw [if_neg h5]
  have hp : 0x20 ≤ c.toNat ∧ c.toNat ≤ 0x7E := by
    simpa [plainRune, h1, h2, h3] using hc
  rw [if_pos hp]
  simp [unquoteLoop, UnquoteChar, h5, h4, h1]
theorem quoteRune_length_pos (c : Char) : 1 ≤ (quoteRune c).length := by
  unfold quoteRune
  split_ifs <;> simp

theorem flatMap_quoteRune_length (s : List Char) : s.length ≤ (s.flatMap quoteRune).length := by
  induction s with
  | nil => simp
  | cons c s ih =>
    have := quoteRune_length_pos c
    simp only [List.flatMap_cons, List.length_append, List.length_cons]
    omega

theorem unquoteLoop_plain_all (s : List Char) (hs : ∀ c ∈ s, plainRune c = true) :
    ∀ (fuel : Nat) (rest buf : List Char), s.length + 1 ≤ fuel →
      unquoteLoop '"' fuel (s.flatMap quoteRune ++ '"' :: rest) buf = some (buf ++ s, '"' :: rest) := by
  induction s with
  | nil =>
    intro fuel rest buf hf
    obtain ⟨f, rfl⟩ : ∃ f, fuel = f + 1 := ⟨fuel - 1, by omega⟩
    simp [unquoteLoop_quote]
  | cons c s ih =>
    intro fuel rest buf hf
    obtain ⟨f, rfl⟩ : ∃ f, fuel = f + 1 := ⟨fuel - 1, by omega⟩
    have hc : plainRune c = true := hs c (by simp)
    rw [List.flatMap_cons, List.append_assoc, unquoteLoop_plain c hc,
      ih (fun d hd => hs d (by simp [hd])) f rest (buf ++ [c]) (by simpa using hf)]
    simp

theorem unquoteLoop_fast (q : Char) (hq : q = '"') :
    ∀ (body content after : List Char), splitAtQuote q body = some (content, after) →
      '\\' ∉ content → '\n' ∉ content →
      ∀ (fuel : Nat) (buf : List Char), content.length + 1 ≤ fuel →
        unquoteLoop q fuel body buf = some (buf ++ content, q :: after) := by
  intro body
  induction body with
  | nil => intro content after h; simp [splitAtQuote] at h
  | cons c rest ih =>
    intro content after h hb hn fuel buf hf
    obtain ⟨f, rfl⟩ : ∃ f, fuel = f + 1 := ⟨fuel - 1, by omega⟩
    by_cases hc : c = q
    · subst hc
      simp only [splitAtQuote, if_true] at h
      obtain ⟨rfl, rfl⟩ : [] = content ∧ rest = after := by simpa using h
      simp [unquoteLoop]
    · simp only [splitAtQuote, if_neg hc] at h
      cases hsp : splitAtQuote q rest with
      | none => simp [hsp] at h
      | some p =>
        obtain ⟨before, aft⟩ := p
        simp only [hsp] at h
        obtain ⟨rfl, hafter⟩ : c :: before = content ∧ aft = after := by simpa using h
        subst hafter
        have hcb : c ≠ '\\' := fun e => hb (by simp [e])
        have hcn : c ≠ '\n' := fun e => hn (by simp [e])
        have hb' : '\\' ∉ before := fun e => hb (by simp [e])
        have hn' : '\n' ∉ before := fun e => hn (by simp [e])
        have := ih before aft hsp hb' hn' f (buf ++ [c]) (by simpa using hf)
        subst hq
        simp [unquoteLoop, UnquoteChar, hc, hcb, hcn, this]

theorem splitAtQuote_append (q : Char) (xs ys : List Char) :
    ∃ content after, splitAtQuote q (xs ++ q :: ys) = some (content, after) := by
  induction xs with
  | nil => exact ⟨[], ys, by simp [splitAtQuote]⟩
  | cons c xs ih =>
    obtain ⟨content, after, h⟩ := ih
    by_cases hc : c = q
    · exact ⟨[], xs ++ q :: ys, by simp [splitAtQuote, hc]⟩
    · exact ⟨c :: content, after, by simp [splitAtQuote, hc, h]⟩

theorem splitAtQuote_length (q : Char) :
    ∀ (body content after : List Char), splitAtQuote q body = some (content, after) →
      content.length ≤ body.length := by
  intro body
  induction body with
  | nil => intro content after h; simp [splitAtQuote] at h
  | cons c rest ih =>
    intro content after h
    by_cases hc : c = q
    · simp only [splitAtQuote, hc, if_true] at h
      obtain ⟨rfl, -⟩ : [] = content ∧ rest = after := by simpa using h
      simp
    · simp only [splitAtQuote, if_neg hc] at h
      cases hsp : splitAtQuote q rest with
      | none => simp [hsp] at h
      | some p =>
        obtain ⟨before, aft⟩ := p
        simp only [hsp] at h
        obtain ⟨rfl, -⟩ : c :: before = content ∧ aft = after := by simpa using h
        have := ih before aft hsp
        simp only [List.length_cons]; omega

theorem Unquote_double (body : List Char) (content after : List Char)
    (h : splitAtQuote '"' body = some (content, after)) :
    Unquote ⟨'"' :: body⟩ = unquoteSlow body := by
  have hne : body ≠ [] := by
    intro e; subst e; simp [splitAtQuote] at h
  obtain ⟨b, bs, rfl⟩ : ∃ b bs, body = b :: bs := by
    cases body with
    | nil => exact absurd rfl hne
    | cons b bs => exact ⟨b, bs, rfl⟩
  simp only [Unquote, h, unquoteSlow]
  by_cases hfast : '\\' ∉ content ∧ '\n' ∉ content
  · have hlen : content.length + 1 ≤ (b :: bs).length + 1 := by
      have := splitAtQuote_length '"' _ _ _ h
      omega
    have hl := unquoteLoop_fast '"' rfl (b :: bs) content after h hfast.1 hfast.2
      ((b :: bs).length + 1) [] hlen
    rw [if_neg (by decide), if_pos (by decide), if_pos ⟨hfast.1, hfast.2, Or.inl trivial⟩, hl]
    simp
  · have hfast' : ¬ ('\\' ∉ content ∧ '\n' ∉ content ∧ (('"' : Char) = '"' ∨ content.length ≤ 1)) :=
      fun e => hfast ⟨e.1, e.2.1⟩
    rw [if_neg (by decide), if_pos (by decide), if_neg (fun e => hfast ⟨e.1, e.2.1⟩)]

theorem Unquote_QuoteString_plain (s : String) (hs : ∀ c ∈ s.data, plainRune c = true) :
    Unquote (QuoteString s) = some s := by
  obtain ⟨content, after, h⟩ := splitAtQuote_append '"' (s.data.flatMap quoteRune) []
  have hl := unquoteLoop_plain_all s.data hs ((s.data.flatMap quoteRune ++ ['"']).length + 1) [] []
    (by have := flatMap_quoteRune_length s.data; simp only [List.length_append, List.length_cons, List.length_nil]; omega)
  rw [QuoteString, Unquote_double _ content after h, unquoteSlow, hl]
  simp
theorem quoteRune_escaped (c : Char) (h0 : c.toNat ≠ 0) (hc : plainRune c = false) :
    quoteRune c = '\\' :: 'u' :: '{' :: (hexDigits c.toNat ++ ['}']) := by
  have h1 : c ≠ '\n' := by rintro rfl; simp [plainRune] at hc
  have h2 : c ≠ '\r' := by rintro rfl; simp [plainRune] at hc
  have h3 : c ≠ '\t' := by rintro rfl; simp [plainRune] at hc
  have h4 : c ≠ '\\' := by rintro rfl; simp [plainRune] at hc
  have h5 : c ≠ '"' := by rintro rfl; simp [plainRune] at hc
  have h6 : ¬ (0x20 ≤ c.toNat ∧ c.toNat ≤ 0x7E) := by
    intro h
    simp [plainRune, h.1, h.2] at hc
  simp only [quoteRune, if_neg h0, if_neg h1, if_neg h2, if_neg h3, if_neg h4, if_neg h5, if_neg h6]

theorem unquoteLoop_escaped (rest buf : List Char) (fuel : Nat) :
    unquoteLoop '"' fuel ('\\' :: 'u' :: '{' :: rest) buf = none := by
  cases fuel with
  | zero => rfl
  | succ f => simp [unquoteLoop, UnquoteChar, hexValue, unhex]

theorem unquoteLoop_fails (s : List Char) (h0 : ∀ c ∈ s, c.toNat ≠ 0)
    (hs : ∃ c ∈ s, plainRune c = false) :
    ∀ (fuel : Nat) (rest buf : List Char),
      unquoteLoop '"' fuel (s.flatMap quoteRune ++ rest) buf = none := by
  induction s with
  | nil => simp at hs
  | cons c s ih =>
    intro fuel rest buf
    cases hc : plainRune c with
    | false =>
      rw [List.flatMap_cons, quoteRune_escaped c (h0 c (by simp)) hc]
      simp only [List.cons_append]
      exact unquoteLoop_escaped _ _ _
    | true =>
      have hs' : ∃ d ∈ s, plainRune d = false := by
        obtain ⟨d, hd, hp⟩ := hs
        rcases List.mem_cons.1 hd with rfl | hd
        · rw [hc] at hp; cases hp
        · exact ⟨d, hd, hp⟩
      cases fuel with
      | zero => rfl
      | succ f =>
        rw [List.flatMap_cons, List.append_assoc, unquoteLoop_plain c hc]
        exact ih (fun d hd => h0 d (by simp [hd])) hs' f rest _

theorem stringsContains_append (a b sub : List Char) (h : stringsContains b sub = true) :
    stringsContains (a ++ b) sub = true := by
  induction a with
  | nil => simpa using h
  | cons c a ih => simp [stringsContains, ih]

theorem stringsContains_of_hasPrefix (b sub : List Char) (h : hasPrefix sub b = true) :
    stringsContains b sub = true := by
  cases b with
  | nil => simpa [stringsContains] using h
  | cons c b => simp [stringsContains, h]

theorem quoted_contains_u (s : List Char) (h0 : ∀ c ∈ s, c.toNat ≠ 0)
    (hs : ∃ c ∈ s, plainRune c = false) (rest : List Char) :
    stringsContains (s.flatMap quoteRune ++ rest) ['\\', 'u'] = true := by
  induction s with
  | nil => simp at hs
  | cons c s ih =>
    cases hc : plainRune c with
    | false =>
      rw [List.flatMap_cons, quoteRune_escaped c (h0 c (by simp)) hc]
      apply stringsContains_of_hasPrefix
      simp [hasPrefix]
    | true =>
      have hs' : ∃ d ∈ s, plainRune d = false := by
        obtain ⟨d, hd, hp⟩ := hs
        rcases List.mem_cons.1 hd with rfl | hd
        · rw [hc] at hp; cases hp
        · exact ⟨d, hd, hp⟩
      rw [List.flatMap_cons, List.append_assoc]
      exact stringsContains_append _ _ _ (ih (fun d hd => h0 d (by simp [hd])) hs')

theorem Unquote_QuoteString_escaped (s : String) (h0 : ∀ c ∈ s.data, c.toNat ≠ 0)
    (hs : ∃ c ∈ s.data, plainRune c = false) :
    Unquote (QuoteString s) = none := by
  obtain ⟨content, after, h⟩ := splitAtQuote_append '"' (s.data.flatMap quoteRune) []
  rw [QuoteString, Unquote_double _ content after h, unquoteSlow,
    unquoteLoop_fails s.data h0 hs]

theorem stripNul_of_no_nul (s : String) (h0 : ∀ c ∈ s.data, c.toNat ≠ 0) : stripNul s = s := by
  have : s.data.filter (fun c => c.toNat ≠ 0) = s.data := by
    rw [List.filter_eq_self]
    intro c hc
    simpa using h0 c hc
  unfold stripNul
  rw [this]

/-- The string normalizer returns a `cadence.String` without NUL unchanged. -/
theorem getAndUnquoteString_String (s : String) (h0 : ∀ c ∈ s.data, c.toNat ≠ 0) :
    getAndUnquoteString (.String s) = some s := by
  by_cases hs : ∀ c ∈ s.data, plainRune c = true
  · simp [getAndUnquoteString, valueString, valueChars, Unquote_QuoteString_plain s hs,
      stripNul_of_no_nul s h0]
  · have hs' : ∃ c ∈ s.data, plainRune c = false := by
      push_neg at hs
      obtain ⟨c, hc, hp⟩ := hs
      exact ⟨c, hc, by simpa using hp⟩
    have hu := Unquote_QuoteString_escaped s h0 hs'
    have hcont := quoted_contains_u s.data h0 hs' ['"']
    have hcont' : stringsContains (QuoteString s).data "\\u".data = true := by
      show stringsContains ('"' :: (s.data.flatMap quoteRune ++ ['"'])) ['\\', 'u'] = true
      exact stringsContains_append ['"'] _ _ hcont
    simp [getAndUnquoteString, valueString, valueChars, hu, hcont', ToGoValue,
      stripNul_of_no_nul s h0]

theorem mapGet_mapSet (m : List (String × IValue)) (k k' : String) (v : IValue) :
    mapGet (mapSet m k v) k' = if k = k' then some v else mapGet m k' := by
  induction m with
  | nil => simp [mapSet, mapGet]
  | cons e m ih =>
    obtain ⟨k0, v0⟩ := e
    by_cases h0 : k0 = k
    · subst h0
      by_cases h1 : k0 = k' <;> simp [mapSet, mapGet, h1]
    · by_cases h1 : k0 = k'
      · subst h1
        have : ¬ k = k0 := fun e => h0 e.symm
        simp [mapSet, mapGet, h0, this]
      · simp [mapSet, mapGet, h0, h1, ih]

theorem mapSet_ne_nil (m : List (String × IValue)) (k : String) (v : IValue) :
    mapSet m k v ≠ [] := by
  cases m with
  | nil => simp [mapSet]
  | cons e m =>
    obtain ⟨k0, v0⟩ := e
    by_cases h0 : k0 = k <;> simp [mapSet, h0]

theorem mapSetAll_cons (m es : List (String × IValue)) (e : String × IValue) :
    mapSetAll m (e :: es) = mapSetAll (mapSet m e.1 e.2) es := rfl

theorem mapSetAll_eq_nil (m es : List (String × IValue)) :
    mapSetAll m es = [] ↔ m = [] ∧ es = [] := by
  induction es generalizing m with
  | nil => simp [mapSetAll]
  | cons e es ih =>
    rw [mapSetAll_cons, ih]
    simp [mapSet_ne_nil]

theorem mapGet_mapSetAll (m es : List (String × IValue)) (k : String) :
    mapGet (mapSetAll m es) k =
      match lookupLast es k with
      | some v => some v
      | none => mapGet m k := by
  induction es generalizing m with
  | nil => simp [mapSetAll, lookupLast]
  | cons e es ih =>
    obtain ⟨k0, v0⟩ := e
    rw [mapSetAll_cons, ih]
    simp only [lookupLast]
    cases lookupLast es k with
    | some v => rfl
    | none =>
      simp only [mapGet_mapSet]
      by_cases h : k0 = k <;> simp [h]

theorem lookupLast_eq_none (es : List (String × IValue)) (k : String)
    (h : ∀ e ∈ es, e.1 ≠ k) : lookupLast es k = none := by
  induction es with
  | nil => rfl
  | cons e es ih =>
    obtain ⟨k0, v0⟩ := e
    have h0 : k0 ≠ k := h (k0, v0) (by simp)
    simp [lookupLast, ih (fun e he => h e (by simp [he])), h0]

theorem lookupLast_nodup (es : List (String × IValue)) (hn : (es.map Prod.fst).Nodup)
    (k : String) (v : IValue) : lookupLast es k = some v ↔ (k, v) ∈ es := by
  induction es with
  | nil => simp [lookupLast]
  | cons e es ih =>
    obtain ⟨k0, v0⟩ := e
    have hn' : (es.map Prod.fst).Nodup := (List.nodup_cons.1 (by simpa using hn)).2
    have hk0 : ∀ e ∈ es, e.1 ≠ k0 := by
      intro e he heq
      have : k0 ∉ es.map Prod.fst := (List.nodup_cons.1 (by simpa using hn)).1
      exact this (by rw [← heq]; exact List.mem_map_of_mem _ he)
    simp only [lookupLast, List.mem_cons, Prod.mk.injEq]
    by_cases h : k0 = k
    · subst h
      rw [lookupLast_eq_none es k0 hk0]
      have : (k0, v) ∉ es := fun hm => hk0 _ hm rfl
      simp [this, eq_comm]
    · have h' : ¬ k = k0 := fun e => h e.symm
      cases hl : lookupLast es k with
      | some w => simp [← ih hn', hl, h']
      | none =>
        have : (k, v) ∉ es := by
          intro hm
          have := (ih hn').2 hm
          rw [hl] at this; cases this
        simp [h, h', this]

theorem kept_iff (opt : Options) (v : IValue) :
    (¬ v.isNil = true ∨ opt.IncludeEmptyValues = true) ↔ kept opt v = true := by
  simp [kept]

theorem dictLoop_eq (opt : Options) (pairs : List (Value × Value)) (acc : List (String × IValue)) :
    dictLoop pairs opt acc =
      (dictEntries opt pairs).map (fun es =>
        mapSetAll acc (keptEntries opt (nonEmptyKeys es))) := by
  induction pairs generalizing acc with
  | nil => simp [dictLoop, dictEntries, keptEntries, mapSetAll, nonEmptyKeys]
  | cons p rest ih =>
    obtain ⟨k, x⟩ := p
    simp only [dictLoop, dictEntries]
    cases hx : CadenceValueToInterfaceWithOption x opt with
    | none => simp
    | some v =>
      cases hk : getAndUnquoteString k with
      | none => simp
      | some key =>
        simp only []
        by_cases hne : key = ""
        · rw [if_neg (by simpa using hne), ih]
          cases dictEntries opt rest <;> simp [hne, nonEmptyKeys]
        · rw [if_pos hne]
          by_cases hkeep : kept opt v = true
          · rw [if_pos ((kept_iff opt v).2 hkeep), ih]
            cases dictEntries opt rest <;> simp [hne, hkeep, keptEntries, mapSetAll, nonEmptyKeys]
          · rw [if_neg (fun h => hkeep ((kept_iff opt v).1 h)), ih]
            cases dictEntries opt rest <;> simp [hne, hkeep, keptEntries, mapSetAll, nonEmptyKeys]

theorem structLoop_eq (opt : Options) (fields : List Value) (names : List Field) (j : Nat)
    (acc : List (String × IValue)) :
    structLoop fields names j opt acc =
      (fieldEntries opt fields (names.drop j)).map (fun es => mapSetAll acc (keptEntries opt es)) := by
  induction fields generalizing j acc with
  | nil => simp [structLoop, fieldEntries, keptEntries, mapSetAll]
  | cons x xs ih =>
    simp only [structLoop]
    cases hn : names[j]? with
    | none =>
      have hd : names.drop j = [] := by
        rw [List.drop_eq_nil_iff]
        exact List.getElem?_eq_none_iff.1 hn
      rw [hd]
      cases hx : CadenceValueToInterfaceWithOption x opt <;> simp [fieldEntries]
    | some f =>
      have hj : j < names.length := by
        by_contra hlt
        rw [List.getElem?_eq_none_iff.2 (by omega)] at hn
        cases hn
      have hd : names.drop j = f :: names.drop (j + 1) := by
        rw [List.drop_eq_getElem_cons hj]
        rw [List.getElem?_eq_getElem hj] at hn
        simp at hn
        rw [hn]
      rw [hd]
      simp only [fieldEntries]
      cases hx : CadenceValueToInterfaceWithOption x opt with
      | none => simp
      | some v =>
        simp only []
        by_cases hkeep : kept opt v = true
        · rw [if_pos ((kept_iff opt v).2 hkeep), ih]
          cases fieldEntries opt xs (names.drop (j + 1)) <;> simp [hkeep, keptEntries, mapSetAll]
        · rw [if_neg (fun h => hkeep ((kept_iff opt v).1 h)), ih]
          cases fieldEntries opt xs (names.drop (j + 1)) <;> simp [hkeep, keptEntries, mapSetAll]

theorem eventLoop_eq_structLoop (opt : Options) (fields : List Value) (names : List Field)
    (i : Nat) (acc : List (String × IValue)) (h : i + fields.length ≤ names.length) :
    eventLoop fields names i opt acc = structLoop fields names i opt acc := by
  induction fields generalizing i acc with
  | nil => simp [eventLoop, structLoop]
  | cons x xs ih =>
    have hi : i < names.length := by simp at h; omega
    simp only [eventLoop, structLoop, List.getElem?_eq_getElem hi]
    cases hx : CadenceValueToInterfaceWithOption x opt with
    | none => rfl
    | some v =>
      simp only []
      have h' : i + 1 + xs.length ≤ names.length := by simp at h; omega
      by_cases hkeep : kept opt v = true
      · rw [if_pos ((kept_iff opt v).2 hkeep), if_pos ((kept_iff opt v).2 hkeep), ih _ _ h']
      · rw [if_neg (fun h => hkeep ((kept_iff opt v).1 h)),
          if_neg (fun h => hkeep ((kept_iff opt v).1 h)), ih _ _ h']

theorem decodeEach_length (opt : Options) (items : List Value) (vs : List IValue)
    (h : decodeEach opt items = some vs) : vs.length = items.length := by
  induction items generalizing vs with
  | nil => simp [decodeEach] at h; simp [← h]
  | cons x xs ih =>
    simp only [decodeEach] at h
    cases hx : CadenceValueToInterfaceWithOption x opt with
    | none => simp [hx] at h
    | some v =>
      cases hr : decodeEach opt xs with
      | none => simp [hx, hr] at h
      | some r =>
        simp [hx, hr] at h
        subst h
        simp [ih r hr]

theorem decodeEach_getElem (opt : Options) (items : List Value) (vs : List IValue)
    (h : decodeEach opt items = some vs) (i : Nat) (x : Value) (hx : items[i]? = some x) :
    CadenceValueToInterfaceWithOption x opt = vs[i]? := by
  induction items generalizing vs i with
  | nil => simp at hx
  | cons y ys ih =>
    simp only [decodeEach] at h
    cases hy : CadenceValueToInterfaceWithOption y opt with
    | none => simp [hy] at h
    | some v =>
      cases hr : decodeEach opt ys with
      | none => simp [hy, hr] at h
      | some r =>
        simp [hy, hr] at h
        subst h
        cases i with
        | zero =>
          simp at hx
          subst hx
          simpa using hy
        | succ i =>
          simp at hx
          simpa using ih r hr i hx

theorem decodeEach_of_forall (opt : Options) (items : List Value)
    (h : ∀ x ∈ items, ∃ v, CadenceValueToInterfaceWithOption x opt = some v) :
    ∃ vs, decodeEach opt items = some vs := by
  induction items with
  | nil => exact ⟨[], rfl⟩
  | cons x xs ih =>
    obtain ⟨v, hv⟩ := h x (by simp)
    obtain ⟨vs, hvs⟩ := ih (fun y hy => h y (by simp [hy]))
    exact ⟨v :: vs, by simp [decodeEach, hv, hvs]⟩

theorem fieldEntries_eq (opt : Options) (fields : List Value) (names : List Field)
    (vs : List IValue) (hv : decodeEach opt fields = some vs)
    (hlen : fields.length ≤ names.length) :
    fieldEntries opt fields names = some ((names.map Field.Identifier).zip vs) := by
  induction fields generalizing names vs with
  | nil =>
    simp [decodeEach] at hv
    subst hv
    simp [fieldEntries]
  | cons x xs ih =>
    cases names with
    | nil => simp at hlen
    | cons f fs =>
      simp only [decodeEach] at hv
      cases hx : CadenceValueToInterfaceWithOption x opt with
      | none => simp [hx] at hv
      | some v =>
        cases hr : decodeEach opt xs with
        | none => simp [hx, hr] at hv
        | some r =>
          simp [hx, hr] at hv
          subst hv
          have := ih fs r hr (by simpa using hlen)
          simp [fieldEntries, hx, this]

theorem mem_zip_iff_getElem {α β : Type} (l₁ : List α) (l₂ : List β) (a : α) (b : β) :
    (a, b) ∈ l₁.zip l₂ ↔ ∃ i : Nat, l₁[i]? = some a ∧ l₂[i]? = some b := by
  induction l₁ generalizing l₂ with
  | nil => simp
  | cons x xs ih =>
    cases l₂ with
    | nil => simp
    | cons y ys =>
      simp only [List.zip_cons_cons, List.mem_cons, Prod.mk.injEq, ih]
      constructor
      · rintro (⟨rfl, rfl⟩ | ⟨i, h1, h2⟩)
        · exact ⟨0, by simp⟩
        · exact ⟨i + 1, by simpa using ⟨h1, h2⟩⟩
      · rintro ⟨i, h1, h2⟩
        cases i with
        | zero => left; simp at h1 h2; exact ⟨h1.symm, h2.symm⟩
        | succ i => right; exact ⟨i, by simpa using h1, by simpa using h2⟩

theorem keptEntries_nodup (opt : Options) (es : List (String × IValue))
    (h : (es.map Prod.fst).Nodup) : ((keptEntries opt es).map Prod.fst).Nodup :=
  List.Nodup.sublist (List.Sublist.map _ (List.filter_sublist _)) h

theorem zip_keys_nodup (names : List String) (vs : List IValue) (h : names.Nodup) :
    ((names.zip vs).map Prod.fst).Nodup := by
  induction names generalizing vs with
  | nil => simp
  | cons n ns ih =>
    cases vs with
    | nil => simp
    | cons v vs =>
      have hn := List.nodup_cons.1 h
      simp only [List.zip_cons_cons, List.map_cons, List.nodup_cons]
      refine ⟨?_, ih vs hn.2⟩
      intro hm
      obtain ⟨e, he, hfst⟩ := List.mem_map.1 hm
      obtain ⟨k, w⟩ := e
      have := (List.of_mem_zip he).1
      simp at hfst
      subst hfst
      exact hn.1 this

/-- Lookups of the map of a composite with distinct declared names. -/
theorem mapGet_fieldMap (opt : Options) (names : List Field) (vs : List IValue)
    (hn : (names.map Field.Identifier).Nodup) (name : String) (v : IValue) :
    mapGet (fieldMap opt names vs) name = some v ↔
      ∃ (i : Nat) (f : Field), names[i]? = some f ∧ f.Identifier = name ∧ vs[i]? = some v ∧ kept opt v = true := by
  have hnd := keptEntries_nodup opt _ (zip_keys_nodup _ vs hn)
  rw [fieldMap, mapGet_mapSetAll]
  have hl := lookupLast_nodup _ hnd name v
  have hmem : (name, v) ∈ keptEntries opt ((names.map Field.Identifier).zip vs) ↔
      ∃ (i : Nat) (f : Field), names[i]? = some f ∧ f.Identifier = name ∧ vs[i]? = some v ∧ kept opt v = true := by
    simp only [keptEntries, List.mem_filter, mem_zip_iff_getElem, List.getElem?_map]
    constructor
    · rintro ⟨⟨i, h1, h2⟩, h3⟩
      cases hf : names[i]? with
      | none => simp [hf] at h1
      | some f =>
        simp [hf] at h1
        exact ⟨i, f, hf, h1, h2, h3⟩
    · rintro ⟨i, f, h1, h2, h3, h4⟩
      exact ⟨⟨i, by simp [h1, h2], h3⟩, h4⟩
  rw [← hmem, ← hl]
  cases lookupLast (keptEntries opt ((names.map Field.Identifier).zip vs)) name <;> simp [mapGet]

theorem decode_Struct (opt : Options) (t : CompositeType) (fields : List Value)
    (vs : List IValue) (hv : decodeEach opt fields = some vs)
    (hlen : fields.length ≤ t.Fields.length) :
    CadenceValueToInterfaceWithOption (.Struct t fields) opt =
      some (if (fieldMap opt t.Fields vs).length = 0 ∧ ¬ opt.IncludeEmptyValues then .null
        else if ¬ opt.WrapWithComplexTypes then .map (fieldMap opt t.Fields vs)
        else .map [("<" ++ t.ID ++ ">", .map (fieldMap opt t.Fields vs))]) := by
  simp only [CadenceValueToInterfaceWithOption, structLoop_eq, List.drop_zero,
    fieldEntries_eq opt fields t.Fields vs hv hlen, Option.map_some', fieldMap]
  split_ifs <;> rfl

theorem decode_Resource (opt : Options) (t : CompositeType) (fields : List Value)
    (vs : List IValue) (hv : decodeEach opt fields = some vs)
    (hlen : fields.length ≤ t.Fields.length) :
    CadenceValueToInterfaceWithOption (.Resource t fields) opt =
      some (if ¬ opt.WrapWithComplexTypes then .map (fieldMap opt t.Fields vs)
        else .map [("<@" ++ t.ID ++ ">", .map (fieldMap opt t.Fields vs))]) := by
  simp only [CadenceValueToInterfaceWithOption, structLoop_eq, List.drop_zero,
    fieldEntries_eq opt fields t.Fields vs hv hlen, Option.map_some', fieldMap]
  split_ifs <;> rfl

theorem decode_Event (opt : Options) (t : CompositeType) (fields : List Value)
    (vs : List IValue) (hv : decodeEach opt fields = some vs)
    (hlen : fields.length ≤ t.Fields.length) :
    CadenceValueToInterfaceWithOption (.Event t fields) opt =
      some (if ¬ opt.WrapWithComplexTypes then .map (fieldMap opt t.Fields vs)
        else .map [("<" ++ t.ID ++ ">", .map (fieldMap opt t.Fields vs))]) := by
  simp only [CadenceValueToInterfaceWithOption,
    eventLoop_eq_structLoop opt fields t.Fields 0 [] (by simpa using hlen), structLoop_eq,
    List.drop_zero, fieldEntries_eq opt fields t.Fields vs hv hlen, Option.map_some', fieldMap]
  split_ifs <;> rfl

theorem decode_Array (opt : Options) (items : List Value) :
    CadenceValueToInterfaceWithOption (.Array items) opt =
      (decodeEach opt items).map (fun vs =>
        if (vs.filter (kept opt)).length = 0 ∧ ¬ opt.IncludeEmptyValues then IValue.null
        else .list (vs.filter (kept opt))) := by
  simp only [CadenceValueToInterfaceWithOption, arrayLoop_eq]
  cases decodeEach opt items with
  | none => rfl
  | some vs =>
    simp only [Option.map_some', List.nil_append]
    split_ifs <;> rfl

theorem decode_Dictionary (opt : Options) (pairs : List (Value × Value)) :
    CadenceValueToInterfaceWithOption (.Dictionary pairs) opt =
      (dictEntries opt pairs).map (fun es =>
        if (mapSetAll [] (keptEntries opt (nonEmptyKeys es))).length = 0
            ∧ ¬ opt.IncludeEmptyValues then IValue.null
        else .map (mapSetAll [] (keptEntries opt (nonEmptyKeys es)))) := by
  simp only [CadenceValueToInterfaceWithOption, dictLoop_eq]
  cases dictEntries opt pairs with
  | none => rfl
  | some es =>
    simp only [Option.map_some']
    split_ifs <;> rfl

/-- The two recursive calls of the case `cadence.Capability`, on the address and
on the id, return what that case of the embedding writes out. -/
theorem capability_calls (opt : Options) (id : Nat) (address : List Nat) :
    CadenceValueToInterfaceWithOption (.Address address) opt =
        some (.string (addressString address))
      ∧ CadenceValueToInterfaceWithOption (.UInt64 id) opt = some (.num .uint64 id) := by
  constructor <;> simp only [CadenceValueToInterfaceWithOption]

theorem getAndUnquoteString_empty : getAndUnquoteString (.String "") = some "" := by decide

theorem decode_String_empty : CadenceValueToInterface (.String "") = some .null := by
  simp [CadenceValueToInterface, CadenceValueToInterfaceWithOption, getAndUnquoteString_empty,
    defaultOptions]

/-- C1: wrapping a value in any number of `Optional` layers does not change what
the decoder returns, under every options record; `Optional(nil)` and a bare nil
both decode to null. -/
theorem C1_optional_flattening (x : Value) (opt : Options) (n : Nat) :
    CadenceValueToInterfaceWithOption (nestOptional n x) opt =
        CadenceValueToInterfaceWithOption x opt
      ∧ CadenceValueToInterfaceWithOption (.Optional .nil) opt = some .null
      ∧ CadenceValueToInterfaceWithOption .nil opt = some .null := by
  refine ⟨?_, by simp [CadenceValueToInterfaceWithOption], by simp [CadenceValueToInterfaceWithOption]⟩
  induction n with
  | zero => rfl
  | succ n ih => simp [nestOptional, CadenceValueToInterfaceWithOption, ih]

/-- C2: under the default configuration an array decodes to the list of the
decodings of its items, in order, without those that are null, and to null
when none remains (a panic in the decoding of an item is the panic of the
whole); `Array([])` and `Array([""])` decode to null and
`Array(["foo", "", "bar"])` to `["foo", "bar"]`. -/
theorem C2_array_default (items : List Value) :
    CadenceValueToInterface (.Array items) =
        (decodeEach defaultOptions items).map (fun vs =>
          if (vs.filter (fun v => !v.isNil)).isEmpty then IValue.null
          else .list (vs.filter (fun v => !v.isNil)))
      ∧ CadenceValueToInterface (.Array []) = some .null
      ∧ CadenceValueToInterface (.Array [.String ""]) = some .null
      ∧ CadenceValueToInterface (.Array [.String "foo", .String "", .String "bar"]) =
          some (.list [.string "foo", .string "bar"]) := by
  refine ⟨?_, by rfl, by rfl, by rfl⟩
  rw [CadenceValueToInterface, decode_Array]
  have hk : kept defaultOptions = fun v => !v.isNil := by
    funext v; simp [kept, defaultOptions]
  rw [hk]
  cases decodeEach defaultOptions items with
  | none => rfl
  | some vs =>
    simp only [Option.map_some']
    cases h : vs.filter (fun v => !v.isNil) <;> simp [defaultOptions]

theorem dictEntries_spec (opt : Options) (pairs : List (Value × Value))
    (hk : ∀ p ∈ pairs, ∃ k, getAndUnquoteString p.1 = some k)
    (hv : ∀ p ∈ pairs, ∃ v, CadenceValueToInterfaceWithOption p.2 opt = some v) :
    ∃ es, dictEntries opt pairs = some es ∧
      es.map (fun e => some e.1) = pairs.map (fun p => getAndUnquoteString p.1) ∧
      ∀ k v, (k, v) ∈ es ↔ ∃ p ∈ pairs, getAndUnquoteString p.1 = some k ∧
        CadenceValueToInterfaceWithOption p.2 opt = some v := by
  induction pairs with
  | nil => exact ⟨[], rfl, rfl, by simp⟩
  | cons p rest ih =>
    obtain ⟨key, x⟩ := p
    obtain ⟨k0, hk0⟩ := hk (key, x) (by simp)
    obtain ⟨v0, hv0⟩ := hv (key, x) (by simp)
    obtain ⟨es, hes, hmap, hmem⟩ :=
      ih (fun p hp => hk p (by simp [hp])) (fun p hp => hv p (by simp [hp]))
    simp only at hk0 hv0
    refine ⟨(k0, v0) :: es, by simp [dictEntries, hk0, hv0, hes], by simp [hk0, hmap], ?_⟩
    intro k v
    simp only [List.mem_cons, Prod.mk.injEq, hmem]
    constructor
    · rintro (⟨rfl, rfl⟩ | ⟨p, hp, h1, h2⟩)
      · exact ⟨(key, x), Or.inl rfl, hk0, hv0⟩
      · exact ⟨p, Or.inr hp, h1, h2⟩
    · rintro ⟨p, hp | hp, h1, h2⟩
      · subst hp
        simp only at h1 h2
        rw [hk0] at h1; rw [hv0] at h2
        left
        exact ⟨(Option.some.inj h1).symm, (Option.some.inj h2).symm⟩
      · exact Or.inr ⟨p, hp, h1, h2⟩

theorem nonEmptyKeys_nodup (es : List (String × IValue))
    (h : (es.map Prod.fst).Nodup) : ((nonEmptyKeys es).map Prod.fst).Nodup :=
  List.Nodup.sublist (List.Sublist.map _ (List.filter_sublist _)) h

theorem isNil_eq_false_iff (opt : Options) (h : opt.IncludeEmptyValues = false) (v : IValue) :
    kept opt v = true ↔ v.isNil = false := by
  simp [kept, h]

/-- C3: under the default configuration, for a dictionary whose keys normalize
to pairwise distinct strings (and whose values decode without a panic), the
decoded value has the entry `(k, v)` exactly when some pair has a key
normalizing to the non-empty `k` and a value decoding to the non-null `v`; when
no pair qualifies the dictionary decodes to null, and so does
`Dictionary([(key, "")])` for every key that normalizes. -/
theorem C3_dictionary_default :
    (∀ pairs : List (Value × Value),
      (∀ p ∈ pairs, ∃ k, getAndUnquoteString p.1 = some k) →
      pairs.Pairwise (fun p q => getAndUnquoteString p.1 ≠ getAndUnquoteString q.1) →
      (∀ p ∈ pairs, ∃ v, CadenceValueToInterface p.2 = some v) →
      ∃ r, CadenceValueToInterface (.Dictionary pairs) = some r ∧
        (∀ k v, r.hasEntry k v ↔ ∃ p ∈ pairs, getAndUnquoteString p.1 = some k ∧ k ≠ "" ∧
            CadenceValueToInterface p.2 = some v ∧ v.isNil = false) ∧
        ((¬ ∃ p ∈ pairs, ∃ k v, getAndUnquoteString p.1 = some k ∧ k ≠ "" ∧
            CadenceValueToInterface p.2 = some v ∧ v.isNil = false) → r = .null))
    ∧ (∀ key : Value, (∃ k, getAndUnquoteString key = some k) →
        CadenceValueToInterface (.Dictionary [(key, .String "")]) = some .null) := by
  have main : ∀ pairs : List (Value × Value),
      (∀ p ∈ pairs, ∃ k, getAndUnquoteString p.1 = some k) →
      pairs.Pairwise (fun p q => getAndUnquoteString p.1 ≠ getAndUnquoteString q.1) →
      (∀ p ∈ pairs, ∃ v, CadenceValueToInterface p.2 = some v) →
      ∃ r, CadenceValueToInterface (.Dictionary pairs) = some r ∧
        (∀ k v, r.hasEntry k v ↔ ∃ p ∈ pairs, getAndUnquoteString p.1 = some k ∧ k ≠ "" ∧
            CadenceValueToInterface p.2 = some v ∧ v.isNil = false) ∧
        ((¬ ∃ p ∈ pairs, ∃ k v, getAndUnquoteString p.1 = some k ∧ k ≠ "" ∧
            CadenceValueToInterface p.2 = some v ∧ v.isNil = false) → r = .null) := by
    intro pairs hk hd hv
    obtain ⟨es, hes, hmap, hmem⟩ := dictEntries_spec defaultOptions pairs hk hv
    have hnd : (es.map Prod.fst).Nodup := by
      have h1 : (pairs.map (fun p => getAndUnquoteString p.1)).Nodup := by
        rw [List.Nodup, List.pairwise_map]
        exact hd
      rw [← hmap] at h1
      have h2 : es.map (fun e => some e.1) = (es.map Prod.fst).map some := by simp
      rw [h2] at h1
      exact List.Nodup.of_map _ h1
    have hnd' := keptEntries_nodup defaultOptions _ (nonEmptyKeys_nodup es hnd)
    have hin : ∀ k v, (k, v) ∈ keptEntries defaultOptions (nonEmptyKeys es) ↔
        ∃ p ∈ pairs, getAndUnquoteString p.1 = some k ∧ k ≠ "" ∧
            CadenceValueToInterface p.2 = some v ∧ v.isNil = false := by
      intro k v
      simp only [keptEntries, nonEmptyKeys, List.mem_filter, hmem, decide_eq_true_eq,
        isNil_eq_false_iff defaultOptions rfl, CadenceValueToInterface]
      constructor
      · rintro ⟨⟨⟨p, hp, h1, h2⟩, h3⟩, h4⟩
        exact ⟨p, hp, h1, h3, h2, h4⟩
      · rintro ⟨p, hp, h1, h3, h2, h4⟩
        exact ⟨⟨⟨p, hp, h1, h2⟩, h3⟩, h4⟩
    rw [CadenceValueToInterface, decode_Dictionary, hes]
    simp only [Option.map_some']
    by_cases hempty : keptEntries defaultOptions (nonEmptyKeys es) = []
    · refine ⟨.null, ?_, ?_, fun _ => rfl⟩
      · rw [hempty]; simp [mapSetAll, defaultOptions]
      · intro k v
        rw [← hin, hempty]
        simp [IValue.hasEntry]
    · have hne : ¬ ((mapSetAll [] (keptEntries defaultOptions (nonEmptyKeys es))).length = 0
          ∧ ¬ defaultOptions.IncludeEmptyValues) := by
        rintro ⟨h, -⟩
        exact hempty ((mapSetAll_eq_nil _ _).1 (List.length_eq_zero.1 h)).2
      refine ⟨.map (mapSetAll [] (keptEntries defaultOptions (nonEmptyKeys es))), ?_, ?_, ?_⟩
      · rw [if_neg hne]
      · intro k v
        rw [← hin, ← lookupLast_nodup _ hnd', IValue.hasEntry, mapGet_mapSetAll]
        cases lookupLast (keptEntries defaultOptions (nonEmptyKeys es)) k <;> simp [mapGet]
      · intro hno
        exfalso
        cases hke : keptEntries defaultOptions (nonEmptyKeys es) with
        | nil => exact hempty hke
        | cons e rest =>
          obtain ⟨k, v⟩ := e
          have : (k, v) ∈ keptEntries defaultOptions (nonEmptyKeys es) := by rw [hke]; simp
          obtain ⟨p, hp, h⟩ := (hin k v).1 this
          exact hno ⟨p, hp, k, v, h⟩
  refine ⟨main, ?_⟩
  rintro key ⟨k, hk⟩
  obtain ⟨r, hr, -, hnull⟩ := main [(key, .String "")]
    (by simpa using ⟨k, hk⟩) (by simp) (by simpa using ⟨.null, decode_String_empty⟩)
  rw [hr, hnull]
  rintro ⟨p, hp, k', v, -, -, h3, h4⟩
  simp only [List.mem_singleton] at hp
  subst hp
  rw [decode_String_empty] at h3
  cases h3
  simp [IValue.isNil] at h4

theorem keptEntries_eq_nil_iff (opt : Options) (names : List String) (vs : List IValue)
    (hlen : vs.length ≤ names.length) :
    keptEntries opt (names.zip vs) = [] ↔ ∀ v ∈ vs, kept opt v = false := by
  induction names generalizing vs with
  | nil =>
    cases vs with
    | nil => simp [keptEntries]
    | cons v vs => simp at hlen
  | cons n ns ih =>
    cases vs with
    | nil => simp [keptEntries]
    | cons v vs =>
      have := ih vs (by simpa using hlen)
      simp only [keptEntries] at this
      cases hk : kept opt v <;> simp [keptEntries, List.filter_cons, hk, this]

theorem fieldMap_eq_nil_iff (opt : Options) (names : List Field) (vs : List IValue)
    (hlen : vs.length ≤ names.length) :
    fieldMap opt names vs = [] ↔ ∀ v ∈ vs, kept opt v = false := by
  rw [fieldMap, mapSetAll_eq_nil, keptEntries_eq_nil_iff opt _ vs (by simpa using hlen)]
  simp

/-- C4: under the default configuration (wrapping off), a struct whose value
list and declared field list have the same length, with distinct declared names
(and whose fields decode without a panic, to `vs`), decodes to null if every
field decodes to null, and otherwise to the map that has the entry
`(name, v)` exactly when the field at some position is declared with `name` and
decodes to the non-null `v`. -/
theorem C4_struct_default (t : CompositeType) (fields : List Value) (vs : List IValue)
    (hlen : fields.length = t.Fields.length)
    (hn : (t.Fields.map Field.Identifier).Nodup)
    (hv : decodeEach defaultOptions fields = some vs) :
    ((∀ v ∈ vs, v.isNil = true) → CadenceValueToInterface (.Struct t fields) = some .null) ∧
    ((∃ v ∈ vs, v.isNil = false) →
      ∃ m, CadenceValueToInterface (.Struct t fields) = some (.map m) ∧
        ∀ name v, mapGet m name = some v ↔
          ∃ (i : Nat) (f : Field), t.Fields[i]? = some f ∧ f.Identifier = name ∧
            vs[i]? = some v ∧ v.isNil = false) := by
  have hvl := decodeEach_length _ _ _ hv
  have hnil := fieldMap_eq_nil_iff defaultOptions t.Fields vs (by omega)
  rw [CadenceValueToInterface, decode_Struct defaultOptions t fields vs hv (by omega)]
  constructor
  · intro hall
    have : fieldMap defaultOptions t.Fields vs = [] :=
      hnil.2 (fun v hv' => by simp [kept, defaultOptions, hall v hv'])
    rw [if_pos ⟨by rw [this]; rfl, by simp [defaultOptions]⟩]
  · rintro ⟨v0, hv0, hv0n⟩
    have hne : fieldMap defaultOptions t.Fields vs ≠ [] := by
      intro h
      have := hnil.1 h v0 hv0
      simp [kept, defaultOptions, hv0n] at this
    refine ⟨fieldMap defaultOptions t.Fields vs, ?_, ?_⟩
    · have : ¬ (fieldMap defaultOptions t.Fields vs).length = 0 :=
        fun h => hne (List.length_eq_zero.1 h)
      rw [if_neg (fun h => this h.1), if_pos (by simp [defaultOptions])]
    · intro name v
      rw [mapGet_fieldMap defaultOptions t.Fields vs hn name v]
      simp only [isNil_eq_false_iff defaultOptions rfl]
theorem kept_of_include (opt : Options) (hinc : opt.IncludeEmptyValues = true) (v : IValue) :
    kept opt v = true := by
  simp [kept, hinc]

theorem decodeEach_all_null (opt : Options) (fields : List Value)
    (h : ∀ x ∈ fields, CadenceValueToInterfaceWithOption x opt = some .null) :
    ∃ vs, decodeEach opt fields = some vs ∧ ∀ v ∈ vs, v = IValue.null := by
  induction fields with
  | nil => exact ⟨[], rfl, by simp⟩
  | cons x xs ih =>
    obtain ⟨vs, hvs, hall⟩ := ih (fun y hy => h y (by simp [hy]))
    refine ⟨.null :: vs, by simp [decodeEach, h x (by simp), hvs], ?_⟩
    intro v hv
    rcases List.mem_cons.1 hv with rfl | hv
    · rfl
    · exact hall v hv

/-- C5 (as stated, refuted): under `IncludeEmptyValues=true` the dictionary
with the non-empty string key `"é\x00"` and an empty string value decodes to
the map with the key `"é"`, not to the map with the key itself. -/
theorem C5_counterexample :
    "é\x00" ≠ "" ∧
    CadenceValueToInterfaceWithOption (.Dictionary [(.String "é\x00", .String "")])
        { IncludeEmptyValues := true, WrapWithComplexTypes := false,
          UseStringForFixedNumbers := false } = some (.map [("é", .string "")]) ∧
    IValue.map [("é", .string "")] ≠ .map [("é\x00", .string "")] := by
  refine ⟨by decide, by rfl, ?_⟩
  intro h
  injection h with h
  injection h with h _
  injection h with h _
  exact absurd h (by decide)

/-- C5 (amended): under `IncludeEmptyValues=true` nothing is dropped or
collapsed to null: an empty string decodes to `""`; an array decodes to the
list of the decodings of all its items, one per item and in order; a
dictionary `[(k, "")]` whose key is a non-empty string without NUL decodes to
`{k: ""}`; a struct or an event with as many values as declared fields and
distinct declared names decodes to a map (inside the type wrapper when wrapping
is on) that has an entry for every field. -/
theorem C5_include_empty_values (opt : Options) (hinc : opt.IncludeEmptyValues = true) :
    CadenceValueToInterfaceWithOption (.String "") opt = some (.string "")
    ∧ (∀ items : List Value,
        CadenceValueToInterfaceWithOption (.Array items) opt =
          (decodeEach opt items).map IValue.list)
    ∧ (∀ (items : List Value) (vs : List IValue), decodeEach opt items = some vs →
        vs.length = items.length ∧
        ∀ (i : Nat) (x : Value), items[i]? = some x →
          CadenceValueToInterfaceWithOption x opt = vs[i]?)
    ∧ (∀ k : String, k ≠ "" → (∀ c ∈ k.data, c.toNat ≠ 0) →
        CadenceValueToInterfaceWithOption (.Dictionary [(.String k, .String "")]) opt =
          some (.map [(k, .string "")]))
    ∧ (∀ (t : CompositeType) (fields : List Value) (vs : List IValue),
        fields.length = t.Fields.length → (t.Fields.map Field.Identifier).Nodup →
        decodeEach opt fields = some vs →
        ∃ m : List (String × IValue),
          (∀ (i : Nat) (f : Field) (v : IValue), t.Fields[i]? = some f → vs[i]? = some v →
            mapGet m f.Identifier = some v) ∧
          CadenceValueToInterfaceWithOption (.Struct t fields) opt =
            some (if opt.WrapWithComplexTypes then .map [("<" ++ t.ID ++ ">", .map m)]
              else .map m) ∧
          CadenceValueToInterfaceWithOption (.Event t fields) opt =
            some (if opt.WrapWithComplexTypes then .map [("<" ++ t.ID ++ ">", .map m)]
              else .map m)) := by
  have hstr : CadenceValueToInterfaceWithOption (.String "") opt = some (.string "") := by
    simp [CadenceValueToInterfaceWithOption, getAndUnquoteString_empty, hinc]
  have hkept : kept opt = fun _ => true := by
    funext v; exact kept_of_include opt hinc v
  refine ⟨hstr, ?_, ?_, ?_, ?_⟩
  · intro items
    rw [decode_Array, hkept]
    cases decodeEach opt items with
    | none => rfl
    | some vs => simp [hinc]
  · intro items vs h
    exact ⟨decodeEach_length opt items vs h, fun i x hx => decodeEach_getElem opt items vs h i x hx⟩
  · intro k hk h0
    rw [decode_Dictionary]
    simp only [dictEntries, hstr, getAndUnquoteString_String k h0, Option.map_some',
      nonEmptyKeys, keptEntries, hkept]
    simp [hk, mapSetAll, mapSet, hinc]
  · intro t fields vs hlen hn hv
    refine ⟨fieldMap opt t.Fields vs, ?_, ?_, ?_⟩
    · intro i f v hf hvi
      exact (mapGet_fieldMap opt t.Fields vs hn f.Identifier v).2
        ⟨i, f, hf, rfl, hvi, kept_of_include opt hinc v⟩
    · rw [decode_Struct opt t fields vs hv (by omega)]
      cases hw : opt.WrapWithComplexTypes <;> simp [hinc]
    · rw [decode_Event opt t fields vs hv (by omega)]
      cases hw : opt.WrapWithComplexTypes <;> simp

/-- C6: with `IncludeEmptyValues=false`, when every field decodes to null (also
when there is no field) a struct decodes to null, whatever the wrapping, whereas
a resource and an event decode to the empty map when wrapping is off and to the
one-entry map that wraps the empty map when wrapping is on. -/
theorem C6_empty_composites (opt : Options) (t : CompositeType) (fields : List Value)
    (hinc : opt.IncludeEmptyValues = false)
    (hlen : fields.length = t.Fields.length)
    (hnull : ∀ x ∈ fields, CadenceValueToInterfaceWithOption x opt = some .null) :
    CadenceValueToInterfaceWithOption (.Struct t fields) opt = some .null
    ∧ CadenceValueToInterfaceWithOption (.Resource t fields) opt =
        some (if opt.WrapWithComplexTypes then .map [("<@" ++ t.ID ++ ">", .map [])]
          else .map [])
    ∧ CadenceValueToInterfaceWithOption (.Event t fields) opt =
        some (if opt.WrapWithComplexTypes then .map [("<" ++ t.ID ++ ">", .map [])]
          else .map []) := by
  obtain ⟨vs, hvs, hall⟩ := decodeEach_all_null opt fields hnull
  have hvl := decodeEach_length _ _ _ hvs
  have hfm : fieldMap opt t.Fields vs = [] := by
    rw [fieldMap_eq_nil_iff opt t.Fields vs (by omega)]
    intro v hv
    rw [hall v hv]
    simp [kept, hinc, IValue.isNil]
  refine ⟨?_, ?_, ?_⟩
  · rw [decode_Struct opt t fields vs hvs (by omega), hfm]
    simp [hinc]
  · rw [decode_Resource opt t fields vs hvs (by omega), hfm]
    cases hw : opt.WrapWithComplexTypes <;> simp
  · rw [decode_Event opt t fields vs hvs (by omega), hfm]
    cases hw : opt.WrapWithComplexTypes <;> simp
theorem decode_scalar_wrap (opt : Options) (x : Value) (hx : isScalar x = true) :
    CadenceValueToInterfaceWithOption x { opt with WrapWithComplexTypes := false } =
      CadenceValueToInterfaceWithOption x opt := by
  cases x <;> simp [isScalar] at hx <;> simp [CadenceValueToInterfaceWithOption]

theorem decodeEach_scalar_wrap (opt : Options) (fields : List Value)
    (h : ∀ x ∈ fields, isScalar x = true) :
    decodeEach { opt with WrapWithComplexTypes := false } fields = decodeEach opt fields := by
  induction fields with
  | nil => rfl
  | cons x xs ih =>
    simp only [decodeEach, decode_scalar_wrap opt x (h x (by simp)),
      ih (fun y hy => h y (by simp [hy]))]

theorem fieldMap_wrap (opt : Options) (names : List Field) (vs : List IValue) :
    fieldMap { opt with WrapWithComplexTypes := false } names vs = fieldMap opt names vs := by
  have : kept { opt with WrapWithComplexTypes := false } = kept opt := by
    funext v; simp [kept]
  simp [fieldMap, keptEntries, this]

/-- C7: with `WrapWithComplexTypes=true`, a struct, event or resource with type
identifier `X` (as many values as declared fields, fields decoding without a
panic to `vs`) that retains at least one field decodes to the map with the
single entry whose key is `<X>` for a struct or an event and `<@X>` for a
resource and whose value is the field map, built from the field decodings
under the same options; when all fields are scalars that field map is what the
decoder returns with wrapping off. -/
theorem C7_wrap_with_complex_types (opt : Options) (t : CompositeType) (fields : List Value)
    (vs : List IValue)
    (hw : opt.WrapWithComplexTypes = true)
    (hlen : fields.length = t.Fields.length)
    (hv : decodeEach opt fields = some vs)
    (hret : ∃ v ∈ vs, kept opt v = true) :
    (CadenceValueToInterfaceWithOption (.Struct t fields) opt =
        some (.map [("<" ++ t.ID ++ ">", .map (fieldMap opt t.Fields vs))])
      ∧ CadenceValueToInterfaceWithOption (.Event t fields) opt =
        some (.map [("<" ++ t.ID ++ ">", .map (fieldMap opt t.Fields vs))])
      ∧ CadenceValueToInterfaceWithOption (.Resource t fields) opt =
        some (.map [("<@" ++ t.ID ++ ">", .map (fieldMap opt t.Fields vs))]))
    ∧ ((∀ x ∈ fields, isScalar x = true) →
        CadenceValueToInterfaceWithOption (.Struct t fields)
            { opt with WrapWithComplexTypes := false } = some (.map (fieldMap opt t.Fields vs))
        ∧ CadenceValueToInterfaceWithOption (.Event t fields)
            { opt with WrapWithComplexTypes := false } = some (.map (fieldMap opt t.Fields vs))
        ∧ CadenceValueToInterfaceWithOption (.Resource t fields)
            { opt with WrapWithComplexTypes := false } =
          some (.map (fieldMap opt t.Fields vs))) := by
  have hvl := decodeEach_length _ _ _ hv
  have hne : ¬ (fieldMap opt t.Fields vs).length = 0 := by
    intro h
    obtain ⟨v, hv1, hv2⟩ := hret
    have := (fieldMap_eq_nil_iff opt t.Fields vs (by omega)).1 (List.length_eq_zero.1 h) v hv1
    rw [hv2] at this
    cases this
  refine ⟨⟨?_, ?_, ?_⟩, ?_⟩
  · rw [decode_Struct opt t fields vs hv (by omega), if_neg (fun h => hne h.1),
      if_neg (by simp [hw])]
  · rw [decode_Event opt t fields vs hv (by omega), if_neg (by simp [hw])]
  · rw [decode_Resource opt t fields vs hv (by omega), if_neg (by simp [hw])]
  · intro hs
    have hv' := decodeEach_scalar_wrap opt fields hs
    rw [hv] at hv'
    refine ⟨?_, ?_, ?_⟩
    · rw [decode_Struct _ t fields vs hv' (by omega), fieldMap_wrap,
        if_neg (fun h => hne h.1), if_pos (by simp)]
    · rw [decode_Event _ t fields vs hv' (by omega), fieldMap_wrap, if_pos (by simp)]
    · rw [decode_Resource _ t fields vs hv' (by omega), fieldMap_wrap, if_pos (by simp)]
/-- C8 (code bug): the decoder panics on a dictionary whose key is the array
`["😁"]`: the key renders as `["\u{1f601}"]`, which `strconv.Unquote` rejects
and which contains `\u`, so that the string normalizer asserts that the key's
`ToGoValue()`, a `[]interface{}`, is a string. -/
theorem C8_decoder_panics_on_key :
    valueString (.Array [.String "😁"]) = some "[\"\\u\x7b1f601\x7d\"]"
    ∧ Unquote "[\"\\u\x7b1f601\x7d\"]" = none
    ∧ stringsContains "[\"\\u\x7b1f601\x7d\"]".data "\\u".data = true
    ∧ ToGoValue (.Array [.String "😁"]) = .other "[]interface {}"
    ∧ getAndUnquoteString (.Array [.String "😁"]) = none
    ∧ CadenceValueToInterfaceWithOption (.Dictionary [(.Array [.String "😁"], .String "x")])
        defaultOptions = none := by
  refine ⟨by decide, by decide, by decide, by rfl, by decide, by rfl⟩

theorem digitChar_isDigit (d : Nat) (h : d < 10) :
    (Nat.digitChar d).isDigit = true ∧ (Nat.digitChar d).toNat - '0'.toNat = d := by
  interval_cases d <;> decide

theorem toDigitsCore_append (b : Nat) : ∀ (fuel n : Nat) (ds : List Char),
    Nat.toDigitsCore b fuel n ds = Nat.toDigitsCore b fuel n [] ++ ds := by
  intro fuel
  induction fuel with
  | zero => intro n ds; simp [Nat.toDigitsCore]
  | succ f ih =>
    intro n ds
    simp only [Nat.toDigitsCore]
    split_ifs with h
    · simp
    · rw [ih (n / b) (Nat.digitChar (n % b) :: ds), ih (n / b) [Nat.digitChar (n % b)]]
      simp

theorem digitsValue_append (xs : List Char) (c : Char) :
    digitsValue (xs ++ [c]) = digitsValue xs * 10 + (c.toNat - '0'.toNat) := by
  simp [digitsValue, List.foldl_append]

theorem toDigitsCore_spec : ∀ (fuel n : Nat), n < fuel →
    digitsValue (Nat.toDigitsCore 10 fuel n []) = n ∧
    (∀ c ∈ Nat.toDigitsCore 10 fuel n [], c.isDigit = true) ∧
    Nat.toDigitsCore 10 fuel n [] ≠ [] := by
  intro fuel
  induction fuel with
  | zero => intro n h; omega
  | succ f ih =>
    intro n hn
    simp only [Nat.toDigitsCore]
    have hd := digitChar_isDigit (n % 10) (Nat.mod_lt _ (by decide))
    split_ifs with h
    · have hlt : n < 10 := by
        by_contra hge
        have : 1 ≤ n / 10 := (Nat.one_le_div_iff (by decide)).2 (by omega)
        omega
      have hmod : n % 10 = n := Nat.mod_eq_of_lt hlt
      refine ⟨?_, ?_, by simp⟩
      · have hv : digitsValue [Nat.digitChar (n % 10)] =
            (Nat.digitChar (n % 10)).toNat - '0'.toNat := by simp [digitsValue]
        rw [hv, hd.2, hmod]
      · intro c hc
        simp at hc
        subst hc
        exact hd.1
    · have hlt : n / 10 < f := by
        have : n / 10 < n := Nat.div_lt_self (by omega) (by decide)
        omega
      obtain ⟨h1, h2, h3⟩ := ih (n / 10) hlt
      rw [toDigitsCore_append]
      refine ⟨?_, ?_, by simp [h3]⟩
      · rw [digitsValue_append, h1, hd.2]
        omega
      · intro c hc
        rcases List.mem_append.1 hc with hc | hc
        · exact h2 c hc
        · simp at hc
          subst hc
          exact hd.1

theorem natDigits_spec (n : Nat) :
    digitsValue (natDigits n) = n ∧ (∀ c ∈ natDigits n, c.isDigit = true) ∧ natDigits n ≠ [] :=
  toDigitsCore_spec (n + 1) n (Nat.lt_succ_self n)

theorem natDigits_length (n e : Nat) (h : n < 10 ^ e) (he : 0 < e) : (natDigits n).length ≤ e :=
  Nat.toDigitsCore_length 10 (by decide) (n + 1) n e h he

theorem digitsValue_zeros (k : Nat) (xs : List Char) :
    digitsValue (List.replicate k '0' ++ xs) = digitsValue xs := by
  induction k with
  | zero => simp
  | succ k ih =>
    have : ∀ ys : List Char, digitsValue ('0' :: ys) = digitsValue ys := by
      intro ys; simp [digitsValue]
    rw [List.replicate_succ, List.cons_append, this, ih]

theorem fraction_spec (m : Nat) (h : m < 100000000) :
    (padLeft (natDigits m) '0' 8).length = 8 ∧
    digitsValue (padLeft (natDigits m) '0' 8) = m ∧
    (padLeft (natDigits m) '0' 8).all Char.isDigit = true := by
  have hl := natDigits_length m 8 (by simpa using h) (by decide)
  obtain ⟨h1, h2, -⟩ := natDigits_spec m
  refine ⟨?_, ?_, ?_⟩
  · simp [padLeft]; omega
  · rw [padLeft, digitsValue_zeros, h1]
  · rw [List.all_eq_true]
    intro c hc
    rcases List.mem_append.1 hc with hc | hc
    · rw [(List.mem_replicate.1 hc).2]; decide
    · exact h2 c hc

theorem splitAtQuote_exact (q : Char) (xs ys : List Char) (h : q ∉ xs) :
    splitAtQuote q (xs ++ q :: ys) = some (xs, ys) := by
  induction xs with
  | nil => simp [splitAtQuote]
  | cons c xs ih =>
    have hc : c ≠ q := fun e => h (by simp [e])
    have := ih (fun hm => h (by simp [hm]))
    simp [splitAtQuote, hc, this]

theorem digits_no_dot (xs : List Char) (h : ∀ c ∈ xs, c.isDigit = true) : '.' ∉ xs := by
  intro hm
  have := h _ hm
  revert this
  decide

theorem parseFixed_digits (negative : Bool) (integer : Nat) (m : Nat) (hm : m < 100000000)
    (rest : List Char)
    (hrest : rest = natDigits integer ++ '.' :: padLeft (natDigits m) '0' 8) :
    parseFixed ⟨if negative then '-' :: rest else rest⟩ =
      some (if negative then -((integer * 100000000 + m : Nat) : Int)
        else ((integer * 100000000 + m : Nat) : Int)) := by
  obtain ⟨h1, h2, h3⟩ := natDigits_spec integer
  obtain ⟨f1, f2, f3⟩ := fraction_spec m hm
  have hsplit : splitAtQuote '.' rest = some (natDigits integer, padLeft (natDigits m) '0' 8) := by
    rw [hrest]
    exact splitAtQuote_exact _ _ _ (digits_no_dot _ h2)
  have hall : (natDigits integer).all Char.isDigit = true := by
    rw [List.all_eq_true]; exact h2
  have hfirst : rest.head? ≠ some '-' := by
    cases hnd : natDigits integer with
    | nil => exact absurd hnd h3
    | cons c cs =>
      have hc := h2 c (by rw [hnd]; simp)
      rw [hrest, hnd]
      intro e
      have hc' : c = '-' := by simpa using e
      rw [hc'] at hc
      revert hc
      decide
  cases negative with
  | true =>
    simp only [parseFixed, if_true, List.head?_cons, List.tail_cons, decide_True, hsplit]
    rw [if_pos ⟨h3, hall, f1, f3⟩, h1, f2]
  | false =>
    simp only [parseFixed, Bool.false_eq_true, if_false, hfirst, decide_False, hsplit]
    rw [if_pos ⟨h3, hall, f1, f3⟩, h1, f2]
theorem parseFixed_formatUFix64 (r : Nat) : parseFixed (formatUFix64 r) = some (r : Int) := by
  have h := parseFixed_digits false (r / 100000000) (r % 100000000)
    (Nat.mod_lt _ (by decide)) _ rfl
  simp only [Bool.false_eq_true, if_false] at h
  rw [formatUFix64, h, Nat.div_add_mod' r 100000000]

theorem neg_tmod_natCast (n b : Nat) : Int.tmod (-(n : Int)) (b : Int) = -((n % b : Nat) : Int) := by
  rw [Int.ofNat_tmod]
  have h1 := Int.tdiv_add_tmod (-(n : Int)) (b : Int)
  have h2 := Int.tdiv_add_tmod (n : Int) (b : Int)
  rw [Int.neg_tdiv] at h1
  have h3 : (b : Int) * -((n : Int).tdiv b) = -((b : Int) * (n : Int).tdiv b) := by ring
  rw [h3] at h1
  omega

theorem parseFixed_formatFix64 (r : Int) : parseFixed (formatFix64 r) = some r := by
  obtain ⟨n, rfl | rfl⟩ := Int.eq_nat_or_neg r
  · have h := parseFixed_digits false (n / 100000000) (n % 100000000)
      (Nat.mod_lt _ (by decide)) _ rfl
    simp only [Bool.false_eq_true, if_false] at h
    have hi : Int.tdiv (n : Int) 100000000 = ((n / 100000000 : Nat) : Int) := rfl
    have hf : Int.tmod (n : Int) 100000000 = ((n % 100000000 : Nat) : Int) := rfl
    have hs : ¬ (((n % 100000000 : Nat) : Int) < 0 ∧ ((n / 100000000 : Nat) : Int) = 0) := by
      omega
    have hn : ¬ (((n / 100000000 : Nat) : Int) < 0) := by omega
    simp only [formatFix64, hi, hf, if_neg hs, intDigits, if_neg hn, Int.natAbs_ofNat,
      List.nil_append]
    rw [h, Nat.div_add_mod' n 100000000]
  · have h := parseFixed_digits true (n / 100000000) (n % 100000000)
      (Nat.mod_lt _ (by decide)) _ rfl
    simp only [if_true] at h
    have hi : Int.tdiv (-(n : Int)) 100000000 = -((n / 100000000 : Nat) : Int) := by
      rw [Int.neg_tdiv]; rfl
    have hf : Int.tmod (-(n : Int)) 100000000 = -((n % 100000000 : Nat) : Int) :=
      neg_tmod_natCast n 100000000
    have hval : -(((n / 100000000 * 100000000 + n % 100000000 : Nat)) : Int) = -(n : Int) := by
      rw [Nat.div_add_mod' n 100000000]
    by_cases hz : n / 100000000 = 0
    · by_cases hm : n % 100000000 = 0
      · have hn0 : n = 0 := by
          have := Nat.div_add_mod' n 100000000
          omega
        subst hn0
        decide
      · have hs : (-((n % 100000000 : Nat) : Int) < 0 ∧ -((n / 100000000 : Nat) : Int) = 0) := by
          omega
        have hn : ¬ (-((n / 100000000 : Nat) : Int) < 0) := by omega
        simp only [formatFix64, hi, hf, if_pos hs, intDigits, if_neg hn, Int.natAbs_neg,
          Int.natAbs_ofNat, List.singleton_append, List.cons_append, List.nil_append]
        rw [h, hval]
    · have hs : ¬ (-((n % 100000000 : Nat) : Int) < 0 ∧ -((n / 100000000 : Nat) : Int) = 0) := by
        omega
      have hn : (-((n / 100000000 : Nat) : Int) < 0) := by omega
      simp only [formatFix64, hi, hf, if_neg hs, intDigits, if_pos hn, Int.natAbs_neg,
        Int.natAbs_ofNat, List.cons_append, List.nil_append]
      rw [h, hval]

/-- C9: with `UseStringForFixedNumbers=true` a `UFix64` or `Fix64` with scaled
integer `r` decodes to the decimal text of `r / 10^8` with exactly 8 fractional
digits (and a leading `-` when negative): reading that text back as an exact
decimal gives `r`.  `42.0` decodes to `"42.00000000"` and `-92233720368.5` to
`"-92233720368.50000000"`. -/
theorem C9_fixed_point_as_string (opt : Options) (hs : opt.UseStringForFixedNumbers = true) :
    (∀ r : Nat, CadenceValueToInterfaceWithOption (.UFix64 r) opt =
        some (.string (formatUFix64 r)) ∧ parseFixed (formatUFix64 r) = some (r : Int))
    ∧ (∀ r : Int, CadenceValueToInterfaceWithOption (.Fix64 r) opt =
        some (.string (formatFix64 r)) ∧ parseFixed (formatFix64 r) = some r)
    ∧ CadenceValueToInterfaceWithOption (.UFix64 4200000000) opt =
        some (.string "42.00000000")
    ∧ CadenceValueToInterfaceWithOption (.Fix64 (-9223372036850000000)) opt =
        some (.string "-92233720368.50000000") := by
  have hu : ∀ r : Nat, CadenceValueToInterfaceWithOption (.UFix64 r) opt =
      some (.string (formatUFix64 r)) := by
    intro r; simp [CadenceValueToInterfaceWithOption, hs]
  have hf : ∀ r : Int, CadenceValueToInterfaceWithOption (.Fix64 r) opt =
      some (.string (formatFix64 r)) := by
    intro r; simp [CadenceValueToInterfaceWithOption, hs]
  refine ⟨fun r => ⟨hu r, parseFixed_formatUFix64 r⟩, fun r => ⟨hf r, parseFixed_formatFix64 r⟩,
    ?_, ?_⟩
  · rw [hu]
    have : formatUFix64 4200000000 = "42.00000000" := by decide
    rw [this]
  · rw [hf]
    have : formatFix64 (-9223372036850000000) = "-92233720368.50000000" := by decide
    rw [this]
theorem decode_newInteger (k : IntKind) (v : Int) (hk1 : k ≠ .int) (hk2 : k ≠ .uint)
    (h : k.inRange v) : CadenceValueToInterface (newInteger k v) = some (.num k v) := by
  cases k with
  | int => exact absurd rfl hk1
  | uint => exact absurd rfl hk2
  | int8 => rfl
  | int16 => rfl
  | int32 => rfl
  | int64 => rfl
  | uint8 =>
    have h0 : 0 ≤ v := h.1
    simp [newInteger, CadenceValueToInterface, CadenceValueToInterfaceWithOption,
      Int.toNat_of_nonneg h0]
  | uint16 =>
    have h0 : 0 ≤ v := h.1
    simp [newInteger, CadenceValueToInterface, CadenceValueToInterfaceWithOption,
      Int.toNat_of_nonneg h0]
  | uint32 =>
    have h0 : 0 ≤ v := h.1
    simp [newInteger, CadenceValueToInterface, CadenceValueToInterfaceWithOption,
      Int.toNat_of_nonneg h0]
  | uint64 =>
    have h0 : 0 ≤ v := h.1
    simp [newInteger, CadenceValueToInterface, CadenceValueToInterfaceWithOption,
      Int.toNat_of_nonneg h0]

/-- C10 (as stated, refuted): the empty string encodes to the empty
`cadence.String`, which decodes to null and not to the empty string, and the
string `"é\x00"` comes back as `"é"`; the `int` 1 encodes to `cadence.Int(1)`,
which decodes to the text `"1"` and not to the integer 1; a value of a defined
type of kind int8 makes the encoder panic. -/
theorem C10_counterexample :
    InputToCadence (.String false "") (fun _ => .ok "") = .ok (.String "")
    ∧ CadenceValueToInterface (.String "") = some .null
    ∧ IValue.null ≠ nativeAsIValue (.String false "")
    ∧ InputToCadence (.String false "é\x00") (fun _ => .ok "") = .ok (.String "é\x00")
    ∧ CadenceValueToInterface (.String "é\x00") = some (.string "é")
    ∧ InputToCadence (.Int .int false 1) (fun _ => .ok "") = .ok (.Int 1)
    ∧ CadenceValueToInterface (.Int 1) = some (.string "1")
    ∧ IValue.string "1" ≠ nativeAsIValue (.Int .int false 1)
    ∧ InputToCadence (.Int .int8 true 1) (fun _ => .ok "") = .error assertionPanic := by
  refine ⟨by rfl, by rfl, ?_, by rfl, by rfl, by rfl, by rfl, ?_, by rfl⟩
  · intro h; cases h
  · intro h; cases h

/-- C10 (amended): round trip for primitive kinds under the default
configuration.  For every value `x` of the predeclared type int8, int16, int32,
int64, uint8, uint16, uint32, uint64 or bool, `InputToCadence(x)` succeeds and
decoding the result gives `x` back, same value and same native type.  Encoding a
string always succeeds; decoding the result gives the string back when it is
not empty and contains no NUL, and null when it is empty. -/
theorem C10_primitive_round_trip (resolver : InputResolver) :
    (∀ (k : IntKind) (v : Int), k ≠ .int → k ≠ .uint → k.inRange v →
      ∃ c, InputToCadence (.Int k false v) resolver = .ok c ∧
        CadenceValueToInterface c = some (nativeAsIValue (.Int k false v)))
    ∧ (∀ b : Bool, ∃ c, InputToCadence (.Bool false b) resolver = .ok c ∧
        CadenceValueToInterface c = some (nativeAsIValue (.Bool false b)))
    ∧ (∀ s : String, InputToCadence (.String false s) resolver = .ok (.String s))
    ∧ (∀ s : String, s ≠ "" → (∀ c ∈ s.data, c.toNat ≠ 0) →
        CadenceValueToInterface (.String s) = some (nativeAsIValue (.String false s)))
    ∧ CadenceValueToInterface (.String "") = some .null := by
  refine ⟨?_, ?_, ?_, ?_, decode_String_empty⟩
  · intro k v hk1 hk2 hr
    refine ⟨newInteger k v, by simp [InputToCadence, ReflectToCadence], ?_⟩
    rw [decode_newInteger k v hk1 hk2 hr]
    rfl
  · intro b
    exact ⟨.Bool b, by simp [InputToCadence, ReflectToCadence],
      by simp [CadenceValueToInterface, CadenceValueToInterfaceWithOption, nativeAsIValue]⟩
  · intro s
    simp [InputToCadence, ReflectToCadence]
  · intro s hs h0
    simp [CadenceValueToInterface, CadenceValueToInterfaceWithOption,
      getAndUnquoteString_String s h0, hs, nativeAsIValue]

/-- The string normalizer never panics on a `cadence.String`. -/
theorem getAndUnquoteString_String_isSome (s : String) :
    ∃ r, getAndUnquoteString (.String s) = some r := by
  simp only [getAndUnquoteString, valueString, valueChars, Option.map_some']
  cases Unquote (String.mk (QuoteString s).data) with
  | some r => exact ⟨_, rfl⟩
  | none =>
    simp only [ToGoValue]
    by_cases h : (stringsContains (String.mk (QuoteString s).data).data "\\u".data ||
        stringsContains (String.mk (QuoteString s).data).data "\\U".data) = true
    · rw [if_pos h]; exact ⟨_, rfl⟩
    · rw [if_neg h]; exact ⟨_, rfl⟩

theorem decodableList_iff (xs : List Value) :
    decodableList xs = true ↔ ∀ x ∈ xs, decodable x = true := by
  induction xs with
  | nil => simp [decodableList]
  | cons x xs ih => simp [decodableList, ih]

theorem decodablePairs_iff (ps : List (Value × Value)) :
    decodablePairs ps = true ↔
      ∀ p ∈ ps, (getAndUnquoteString p.1).isSome = true ∧ decodable p.2 = true := by
  induction ps with
  | nil => simp [decodablePairs]
  | cons p ps ih =>
    obtain ⟨k, v⟩ := p
    simp [decodablePairs, ih, and_assoc]

theorem sizeOf_lt_of_mem_pairs (ps : List (Value × Value)) (p : Value × Value) (h : p ∈ ps) :
    sizeOf p.2 < sizeOf ps := by
  have h1 := List.sizeOf_lt_of_mem h
  obtain ⟨k, v⟩ := p
  have h2 : sizeOf v < sizeOf (k, v) := by simp
  simp only at h2 ⊢
  omega

theorem decode_total_sized (opt : Options) : ∀ (n : Nat) (v : Value), sizeOf v ≤ n →
    decodable v = true → ∃ r, CadenceValueToInterfaceWithOption v opt = some r := by
  intro n
  induction n with
  | zero =>
    intro v hn
    cases v <;> simp at hn
  | succ n ih =>
    intro v hn hd
    have hlist : ∀ xs : List Value, sizeOf xs ≤ n → decodableList xs = true →
        ∃ vs, decodeEach opt xs = some vs := by
      intro xs hs hx
      apply decodeEach_of_forall
      intro x hxm
      have := List.sizeOf_lt_of_mem hxm
      exact ih x (by omega) ((decodableList_iff xs).1 hx x hxm)
    cases v with
    | nil =>
      simp only [CadenceValueToInterfaceWithOption]
      exact ⟨_, rfl⟩
    | Optional v =>
      simp only [CadenceValueToInterfaceWithOption]
      simp only [decodable] at hd
      exact ih v (by simp at hn; omega) hd
    | Array values =>
      simp only [decodable] at hd
      obtain ⟨vs, hvs⟩ := hlist values (by simp at hn; omega) hd
      rw [decode_Array, hvs]
      exact ⟨_, rfl⟩
    | Dictionary pairs =>
      simp only [decodable] at hd
      have hp := (decodablePairs_iff pairs).1 hd
      obtain ⟨es, hes, -, -⟩ := dictEntries_spec opt pairs
        (fun p hpm => Option.isSome_iff_exists.1 (hp p hpm).1)
        (fun p hpm => ih p.2
          (by have := sizeOf_lt_of_mem_pairs pairs p hpm; simp at hn; omega) (hp p hpm).2)
      rw [decode_Dictionary, hes]
      exact ⟨_, rfl⟩
    | Struct t fields =>
      simp only [decodable, Bool.and_eq_true, decide_eq_true_eq] at hd
      obtain ⟨vs, hvs⟩ := hlist fields (by simp at hn; omega) hd.2
      rw [decode_Struct opt t fields vs hvs hd.1]
      exact ⟨_, rfl⟩
    | Resource t fields =>
      simp only [decodable, Bool.and_eq_true, decide_eq_true_eq] at hd
      obtain ⟨vs, hvs⟩ := hlist fields (by simp at hn; omega) hd.2
      rw [decode_Resource opt t fields vs hvs hd.1]
      exact ⟨_, rfl⟩
    | Event t fields =>
      simp only [decodable, Bool.and_eq_true, decide_eq_true_eq] at hd
      obtain ⟨vs, hvs⟩ := hlist fields (by simp at hn; omega) hd.2
      rw [decode_Event opt t fields vs hvs hd.1]
      exact ⟨_, rfl⟩
    | String s =>
      obtain ⟨r, hr⟩ := getAndUnquoteString_String_isSome s
      simp only [CadenceValueToInterfaceWithOption, hr]
      split_ifs <;> exact ⟨_, rfl⟩
    | UFix64 v =>
      simp only [CadenceValueToInterfaceWithOption]
      split_ifs <;> exact ⟨_, rfl⟩
    | Fix64 v =>
      simp only [CadenceValueToInterfaceWithOption]
      split_ifs <;> exact ⟨_, rfl⟩
    | Capability id address borrowType =>
      simp only [CadenceValueToInterfaceWithOption]
      split_ifs <;> exact ⟨_, rfl⟩
    | Other rendering goValue =>
      simp only [CadenceValueToInterfaceWithOption]
      split_ifs <;> exact ⟨_, rfl⟩
    | _ =>
      simp only [CadenceValueToInterfaceWithOption]
      exact ⟨_, rfl⟩

/-- The decoder returns a value, under every options record, on every value
whose composites have a declared field for each value and whose dictionary keys
the string normalizer accepts. -/
theorem decode_total (opt : Options) (v : Value) (h : decodable v = true) :
    ∃ r, CadenceValueToInterfaceWithOption v opt = some r :=
  decode_total_sized opt (sizeOf v) v (Nat.le_refl _) h

theorem decode_newInteger_opt (opt : Options) (k : IntKind) (v : Int)
    (hk : k.fixedWidth = true) (h : k.inRange v) :
    CadenceValueToInterfaceWithOption (newInteger k v) opt = some (.num k v) := by
  cases k with
  | int => cases hk
  | uint => cases hk
  | int8 => rfl
  | int16 => rfl
  | int32 => rfl
  | int64 => rfl
  | uint8 =>
    have h0 : 0 ≤ v := h.1
    simp only [newInteger, CadenceValueToInterfaceWithOption, Int.toNat_of_nonneg h0]
  | uint16 =>
    have h0 : 0 ≤ v := h.1
    simp only [newInteger, CadenceValueToInterfaceWithOption, Int.toNat_of_nonneg h0]
  | uint32 =>
    have h0 : 0 ≤ v := h.1
    simp only [newInteger, CadenceValueToInterfaceWithOption, Int.toNat_of_nonneg h0]
  | uint64 =>
    have h0 : 0 ≤ v := h.1
    simp only [newInteger, CadenceValueToInterfaceWithOption, Int.toNat_of_nonneg h0]

/-- An integer of a predeclared type of fixed width is encoded to the ledger
integer of its width and signedness, which decodes to it, with that width and
signedness, under every options record. -/
theorem fixed_width_round_trip (r : InputResolver) (opt : Options) (k : IntKind) (v : Int)
    (hk : k.fixedWidth = true) (h : k.inRange v) :
    InputToCadence (.Int k false v) r = .ok (newInteger k v) ∧
    CadenceValueToInterfaceWithOption (newInteger k v) opt = some (.num k v) :=
  ⟨rfl, decode_newInteger_opt opt k v hk h⟩

/-- C11: a value of a defined type of kind `int8` such as `type Celsius int8`
is an integer of fixed width, and the encoder panics on it, in the type
assertion `value.Interface().(int8)`, with every resolver; so it does on a
defined type of every other integer kind. -/
theorem C11_defined_integer_panics (r : InputResolver) :
    InputToCadence (.Int .int8 true 21) r = .error assertionPanic
    ∧ ∀ (k : IntKind) (v : Int), InputToCadence (.Int k true v) r = .error assertionPanic :=
  ⟨rfl, fun _ _ => rfl⟩

theorem unhex_ofNat (n : Nat) (h1 : 48 ≤ n) (h2 : n ≤ 102) :
    (unhex (Char.ofNat n)).all
      (fun x => decide (x < 16 ∧ Nat.digitChar x = (Char.ofNat n).toLower)) = true := by
  interval_cases n <;> decide

theorem unhex_spec (c : Char) (x : Nat) (h : unhex c = some x) :
    x < 16 ∧ Nat.digitChar x = c.toLower := by
  have hc : Char.ofNat c.toNat = c := Char.ofNat_toNat c
  by_cases hb : 48 ≤ c.toNat ∧ c.toNat ≤ 102
  · have := unhex_ofNat c.toNat hb.1 hb.2
    rw [hc, h] at this
    simpa using this
  · exfalso
    have e0 : ('0' : Char).toNat = 48 := rfl
    have e9 : ('9' : Char).toNat = 57 := rfl
    have ea : ('a' : Char).toNat = 97 := rfl
    have ef : ('f' : Char).toNat = 102 := rfl
    have eA : ('A' : Char).toNat = 65 := rfl
    have eF : ('F' : Char).toNat = 70 := rfl
    have hle : ∀ a b : Char, a ≤ b ↔ a.toNat ≤ b.toNat := fun a b => Iff.rfl
    unfold unhex at h
    simp only [hle, e0, e9, ea, ef, eA, eF] at h
    split_ifs at h <;> omega

theorem hexByte_pair (a b : Nat) (ha : a < 16) (hb : b < 16) :
    hexByte (a * 16 + b) = [Nat.digitChar a, Nat.digitChar b] := by
  unfold hexByte
  have h1 : (a * 16 + b) / 16 % 16 = a := by omega
  have h2 : (a * 16 + b) % 16 = b := by omega
  rw [h1, h2]

theorem hexDecodeString_ok : ∀ (n : Nat) (ds : List Char), ds.length = 2 * n →
    (∀ c ∈ ds, isHexDigit c = true) →
    ∃ bs, hexDecodeString ds = .ok bs ∧ bs.length = n ∧
      bs.flatMap hexByte = ds.map Char.toLower := by
  intro n
  induction n with
  | zero =>
    intro ds hl _
    have : ds = [] := List.length_eq_zero.1 (by omega)
    subst this
    exact ⟨[], rfl, rfl, rfl⟩
  | succ n ih =>
    intro ds hl hd
    match ds, hl, hd with
    | p :: q :: rest, hl, hd =>
      have hp := hd p (by simp)
      have hq := hd q (by simp)
      obtain ⟨a, ha⟩ := Option.isSome_iff_exists.1 hp
      obtain ⟨b, hb⟩ := Option.isSome_iff_exists.1 hq
      obtain ⟨bs, h1, h2, h3⟩ := ih rest (by simp at hl; omega)
        (fun c hc => hd c (by simp [hc]))
      obtain ⟨a16, alow⟩ := unhex_spec p a ha
      obtain ⟨b16, blow⟩ := unhex_spec q b hb
      refine ⟨(a * 16 + b) :: bs, ?_, by simp [h2], ?_⟩
      · simp only [hexDecodeString, ha, hb, h1]
      · rw [List.flatMap_cons, hexByte_pair a b a16 b16, h3, alow, blow]
        rfl

theorem hexDecodeString_error : ∀ (n : Nat) (ds : List Char), ds.length = 2 * n →
    (∃ c ∈ ds, isHexDigit c = false) → ∃ msg, hexDecodeString ds = .error msg := by
  intro n
  induction n with
  | zero =>
    intro ds hl hd
    have : ds = [] := List.length_eq_zero.1 (by omega)
    subst this
    obtain ⟨c, hc, -⟩ := hd
    simp at hc
  | succ n ih =>
    intro ds hl hd
    match ds, hl, hd with
    | p :: q :: rest, hl, hd =>
      cases ha : unhex p with
      | none =>
        simp only [hexDecodeString, ha]
        exact ⟨_, rfl⟩
      | some a =>
        cases hb : unhex q with
        | none =>
          simp only [hexDecodeString, ha, hb]
          exact ⟨_, rfl⟩
        | some b =>
          obtain ⟨c, hc, hbad⟩ := hd
          have hrest : c ∈ rest := by
            simp only [List.mem_cons] at hc
            rcases hc with e | e | e
            · rw [e, isHexDigit, ha] at hbad; cases hbad
            · rw [e, isHexDigit, hb] at hbad; cases hbad
            · exact e
          obtain ⟨msg, hm⟩ := ih rest (by simp at hl; omega) ⟨c, hrest, hbad⟩
          simp only [hexDecodeString, ha, hb, hm]
          exact ⟨_, rfl⟩

theorem flatMap_hexByte_zeros (k : Nat) :
    (List.replicate k 0).flatMap hexByte = List.replicate (2 * k) '0' := by
  induction k with
  | zero => rfl
  | succ k ih =>
    rw [List.replicate_succ, List.flatMap_cons, ih]
    have : 2 * (k + 1) = (2 * k + 1) + 1 := by omega
    rw [this, List.replicate_succ, List.replicate_succ]
    rfl



theorem evenDigits_length (t : List Char) : (evenDigits t).length = 2 * ((t.length + 1) / 2) := by
  unfold evenDigits
  split_ifs with h
  · simp only [List.length_cons]; omega
  · omega

theorem hexToAddress_eq (h : String) :
    hexToAddress h =
      match hexDecodeString (evenDigits (TrimPrefix h.data "0x".data)) with
      | .error err => .error (.error err)
      | .ok b => BytesToAddress b := rfl

theorem TrimPrefix_digits (h : List Char) (hd : ∀ c ∈ h, isHexDigit c = true) :
    TrimPrefix h "0x".data = h ∧ TrimPrefix ('0' :: 'x' :: h) "0x".data = h := by
  refine ⟨?_, ?_⟩
  · have : hasPrefix "0x".data h = false := by
      match h, hd with
      | [], _ => rfl
      | [_], _ => simp [hasPrefix]
      | a :: b :: rest, hd =>
        have hb := hd b (by simp)
        have : b ≠ 'x' := by
          intro e
          rw [e] at hb
          revert hb
          decide
        simp [hasPrefix, Ne.symm this]
    simp [TrimPrefix, this]
  · simp [TrimPrefix, hasPrefix]

theorem hexToAddress_trimmed (t : List Char) (hd : ∀ c ∈ t, isHexDigit c = true)
    (hl : t.length ≤ 16) :
    ∃ a, (match hexDecodeString (evenDigits t) with
          | .error err => (.error (.error err) : Except Failure (List Nat))
          | .ok b => BytesToAddress b) = .ok a ∧ a.length = 8 ∧
      addressString a = ⟨'0' :: 'x' :: padLeft (t.map Char.toLower) '0' 16⟩ := by
  have hd2 : ∀ c ∈ evenDigits t, isHexDigit c = true := by
    intro c hc
    unfold evenDigits at hc
    split_ifs at hc
    · rcases List.mem_cons.1 hc with e | e
      · rw [e]; decide
      · exact hd c e
    · exact hd c hc
  obtain ⟨bs, h1, h2, h3⟩ := hexDecodeString_ok _ _ (evenDigits_length t) hd2
  have h8 : ¬ bs.length > 8 := by omega
  refine ⟨List.replicate (8 - bs.length) 0 ++ bs, ?_, by simp; omega, ?_⟩
  · rw [h1]
    simp only [BytesToAddress, if_neg h8]
  · unfold addressString padLeft
    rw [List.flatMap_append, flatMap_hexByte_zeros, h3]
    congr 3
    unfold evenDigits
    split_ifs with hodd
    · have e : 16 - (List.map Char.toLower t).length = 2 * (8 - bs.length) + 1 := by
        simp only [List.length_map]; omega
      rw [e, List.replicate_succ', List.map_cons, List.append_assoc]
      rfl
    · have e : 16 - (List.map Char.toLower t).length = 2 * (8 - bs.length) := by
        simp only [List.length_map]; omega
      rw [e]

theorem hexToAddress_digits (h : String) (h16 : h.length ≤ 16)
    (hd : ∀ c ∈ h.data, isHexDigit c = true) :
    ∃ a, hexToAddress h = .ok a ∧ hexToAddress ("0x" ++ h) = .ok a ∧ a.length = 8 ∧
      addressString a = canonicalForm h := by
  obtain ⟨a, h1, h2, h3⟩ := hexToAddress_trimmed h.data hd h16
  obtain ⟨t1, t2⟩ := TrimPrefix_digits h.data hd
  refine ⟨a, ?_, ?_, h2, h3⟩
  · rw [hexToAddress_eq, t1]
    exact h1
  · have : ("0x" ++ h).data = '0' :: 'x' :: h.data := by
      rw [String.data_append]; rfl
    rw [hexToAddress_eq, this, t2]
    exact h1

/-- C12: for every text `h` of at most 16 hexadecimal digits, in either letter
case and of odd or even length, `hexToAddress h` and `hexToAddress ("0x" ++ h)`
succeed with the same address of 8 bytes, whose rendering, and whose decoding
under every options record, is the canonical form: `0x`, then `h` in lower case
padded with `0` on the left to 16 digits. -/
theorem C12_address_round_trip (h : String) (opt : Options) (h16 : h.length ≤ 16)
    (hd : ∀ c ∈ h.data, isHexDigit c = true) :
    ∃ a, hexToAddress h = .ok a ∧ hexToAddress ("0x" ++ h) = .ok a ∧ a.length = 8 ∧
      addressString a = canonicalForm h ∧
      (canonicalForm h).length = 18 ∧
      CadenceValueToInterfaceWithOption (.Address a) opt = some (.string (canonicalForm h)) := by
  obtain ⟨a, h1, h2, h3, h4⟩ := hexToAddress_digits h h16 hd
  refine ⟨a, h1, h2, h3, h4, ?_, ?_⟩
  · have : h.data.length ≤ 16 := h16
    simp only [canonicalForm, lowerDigits, padLeft, String.length, List.length_cons,
      List.length_append, List.length_replicate, List.length_map]
    omega
  · simp only [CadenceValueToInterfaceWithOption, h4]

theorem hexToAddress_error_iff (h : String) :
    (∃ msg, hexToAddress h = .error (.error msg)) ↔
      ∃ c ∈ TrimPrefix h.data "0x".data, isHexDigit c = false := by
  have hev := evenDigits_length (TrimPrefix h.data "0x".data)
  have hmem : ∀ c, c ∈ evenDigits (TrimPrefix h.data "0x".data) →
      isHexDigit c = false → c ∈ TrimPrefix h.data "0x".data := by
    intro c hc hbad
    unfold evenDigits at hc
    split_ifs at hc
    · rcases List.mem_cons.1 hc with e | e
      · rw [e] at hbad; exact absurd hbad (by decide)
      · exact e
    · exact hc
  have hmem2 : ∀ c, c ∈ TrimPrefix h.data "0x".data →
      c ∈ evenDigits (TrimPrefix h.data "0x".data) := by
    intro c hc
    unfold evenDigits
    split_ifs
    · exact List.mem_cons_of_mem _ hc
    · exact hc
  rw [hexToAddress_eq]
  constructor
  · rintro ⟨msg, hm⟩
    by_contra hno
    have hall : ∀ c ∈ evenDigits (TrimPrefix h.data "0x".data), isHexDigit c = true := by
      intro c hc
      by_contra hb
      exact hno ⟨c, hmem c hc (by simpa using hb), by simpa using hb⟩
    obtain ⟨bs, hb, -, -⟩ := hexDecodeString_ok _ _ hev hall
    rw [hb] at hm
    simp only [BytesToAddress] at hm
    split_ifs at hm
    cases hm
  · rintro ⟨c, hc, hbad⟩
    obtain ⟨msg, hm⟩ := hexDecodeString_error _ _ hev ⟨c, hmem2 c hc, hbad⟩
    rw [hm]
    exact ⟨msg, rfl⟩

/-- C13: `hexToAddress` returns an error exactly when the input, after the
removal of one leading `0x`, holds a character that is no hexadecimal digit; so
a text of hexadecimal digits of odd length is no error, as `0xabc`, which a
leading zero completes to the bytes `0a bc`; the empty text and `0x` give the
address of 8 zero bytes. -/
theorem C13_hex_error_iff (h : String) :
    ((∃ msg, hexToAddress h = .error (.error msg)) ↔
      ∃ c ∈ TrimPrefix h.data "0x".data, isHexDigit c = false)
    ∧ hexToAddress "0xabc" = .ok [0, 0, 0, 0, 0, 0, 10, 188]
    ∧ hexToAddress "" = .ok [0, 0, 0, 0, 0, 0, 0, 0]
    ∧ hexToAddress "0x" = .ok [0, 0, 0, 0, 0, 0, 0, 0] :=
  ⟨hexToAddress_error_iff h, by rfl, by rfl, by rfl⟩

theorem elems_of_result (result : List String) :
    (if result.length = 0 then StringSlice.nilSlice else StringSlice.slice result).elems =
      result := by
  split_ifs with h
  · rw [List.length_eq_zero.1 h]; rfl
  · rfl

theorem result_some (result : List String) :
    (if result.length = 0 then some StringSlice.nilSlice else some (StringSlice.slice result)) =
      some (if result.length = 0 then StringSlice.nilSlice else StringSlice.slice result) := by
  split_ifs <;> rfl

theorem extractValues_spec : ∀ (xs : List Value) (acc : List String),
    (∀ x ∈ xs, ∃ r, ExtractAddresses x = some r ∧ r.elems = addressLeaves x) →
    extractValues xs acc = some (acc ++ addressLeavesList xs) := by
  intro xs
  induction xs with
  | nil => intro acc _; simp [extractValues, addressLeavesList]
  | cons x xs ih =>
    intro acc h
    obtain ⟨r, hr, he⟩ := h x (by simp)
    have hrest := fun a => ih a (fun y hy => h y (by simp [hy]))
    simp only [extractValues, hr, addressLeavesList]
    split_ifs with hn
    · rw [hrest, he, List.append_assoc]
    · have : r = .nilSlice := by simpa using hn
      rw [hrest, ← he, this]
      simp [StringSlice.elems]

theorem extractPairs_spec : ∀ (ps : List (Value × Value)) (acc : List String),
    (∀ p ∈ ps, keyNonEmpty p.1 = true ∧
      ∃ r, ExtractAddresses p.2 = some r ∧ r.elems = addressLeaves p.2) →
    extractPairs ps acc = some (acc ++ addressLeavesPairs ps) := by
  intro ps
  induction ps with
  | nil => intro acc _; simp [extractPairs, addressLeavesPairs]
  | cons p ps ih =>
    intro acc h
    obtain ⟨k, v⟩ := p
    obtain ⟨hk, r, hr, he⟩ := h (k, v) (by simp)
    have hrest := fun a => ih a (fun y hy => h y (by simp [hy]))
    unfold keyNonEmpty at hk
    cases hg : getAndUnquoteString k with
    | none => rw [hg] at hk; cases hk
    | some key =>
      rw [hg] at hk
      have hkey : key ≠ "" := by simpa using hk
      simp only at he
      simp only [extractPairs, hr, hg, addressLeavesPairs]
      by_cases hn : r = .nilSlice
      · rw [if_neg (by simp [hn]), hrest, ← he, hn]
        simp [StringSlice.elems]
      · rw [if_pos ⟨hn, hkey⟩, hrest, he, List.append_assoc]

theorem keysNonEmptyList_iff (xs : List Value) :
    keysNonEmptyList xs = true ↔ ∀ x ∈ xs, keysNonEmpty x = true := by
  induction xs with
  | nil => simp [keysNonEmptyList]
  | cons x xs ih => simp [keysNonEmptyList, ih]

theorem keysNonEmptyPairs_iff (ps : List (Value × Value)) :
    keysNonEmptyPairs ps = true ↔
      ∀ p ∈ ps, keyNonEmpty p.1 = true ∧ keysNonEmpty p.2 = true := by
  induction ps with
  | nil => simp [keysNonEmptyPairs]
  | cons p ps ih =>
    obtain ⟨k, v⟩ := p
    simp [keysNonEmptyPairs, ih, and_assoc]

theorem extract_sized : ∀ (n : Nat) (v : Value), sizeOf v ≤ n → keysNonEmpty v = true →
    ∃ r, ExtractAddresses v = some r ∧ r.elems = addressLeaves v := by
  intro n
  induction n with
  | zero =>
    intro v hn
    cases v <;> simp at hn
  | succ n ih =>
    intro v hn hd
    have hlist : ∀ xs : List Value, sizeOf xs ≤ n → keysNonEmptyList xs = true →
        extractValues xs [] = some (addressLeavesList xs) := by
      intro xs hs hx
      have := extractValues_spec xs [] (fun x hxm =>
        ih x (by have := List.sizeOf_lt_of_mem hxm; omega) ((keysNonEmptyList_iff xs).1 hx x hxm))
      simpa using this
    cases v with
    | Optional v =>
      simp only [keysNonEmpty] at hd
      simp only [ExtractAddresses, addressLeaves]
      exact ih v (by simp at hn; omega) hd
    | Array values =>
      simp only [keysNonEmpty] at hd
      simp only [ExtractAddresses, addressLeaves, hlist values (by simp at hn; omega) hd]
      exact ⟨_, result_some _, elems_of_result _⟩
    | Struct t fields =>
      simp only [keysNonEmpty] at hd
      simp only [ExtractAddresses, addressLeaves, hlist fields (by simp at hn; omega) hd]
      exact ⟨_, result_some _, elems_of_result _⟩
    | Dictionary pairs =>
      simp only [keysNonEmpty] at hd
      have hp := (keysNonEmptyPairs_iff pairs).1 hd
      have := extractPairs_spec pairs [] (fun p hpm => ⟨(hp p hpm).1,
        ih p.2 (by have := sizeOf_lt_of_mem_pairs pairs p hpm; simp at hn; omega) (hp p hpm).2⟩)
      simp only [List.nil_append] at this
      simp only [ExtractAddresses, addressLeaves, this]
      exact ⟨_, result_some _, elems_of_result _⟩
    | _ =>
      simp only [ExtractAddresses, addressLeaves]
      exact ⟨_, rfl, rfl⟩

/-- A text without NUL that is not empty is a key that normalizes to a text that
is not empty. -/
theorem keyNonEmpty_String (s : String) (h0 : ∀ c ∈ s.data, c.toNat ≠ 0) (hs : s ≠ "") :
    keyNonEmpty (.String s) = true := by
  unfold keyNonEmpty
  rw [getAndUnquoteString_String s h0]
  simpa using hs

/-- C14, counterexample: the key `"\x0000"` is a String that is not empty, and
it normalizes to the empty text (its rendering `"\000"` unquotes to NUL, which
is removed), so that the pair is passed over: the address of its value is a
leaf in pre-order and is not returned. -/
theorem C14_counterexample :
    ExtractAddresses (.Dictionary [(.String "\x0000", .Address [0, 0, 0, 0, 0, 0, 0, 1])]) =
      some .nilSlice
    ∧ addressLeaves (.Dictionary [(.String "\x0000", .Address [0, 0, 0, 0, 0, 0, 0, 1])]) =
      ["0x0000000000000001"]
    ∧ ("\x0000" : String) ≠ ""
    ∧ getAndUnquoteString (.String "\x0000") = some "" := by
  refine ⟨by decide, by decide, by decide, by decide⟩

/-- C14, amended: on every value whose dictionary keys normalize to a text that
is not empty (as every String without NUL that is not empty does),
`ExtractAddresses` returns, without a panic, exactly the canonical strings of
the Address leaves in depth-first, left-to-right pre-order, one per occurrence;
so the addresses `a` then `b` come back as `[a, b]` from an Array, from Struct
fields and from a Dictionary, `Optional a` gives `[a]`, and the result has no
element when the value has no Address leaf. -/
theorem C14_extract_addresses :
    (∀ v : Value, keysNonEmpty v = true →
      ∃ r, ExtractAddresses v = some r ∧ r.elems = addressLeaves v)
    ∧ (∀ s : String, (∀ c ∈ s.data, c.toNat ≠ 0) → s ≠ "" → keyNonEmpty (.String s) = true)
    ∧ (∀ a b : List Nat, ExtractAddresses (.Array [.Address a, .Address b]) =
        some (.slice [addressString a, addressString b]))
    ∧ (∀ (t : CompositeType) (a b : List Nat),
        ExtractAddresses (.Struct t [.Address a, .Address b]) =
          some (.slice [addressString a, addressString b]))
    ∧ (∀ (k1 k2 : Value) (a b : List Nat), keyNonEmpty k1 = true → keyNonEmpty k2 = true →
        ExtractAddresses (.Dictionary [(k1, .Address a), (k2, .Address b)]) =
          some (.slice [addressString a, addressString b]))
    ∧ (∀ a : List Nat, ExtractAddresses (.Optional (.Address a)) =
        some (.slice [addressString a]))
    ∧ (∀ v : Value, keysNonEmpty v = true → addressLeaves v = [] →
        ∃ r, ExtractAddresses v = some r ∧ r.elems = []) := by
  refine ⟨fun v h => extract_sized (sizeOf v) v (Nat.le_refl _) h, keyNonEmpty_String,
    fun a b => rfl, fun t a b => rfl, ?_, fun a => rfl, ?_⟩
  · intro k1 k2 a b h1 h2
    have := extractPairs_spec [(k1, .Address a), (k2, .Address b)] [] (by
      intro p hp
      simp only [List.mem_cons, List.mem_singleton, List.not_mem_nil, or_false] at hp
      rcases hp with e | e
      · rw [e]; exact ⟨h1, _, rfl, rfl⟩
      · rw [e]; exact ⟨h2, _, rfl, rfl⟩)
    simp only [ExtractAddresses, this]
    rfl
  · intro v h hl
    obtain ⟨r, hr, he⟩ := extract_sized (sizeOf v) v (Nat.le_refl _) h
    exact ⟨r, hr, by rw [he, hl]⟩

theorem digitChar_plain (n : Nat) (h : n < 16) :
    Nat.digitChar n ≠ '\\' ∧ (Nat.digitChar n).toNat ≠ 0 := by
  interval_cases n <;> decide

theorem addressString_chars (a : List Nat) :
    ∀ c ∈ (addressString a).data, c ≠ '\\' ∧ c.toNat ≠ 0 := by
  intro c hc
  simp only [addressString, List.mem_cons, List.mem_flatMap, hexByte, List.mem_singleton,
    List.not_mem_nil, or_false] at hc
  rcases hc with e | e | ⟨b, -, e | e⟩
  · rw [e]; decide
  · rw [e]; decide
  · rw [e]; exact digitChar_plain _ (Nat.mod_lt _ (by decide))
  · rw [e]; exact digitChar_plain _ (Nat.mod_lt _ (by decide))

theorem stringsContains_backslash (s t : List Char) (h : '\\' ∉ s) :
    stringsContains s ('\\' :: t) = false := by
  induction s with
  | nil => rfl
  | cons c s ih =>
    have hc : c ≠ '\\' := fun e => h (by simp [e])
    have := ih (fun hm => h (by simp [hm]))
    simp [stringsContains, hasPrefix, Ne.symm hc, this]

theorem Unquote_digit (rest : List Char) : Unquote ⟨'0' :: rest⟩ = none := by
  unfold Unquote
  cases rest with
  | nil => rfl
  | cons c rest =>
    simp only
    cases splitAtQuote '0' (c :: rest) with
    | none => rfl
    | some p =>
      obtain ⟨content, after⟩ := p
      simp only
      rw [if_neg (by decide), if_neg (by decide)]

/-- An Address normalizes to its canonical string. -/
theorem getAndUnquoteString_Address (a : List Nat) :
    getAndUnquoteString (.Address a) = some (addressString a) := by
  have hchars := addressString_chars a
  have hb : '\\' ∉ (addressString a).data := fun hm => (hchars _ hm).1 rfl
  have hv : valueString (.Address a) = some (addressString a) := rfl
  have hu : Unquote (addressString a) = none := Unquote_digit _
  have h1 : stringsContains (addressString a).data "\\u".data = false :=
    stringsContains_backslash _ _ hb
  have h2 : stringsContains (addressString a).data "\\U".data = false :=
    stringsContains_backslash _ _ hb
  simp only [getAndUnquoteString, hv, hu, h1, h2, Bool.or_false, Bool.false_eq_true, if_false,
    stripNul_of_no_nul _ (fun c hc => (hchars c hc).2)]

theorem sliceElems_cons (x : Native) (rest : List Native) (r : InputResolver)
    (calls : List String) (acc : List Value) :
    sliceElems (x :: rest) r calls acc =
      match (ReflectToCadence x r calls).1 with
      | .error err => (.error err, (ReflectToCadence x r calls).2)
      | .ok v => sliceElems rest r (ReflectToCadence x r calls).2 (acc ++ [v]) := by
  simp only [sliceElems]
  rcases ReflectToCadence x r calls with ⟨_ | _, _⟩ <;> rfl

theorem mapEntries_cons (key val : Native) (rest : List (Native × Native)) (r : InputResolver)
    (calls : List String) (acc : List (Value × Value)) :
    mapEntries ((key, val) :: rest) r calls acc =
      match (ReflectToCadence key r calls).1 with
      | .error err => (.error err, (ReflectToCadence key r calls).2)
      | .ok k =>
        match (ReflectToCadence val r (ReflectToCadence key r calls).2).1 with
        | .error err => (.error err, (ReflectToCadence val r (ReflectToCadence key r calls).2).2)
        | .ok v =>
          mapEntries rest r (ReflectToCadence val r (ReflectToCadence key r calls).2).2
            (acc ++ [(k, v)]) := by
  simp only [mapEntries]
  rcases ReflectToCadence key r calls with ⟨_ | k, c1⟩
  · rfl
  · simp only
    rcases ReflectToCadence val r c1 with ⟨_ | _, _⟩ <;> rfl

theorem structFields_cons (field : StructField) (x : Native)
    (rest : List (StructField × Native)) (r : InputResolver) (calls : List String)
    (val : List Value) (flds : List Field) :
    structFields ((field, x) :: rest) r calls val flds =
      match (ReflectToCadence x r calls).1 with
      | .error err => (.error err, (ReflectToCadence x r calls).2)
      | .ok cadenceVal =>
        match fieldStep field cadenceVal with
        | .error err => (.error err, (ReflectToCadence x r calls).2)
        | .ok none => structFields rest r (ReflectToCadence x r calls).2 val flds
        | .ok (some e) =>
          structFields rest r (ReflectToCadence x r calls).2 (val ++ [e.1]) (flds ++ [e.2]) := by
  simp only [structFields]
  rcases ReflectToCadence x r calls with ⟨_ | cv, c1⟩
  · rfl
  · have leaf : ∀ (v : Value) (tags : List Tag),
        (if directiveName tags = "-" then structFields rest r c1 val flds
          else if IsTagCadecenAddress (chosenTag tags) = true then
            match getAndUnquoteString v with
            | none => (.error assertionPanic, c1)
            | some stringVal =>
              match hexToAddress stringVal with
              | .error err => (.error err, c1)
              | .ok adr =>
                structFields rest r c1 (val ++ [.Address adr])
                  (flds ++ [{ Identifier := targetName field tags, fieldType := "Address" }])
          else
            structFields rest r c1 (val ++ [v])
              (flds ++ [{ Identifier := targetName field tags, fieldType := valueType v }])) =
        match (if directiveName tags = "-" then (.ok none : Except Failure (Option (Value × Field)))
          else if IsTagCadecenAddress (chosenTag tags) = true then
            match getAndUnquoteString v with
            | none => .error assertionPanic
            | some stringVal =>
              match hexToAddress stringVal with
              | .error err => .error err
              | .ok adr =>
                .ok (some (.Address adr,
                  { Identifier := targetName field tags, fieldType := "Address" }))
          else
            .ok (some (v,
              { Identifier := targetName field tags, fieldType := valueType v }))) with
        | .error err => (.error err, c1)
        | .ok none => structFields rest r c1 val flds
        | .ok (some e) => structFields rest r c1 (val ++ [e.1]) (flds ++ [e.2]) := by
      intro v tags
      split_ifs
      · rfl
      · cases getAndUnquoteString v with
        | none => rfl
        | some s =>
          simp only
          cases hexToAddress s <;> rfl
      · rfl
    cases cv <;> simp only [fieldStep] <;> cases field.Tag <;> first | rfl | exact leaf _ _

theorem sliceElems_calls (r : InputResolver) (xs : List Native)
    (hx : ∀ x ∈ xs, extendsCalls r x) : ∀ (calls : List String) (acc : List Value),
    sliceElems xs r calls acc =
      ((sliceElems xs r [] acc).1, calls ++ (sliceElems xs r [] acc).2) := by
  induction xs with
  | nil => intro calls acc; simp [sliceElems]
  | cons x xs ih =>
    intro calls acc
    have ih := ih (fun y hy => hx y (by simp [hy]))
    rw [sliceElems_cons, sliceElems_cons x xs r [], hx x (by simp) calls]
    cases (ReflectToCadence x r []).1 with
    | error e => rfl
    | ok v =>
      simp only
      rw [ih (calls ++ _), ih (ReflectToCadence x r []).2, List.append_assoc]

theorem mapEntries_calls (r : InputResolver) (ps : List (Native × Native))
    (hx : ∀ p ∈ ps, extendsCalls r p.1 ∧ extendsCalls r p.2) :
    ∀ (calls : List String) (acc : List (Value × Value)),
    mapEntries ps r calls acc =
      ((mapEntries ps r [] acc).1, calls ++ (mapEntries ps r [] acc).2) := by
  induction ps with
  | nil => intro calls acc; simp [mapEntries]
  | cons p ps ih =>
    intro calls acc
    obtain ⟨key, val⟩ := p
    have ih := ih (fun y hy => hx y (by simp [hy]))
    obtain ⟨hk, hv⟩ := hx (key, val) (by simp)
    simp only at hk hv
    rw [mapEntries_cons, mapEntries_cons key val ps r [], hk calls]
    cases (ReflectToCadence key r []).1 with
    | error e => rfl
    | ok k =>
      simp only
      rw [hv (calls ++ _), hv (ReflectToCadence key r []).2]
      cases (ReflectToCadence val r []).1 with
      | error e => simp only [List.append_assoc]
      | ok v =>
        simp only
        rw [ih ((calls ++ _) ++ _), ih ((ReflectToCadence key r []).2 ++ _)]
        simp only [List.append_assoc]

theorem structFields_calls (r : InputResolver) (fs : List (StructField × Native))
    (hx : ∀ p ∈ fs, extendsCalls r p.2) :
    ∀ (calls : List String) (val : List Value) (flds : List Field),
    structFields fs r calls val flds =
      ((structFields fs r [] val flds).1, calls ++ (structFields fs r [] val flds).2) := by
  induction fs with
  | nil => intro calls val flds; simp [structFields]
  | cons p fs ih =>
    intro calls val flds
    obtain ⟨field, x⟩ := p
    have ih := ih (fun y hy => hx y (by simp [hy]))
    have hp := hx (field, x) (by simp)
    simp only at hp
    rw [structFields_cons, structFields_cons field x fs r [], hp calls]
    cases (ReflectToCadence x r []).1 with
    | error e => rfl
    | ok v =>
      simp only
      cases fieldStep field v with
      | error e => rfl
      | ok o =>
        cases o with
        | none =>
          simp only
          rw [ih (calls ++ _), ih (ReflectToCadence x r []).2, List.append_assoc]
        | some e =>
          simp only
          rw [ih (calls ++ _), ih (ReflectToCadence x r []).2, List.append_assoc]

theorem sizeOf_lt_of_mem_fields (fs : List (StructField × Native)) (p : StructField × Native)
    (h : p ∈ fs) : sizeOf p.2 < sizeOf fs := by
  have h1 := List.sizeOf_lt_of_mem h
  obtain ⟨k, v⟩ := p
  have h2 : sizeOf v < sizeOf (k, v) := by simp
  simp only at h2 ⊢
  omega

theorem sizeOf_lt_of_mem_entries (ps : List (Native × Native)) (p : Native × Native)
    (h : p ∈ ps) : sizeOf p.1 < sizeOf ps ∧ sizeOf p.2 < sizeOf ps := by
  have h1 := List.sizeOf_lt_of_mem h
  obtain ⟨k, v⟩ := p
  have h2 : sizeOf v < sizeOf (k, v) := by simp
  have h3 : sizeOf k < sizeOf (k, v) := by simp; omega
  simp only at h2 h3 ⊢
  omega

theorem extendsCalls_sized (r : InputResolver) : ∀ (n : Nat) (v : Native), sizeOf v ≤ n →
    extendsCalls r v := by
  intro n
  induction n with
  | zero =>
    intro v hn
    cases v <;> simp at hn
  | succ n ih =>
    intro v hn calls
    cases v with
    | Struct typeName fields =>
      have := structFields_calls r fields (fun p hp =>
        ih p.2 (by have := sizeOf_lt_of_mem_fields fields p hp; simp at hn; omega)) calls [] []
      simp only [ReflectToCadence]
      rw [this]
      rcases structFields fields r [] [] [] with ⟨_ | ⟨val, flds⟩, c⟩
      · rfl
      · simp only
        cases r typeName <;> simp
    | Pointer elem =>
      have := ih elem (by simp at hn; omega) calls
      simp only [ReflectToCadence]
      rw [this]
      rcases ReflectToCadence elem r [] with ⟨_ | _, c⟩ <;> rfl
    | Map entries =>
      have := mapEntries_calls r entries (fun p hp =>
        ⟨ih p.1 (by have := sizeOf_lt_of_mem_entries entries p hp; simp at hn; omega),
         ih p.2 (by have := sizeOf_lt_of_mem_entries entries p hp; simp at hn; omega)⟩) calls []
      simp only [ReflectToCadence]
      rw [this]
      rcases mapEntries entries r [] [] with ⟨_ | _, c⟩ <;> rfl
    | Slice elems =>
      have := sliceElems_calls r elems (fun x hx =>
        ih x (by have := List.sizeOf_lt_of_mem hx; simp at hn; omega)) calls []
      simp only [ReflectToCadence]
      rw [this]
      rcases sliceElems elems r [] [] with ⟨_ | _, c⟩ <;> rfl
    | Array elems =>
      have := sliceElems_calls r elems (fun x hx =>
        ih x (by have := List.sizeOf_lt_of_mem hx; simp at hn; omega)) calls []
      simp only [ReflectToCadence]
      rw [this]
      rcases sliceElems elems r [] [] with ⟨_ | _, c⟩ <;> rfl
    | Interface converted =>
      simp only [ReflectToCadence]
      cases converted <;> simp
    | Float64 defined converted =>
      simp only [ReflectToCadence]
      split_ifs
      · simp
      · cases converted <;> simp
    | Int kind defined v =>
      simp only [ReflectToCadence]
      split_ifs <;> simp
    | Bool defined b =>
      simp only [ReflectToCadence]
      split_ifs <;> simp
    | String defined s =>
      simp only [ReflectToCadence]
      split_ifs <;> simp
    | _ => simp [ReflectToCadence]

/-- The result of the encoder is that of `InputToCadence`, whatever the
resolver calls made before. -/
theorem ReflectToCadence_result (r : InputResolver) (v : Native) (calls : List String) :
    (ReflectToCadence v r calls).1 = InputToCadence v r := by
  rw [extendsCalls_sized r _ v (Nat.le_refl _) calls]
  rfl

theorem sliceElems_result (r : InputResolver) (xs : List Native) :
    ∀ (calls : List String) (acc : List Value),
    (sliceElems xs r calls acc).1 =
      match encodeAll r xs with
      | .error err => .error err
      | .ok vs => .ok (acc ++ vs) := by
  induction xs with
  | nil => intro calls acc; simp [sliceElems, encodeAll]
  | cons x xs ih =>
    intro calls acc
    rw [sliceElems_cons]
    simp only [encodeAll, ReflectToCadence_result]
    cases InputToCadence x r with
    | error e => rfl
    | ok v =>
      simp only
      rw [ih]
      cases encodeAll r xs with
      | error e => rfl
      | ok vs => simp

theorem mapEntries_result (r : InputResolver) (ps : List (Native × Native)) :
    ∀ (calls : List String) (acc : List (Value × Value)),
    (mapEntries ps r calls acc).1 =
      match encodePairs r ps with
      | .error err => .error err
      | .ok es => .ok (acc ++ es) := by
  induction ps with
  | nil => intro calls acc; simp [mapEntries, encodePairs]
  | cons p ps ih =>
    intro calls acc
    obtain ⟨key, val⟩ := p
    rw [mapEntries_cons]
    simp only [encodePairs, ReflectToCadence_result]
    cases InputToCadence key r with
    | error e => rfl
    | ok k =>
      simp only
      cases InputToCadence val r with
      | error e => rfl
      | ok v =>
        simp only
        rw [ih]
        cases encodePairs r ps with
        | error e => rfl
        | ok es => simp

theorem structFields_result (r : InputResolver) (fs : List (StructField × Native)) :
    ∀ (calls : List String) (val : List Value) (flds : List Field),
    (structFields fs r calls val flds).1 =
      match encodeFields r fs with
      | .error err => .error err
      | .ok emitted => .ok (val ++ emitted.map Prod.fst, flds ++ emitted.map Prod.snd) := by
  induction fs with
  | nil => intro calls val flds; simp [structFields, encodeFields]
  | cons p fs ih =>
    intro calls val flds
    obtain ⟨field, x⟩ := p
    rw [structFields_cons]
    simp only [encodeFields, encodeField, ReflectToCadence_result]
    cases InputToCadence x r with
    | error e => rfl
    | ok v =>
      simp only
      cases fieldStep field v with
      | error e => rfl
      | ok o =>
        cases o with
        | none =>
          simp only
          rw [ih]
          cases encodeFields r fs <;> rfl
        | some e =>
          simp only
          rw [ih]
          cases encodeFields r fs with
          | error e => rfl
          | ok es => simp

/-- The case `reflect.Struct` of the encoder, by the fields in order. -/
theorem InputToCadence_Struct (r : InputResolver) (typeName : String)
    (fs : List (StructField × Native)) :
    InputToCadence (.Struct typeName fs) r =
      match encodeFields r fs with
      | .error err => .error err
      | .ok emitted =>
        match r typeName with
        | .error err => .error (.error err)
        | .ok resolvedIdentifier =>
          .ok (.Struct { Location := none, QualifiedIdentifier := resolvedIdentifier,
                         Fields := emitted.map Prod.snd } (emitted.map Prod.fst)) := by
  have h := structFields_result r fs [] [] []
  unfold InputToCadence
  simp only [ReflectToCadence]
  rcases hs : structFields fs r [] [] [] with ⟨_ | ⟨val, flds⟩, c⟩
  · rw [hs] at h
    simp only at h
    cases he : encodeFields r fs with
    | error e => rw [he] at h; simp only at h; rw [h]
    | ok es => rw [he] at h; cases h
  · rw [hs] at h
    simp only at h
    cases he : encodeFields r fs with
    | error e => rw [he] at h; cases h
    | ok es =>
      rw [he] at h
      simp only [List.nil_append, Except.ok.injEq, Prod.mk.injEq] at h
      simp only
      cases r typeName with
      | error e => rfl
      | ok id => simp only [h.1, h.2]

/-- The resolver is called with the name of the type of the struct once its
fields are done. -/
theorem Struct_calls (r : InputResolver) (typeName : String)
    (fs : List (StructField × Native)) (calls : List String)
    (emitted : List (Value × Field)) (h : encodeFields r fs = .ok emitted) :
    (ReflectToCadence (.Struct typeName fs) r calls).2 =
      (structFields fs r calls [] []).2 ++ [typeName] := by
  have hr := structFields_result r fs calls [] []
  rw [h] at hr
  simp only [ReflectToCadence]
  rcases hs : structFields fs r calls [] [] with ⟨_ | ⟨val, flds⟩, c⟩
  · rw [hs] at hr; cases hr
  · simp only
    cases r typeName <;> rfl

theorem InputToCadence_Slice (r : InputResolver) (xs : List Native) :
    InputToCadence (.Slice xs) r =
      match encodeAll r xs with
      | .error err => .error err
      | .ok vs => .ok (.Array vs) := by
  have h := sliceElems_result r xs [] []
  unfold InputToCadence
  simp only [ReflectToCadence]
  rcases hs : sliceElems xs r [] [] with ⟨_ | vs, c⟩
  · rw [hs] at h
    simp only at h
    cases he : encodeAll r xs with
    | error e => rw [he] at h; simp only at h; rw [h]
    | ok es => rw [he] at h; cases h
  · rw [hs] at h
    simp only at h
    cases he : encodeAll r xs with
    | error e => rw [he] at h; cases h
    | ok es =>
      rw [he] at h
      simp only [List.nil_append, Except.ok.injEq] at h
      simp only [h]

theorem InputToCadence_Array (r : InputResolver) (xs : List Native) :
    InputToCadence (.Array xs) r = InputToCadence (.Slice xs) r := by
  unfold InputToCadence
  simp only [ReflectToCadence]

theorem InputToCadence_Map (r : InputResolver) (ps : List (Native × Native)) :
    InputToCadence (.Map ps) r =
      match encodePairs r ps with
      | .error err => .error err
      | .ok es => .ok (.Dictionary es) := by
  have h := mapEntries_result r ps [] []
  unfold InputToCadence
  simp only [ReflectToCadence]
  rcases hs : mapEntries ps r [] [] with ⟨_ | vs, c⟩
  · rw [hs] at h
    simp only at h
    cases he : encodePairs r ps with
    | error e => rw [he] at h; simp only at h; rw [h]
    | ok es => rw [he] at h; cases h
  · rw [hs] at h
    simp only at h
    cases he : encodePairs r ps with
    | error e => rw [he] at h; cases h
    | ok es =>
      rw [he] at h
      simp only [List.nil_append, Except.ok.injEq] at h
      simp only [h]

theorem InputToCadence_Pointer (r : InputResolver) (elem : Native) :
    InputToCadence (.Pointer elem) r =
      match InputToCadence elem r with
      | .error err => .error err
      | .ok v => .ok (.Optional v) := by
  unfold InputToCadence
  simp only [ReflectToCadence]
  rcases ReflectToCadence elem r [] with ⟨_ | _, c⟩ <;> rfl

theorem fieldStep_eq (field : StructField) (cv : Value) (hnil : cv ≠ .nil) :
    fieldStep field cv =
      match field.Tag with
      | .error err => .error (.error err)
      | .nilTags => .error (.panic "invalid memory address or nil pointer dereference")
      | .tags tags =>
        if directiveName tags = "-" then .ok none
        else if IsTagCadecenAddress (chosenTag tags) then
          match getAndUnquoteString cv with
          | none => .error assertionPanic
          | some stringVal =>
            match hexToAddress stringVal with
            | .error err => .error err
            | .ok adr =>
              .ok (some (.Address adr,
                { Identifier := targetName field tags, fieldType := "Address" }))
        else
          .ok (some (cv,
            { Identifier := targetName field tags, fieldType := valueType cv })) := by
  cases cv <;> first | exact absurd rfl hnil | rfl

theorem fieldStep_ok (field : StructField) (x : Native) (cv : Value)
    (o : Option (Value × Field)) (h : fieldStep field cv = .ok o) :
    (o = none → notSkipped (field, x) = false) ∧
    (∀ e, o = some e →
      notSkipped (field, x) = true ∧ e.2.Identifier = declaredName (field, x)) := by
  by_cases hnil : cv = .nil
  · rw [hnil] at h
    cases h
  · rw [fieldStep_eq field cv hnil] at h
    unfold notSkipped declaredName
    cases ht : field.Tag with
    | error err => rw [ht] at h; cases h
    | nilTags => rw [ht] at h; cases h
    | tags tags =>
      rw [ht] at h
      simp only at h ⊢
      by_cases hd : directiveName tags = "-"
      · rw [if_pos hd] at h
        cases h
        exact ⟨fun _ => by simp [hd], fun e he => by cases he⟩
      · rw [if_neg hd] at h
        by_cases hc : IsTagCadecenAddress (chosenTag tags) = true
        · rw [if_pos hc] at h
          cases hg : getAndUnquoteString cv with
          | none => rw [hg] at h; cases h
          | some s =>
            rw [hg] at h
            simp only at h
            cases ha : hexToAddress s with
            | error e => rw [ha] at h; cases h
            | ok adr =>
              rw [ha] at h
              cases h
              refine ⟨fun he => (by cases he), fun e he => ?_⟩
              cases he
              simp [hd]
        · rw [if_neg hc] at h
          cases h
          refine ⟨fun he => (by cases he), fun e he => ?_⟩
          cases he
          simp [hd]

theorem encodeField_ok (r : InputResolver) (p : StructField × Native)
    (o : Option (Value × Field)) (h : encodeField r p = .ok o) :
    (o = none → notSkipped p = false) ∧
    (∀ e, o = some e → notSkipped p = true ∧ e.2.Identifier = declaredName p) := by
  obtain ⟨field, x⟩ := p
  unfold encodeField at h
  cases hv : InputToCadence x r with
  | error e => rw [hv] at h; cases h
  | ok cv =>
    rw [hv] at h
    exact fieldStep_ok field x cv o h

theorem encodeFields_ok (r : InputResolver) (fs : List (StructField × Native))
    (hf : ∀ p ∈ fs, ∃ o, encodeField r p = .ok o) :
    ∃ emitted, encodeFields r fs = .ok emitted ∧
      List.Forall₂ (fun p e => encodeField r p = .ok (some e) ∧
        e.2.Identifier = declaredName p) (fs.filter notSkipped) emitted := by
  induction fs with
  | nil => exact ⟨[], rfl, List.Forall₂.nil⟩
  | cons p fs ih =>
    obtain ⟨o, ho⟩ := hf p (by simp)
    obtain ⟨em, hem, hall⟩ := ih (fun q hq => hf q (by simp [hq]))
    have hk := encodeField_ok r p o ho
    cases o with
    | none =>
      have hk1 := hk.1 rfl
      refine ⟨em, by simp only [encodeFields, ho, hem], ?_⟩
      rw [List.filter_cons_of_neg (by simp [hk1])]
      exact hall
    | some e =>
      have hk2 := hk.2 e rfl
      refine ⟨e :: em, by simp only [encodeFields, ho, hem], ?_⟩
      rw [List.filter_cons_of_pos hk2.1]
      exact List.Forall₂.cons ⟨ho, hk2.2⟩ hall

theorem declared_names (r : InputResolver) (ps : List (StructField × Native))
    (em : List (Value × Field))
    (hall : List.Forall₂ (fun p e => encodeField r p = .ok (some e) ∧
      e.2.Identifier = declaredName p) ps em) :
    (em.map Prod.snd).map (fun f => f.Identifier) = ps.map declaredName := by
  induction hall with
  | nil => rfl
  | cons h _ ih => simp only [List.map_cons, ih, h.2]

theorem zip_fst_snd (em : List (Value × Field)) :
    (em.map Prod.fst).zip (em.map Prod.snd) = em := by
  induction em with
  | nil => rfl
  | cons e em ih => simp only [List.map_cons, List.zip_cons_cons, ih]

/-- C16: when every field of a native struct is processed without a failure
and the resolver succeeds on the name of its type, the encoder returns a Struct
whose declared fields and values have the same length and are, in the order of
declaration, those of the fields whose directive name is not `-` (a skipped
field is in neither list), each under its declared name; its qualified
identifier is the result of the resolver, and the resolver is called with the
name of the type of the struct after the fields, whatever they are. -/
theorem C16_struct_fields (r : InputResolver) (typeName : String)
    (fs : List (StructField × Native)) (resolvedIdentifier : String)
    (hf : ∀ p ∈ fs, ∃ o, encodeField r p = .ok o)
    (hr : r typeName = .ok resolvedIdentifier) :
    ∃ (flds : List Field) (vals : List Value),
      InputToCadence (.Struct typeName fs) r =
        .ok (.Struct { Location := none, QualifiedIdentifier := resolvedIdentifier,
                       Fields := flds } vals)
      ∧ flds.length = vals.length
      ∧ flds.length = (fs.filter notSkipped).length
      ∧ flds.map (fun f => f.Identifier) = (fs.filter notSkipped).map declaredName
      ∧ List.Forall₂ (fun p e => encodeField r p = .ok (some e))
          (fs.filter notSkipped) (vals.zip flds)
      ∧ ∀ calls, (ReflectToCadence (.Struct typeName fs) r calls).2 =
          (structFields fs r calls [] []).2 ++ [typeName] := by
  obtain ⟨em, hem, hall⟩ := encodeFields_ok r fs hf
  refine ⟨em.map Prod.snd, em.map Prod.fst, ?_, by simp, ?_, ?_, ?_,
    fun calls => Struct_calls r typeName fs calls em hem⟩
  · rw [InputToCadence_Struct, hem]
    simp only [hr]
  · rw [List.length_map, hall.length_eq]
  · exact declared_names r _ em hall
  · rw [zip_fst_snd]
    exact hall.imp (fun _ _ h => h.1)

theorem encodeField_eq (r : InputResolver) (field : StructField) (x : Native) (cv : Value)
    (tags : List Tag) (ht : field.Tag = .tags tags) (hv : InputToCadence x r = .ok cv)
    (hnil : cv ≠ .nil) :
    encodeField r (field, x) =
      if directiveName tags = "-" then .ok none
      else if IsTagCadecenAddress (chosenTag tags) then
        match getAndUnquoteString cv with
        | none => .error assertionPanic
        | some stringVal =>
          match hexToAddress stringVal with
          | .error err => .error err
          | .ok adr =>
            .ok (some (.Address adr,
              { Identifier := targetName field tags, fieldType := "Address" }))
      else
        .ok (some (cv,
          { Identifier := targetName field tags, fieldType := valueType cv })) := by
  simp only [encodeField, hv, fieldStep_eq field cv hnil, ht]

theorem encodeFields_append (r : InputResolver) (a b : List (StructField × Native)) :
    encodeFields r (a ++ b) =
      match encodeFields r a with
      | .error err => .error err
      | .ok ea =>
        match encodeFields r b with
        | .error err => .error err
        | .ok eb => .ok (ea ++ eb) := by
  induction a with
  | nil =>
    simp only [List.nil_append, encodeFields]
    cases encodeFields r b <;> rfl
  | cons p a ih =>
    rw [List.cons_append]
    simp only [encodeFields, ih]
    cases encodeField r p with
    | error e => rfl
    | ok o =>
      simp only
      cases encodeFields r a with
      | error e => rfl
      | ok ea =>
        simp only
        cases encodeFields r b with
        | error e => cases o <;> rfl
        | ok eb => cases o <;> rfl

/-- A field that is skipped leaves the encoding of the struct as it is without
the field. -/
theorem Struct_field_skipped (r : InputResolver) (typeName : String)
    (pre post : List (StructField × Native)) (p : StructField × Native)
    (hp : encodeField r p = .ok none) :
    InputToCadence (.Struct typeName (pre ++ p :: post)) r =
      InputToCadence (.Struct typeName (pre ++ post)) r := by
  have h : encodeFields r (p :: post) = encodeFields r post := by
    simp only [encodeFields, hp]
    cases encodeFields r post <;> rfl
  rw [InputToCadence_Struct, InputToCadence_Struct, encodeFields_append, h,
    ← encodeFields_append]

/-- A field that is not skipped is declared, with its value, at the position
that is the number of the fields before it that are not skipped. -/
theorem Struct_field_at (r : InputResolver) (typeName : String)
    (pre post : List (StructField × Native)) (p : StructField × Native) (e : Value × Field)
    (id : String) (hpre : ∀ q ∈ pre, ∃ o, encodeField r q = .ok o)
    (hpost : ∀ q ∈ post, ∃ o, encodeField r q = .ok o)
    (hp : encodeField r p = .ok (some e)) (hr : r typeName = .ok id) :
    ∃ (flds : List Field) (vals : List Value),
      InputToCadence (.Struct typeName (pre ++ p :: post)) r =
        .ok (.Struct { Location := none, QualifiedIdentifier := id, Fields := flds } vals)
      ∧ flds.length = vals.length
      ∧ flds[(pre.filter notSkipped).length]? = some e.2
      ∧ vals[(pre.filter notSkipped).length]? = some e.1 := by
  obtain ⟨ea, hea, halla⟩ := encodeFields_ok r pre hpre
  obtain ⟨eb, heb, -⟩ := encodeFields_ok r post hpost
  have hlen : (pre.filter notSkipped).length = ea.length := halla.length_eq
  have h : encodeFields r (pre ++ p :: post) = .ok (ea ++ e :: eb) := by
    rw [encodeFields_append, hea]
    simp only [encodeFields, hp, heb]
  refine ⟨(ea ++ e :: eb).map Prod.snd, (ea ++ e :: eb).map Prod.fst, ?_, by simp, ?_, ?_⟩
  · rw [InputToCadence_Struct, h]
    simp only [hr]
  · rw [hlen, List.map_append, List.map_cons,
      List.getElem?_append_right (by simp)]
    simp
  · rw [hlen, List.map_append, List.map_cons,
      List.getElem?_append_right (by simp)]
    simp

/-- C17, counterexample: the field `Bar` with the tag `json:",omitempty"` has a
tag of the key `json`, whose name is empty; it is declared as `bar`, the name
of the field in lower case, not under the name of that tag. -/
theorem C17_counterexample :
    InputToCadence (.Struct "Foo"
        [({ Name := "Bar", Lower := "bar", Tag := .tags [{ Key := "json", Name := "", Options := ["omitempty"] }] },
          .String false "foo")]) (fun _ => .ok "A.123.Foo") =
      .ok (.Struct { Location := none, QualifiedIdentifier := "A.123.Foo",
                     Fields := [{ Identifier := "bar", fieldType := "String" }] } [.String "foo"])
    ∧ claimedName { Name := "Bar", Lower := "bar", Tag := .tags [{ Key := "json", Name := "", Options := ["omitempty"] }] }
        [{ Key := "json", Name := "", Options := ["omitempty"] }] = "" := by
  refine ⟨by rfl, by decide⟩

/-- C17, amended: the tag a field goes by is its tag of the key `cadence` when
there is one, else its tag of the key `json`, if any.  In the Struct the
encoder returns, the field is declared under the name of that tag, and under
the name of the field in lower case (the result of `strings.ToLower`) when
there is no such tag or the name of that tag is empty; the name `-` of that tag
makes the field skipped (the struct is encoded as without the field), and the
option `cadenceAddress` of that tag makes the value of a field that is not
skipped an address, declared with the type Address.  The field is at the
position that is the number of the fields before it that are not skipped.  So
the field `Bar` without a tag of the struct `Foo` of the tests is declared as
`bar`, and so is the field `Something` with the tag `json:"bar"` of the struct
`Baz`. -/
theorem C17_field_directive (r : InputResolver) (field : StructField) (x : Native)
    (cv : Value) (tags : List Tag) (ht : field.Tag = .tags tags)
    (hv : InputToCadence x r = .ok cv) (hnil : cv ≠ .nil) :
    (targetName field tags =
        match tagsGet tags "cadence" with
        | some t => if t.Name = "" then field.Lower else t.Name
        | none =>
          match tagsGet tags "json" with
          | some t => if t.Name = "" then field.Lower else t.Name
          | none => field.Lower)
    ∧ (directiveName tags =
        match tagsGet tags "cadence" with
        | some t => t.Name
        | none =>
          match tagsGet tags "json" with
          | some t => t.Name
          | none => "")
    ∧ (chosenTag tags =
        match tagsGet tags "cadence" with
        | some t => some t
        | none => tagsGet tags "json")
    ∧ ((∀ t, chosenTag tags = some t → t.Name ≠ "") → targetName field tags = claimedName field tags)
    ∧ (directiveName tags = "-" → ∀ typeName pre post,
        InputToCadence (.Struct typeName (pre ++ (field, x) :: post)) r =
          InputToCadence (.Struct typeName (pre ++ post)) r)
    ∧ (directiveName tags ≠ "-" → IsTagCadecenAddress (chosenTag tags) = false →
        ∀ typeName pre post id, (∀ q ∈ pre, ∃ o, encodeField r q = .ok o) →
        (∀ q ∈ post, ∃ o, encodeField r q = .ok o) → r typeName = .ok id →
        ∃ (flds : List Field) (vals : List Value),
          InputToCadence (.Struct typeName (pre ++ (field, x) :: post)) r =
            .ok (.Struct { Location := none, QualifiedIdentifier := id, Fields := flds } vals)
          ∧ flds.length = vals.length
          ∧ flds[(pre.filter notSkipped).length]? =
              some { Identifier := targetName field tags, fieldType := valueType cv }
          ∧ vals[(pre.filter notSkipped).length]? = some cv)
    ∧ (directiveName tags ≠ "-" → IsTagCadecenAddress (chosenTag tags) = true →
        ∀ s adr, getAndUnquoteString cv = some s → hexToAddress s = .ok adr →
        ∀ typeName pre post id, (∀ q ∈ pre, ∃ o, encodeField r q = .ok o) →
        (∀ q ∈ post, ∃ o, encodeField r q = .ok o) → r typeName = .ok id →
        ∃ (flds : List Field) (vals : List Value),
          InputToCadence (.Struct typeName (pre ++ (field, x) :: post)) r =
            .ok (.Struct { Location := none, QualifiedIdentifier := id, Fields := flds } vals)
          ∧ flds.length = vals.length
          ∧ flds[(pre.filter notSkipped).length]? =
              some { Identifier := targetName field tags, fieldType := "Address" }
          ∧ vals[(pre.filter notSkipped).length]? = some (.Address adr))
    ∧ InputToCadence (.Struct "Foo"
        [({ Name := "Bar", Lower := "bar", Tag := .tags [] }, .String false "foo")])
        (fun _ => .ok "A.123.Foo.Bar") =
      .ok (.Struct { Location := none, QualifiedIdentifier := "A.123.Foo.Bar",
                     Fields := [{ Identifier := "bar", fieldType := "String" }] }
            [.String "foo"])
    ∧ InputToCadence (.Struct "Baz"
        [({ Name := "Something", Lower := "something",
            Tag := .tags [{ Key := "json", Name := "bar", Options := [] }] },
          .String false "foo")])
        (fun _ => .ok "A.123.Foo.Baz") =
      .ok (.Struct { Location := none, QualifiedIdentifier := "A.123.Foo.Baz",
                     Fields := [{ Identifier := "bar", fieldType := "String" }] }
            [.String "foo"]) := by
  have he := encodeField_eq r field x cv tags ht hv hnil
  refine ⟨?_, ?_, rfl, ?_, ?_, ?_, ?_, by rfl, by rfl⟩
  · unfold targetName directiveName chosenTag
    cases tagsGet tags "cadence" with
    | some t => rfl
    | none =>
      cases tagsGet tags "json" with
      | some t => rfl
      | none => simp
  · unfold directiveName chosenTag
    cases tagsGet tags "cadence" with
    | some t => rfl
    | none => cases tagsGet tags "json" <;> rfl
  · intro hne
    unfold targetName directiveName claimedName
    unfold chosenTag at hne ⊢
    cases h1 : tagsGet tags "cadence" with
    | some t =>
      have := hne t (by rw [h1])
      simp [this]
    | none =>
      cases h2 : tagsGet tags "json" with
      | some t =>
        have := hne t (by rw [h1, h2])
        simp [this]
      | none => simp
  · intro hd typeName pre post
    exact Struct_field_skipped r typeName pre post (field, x) (by rw [he, if_pos hd])
  · intro hd hc typeName pre post id hpre hpost hr
    exact Struct_field_at r typeName pre post (field, x)
      (cv, { Identifier := targetName field tags, fieldType := valueType cv }) id hpre hpost
      (by rw [he, if_neg hd, if_neg (by simp [hc])]) hr
  · intro hd hc s adr hs ha typeName pre post id hpre hpost hr
    exact Struct_field_at r typeName pre post (field, x)
      (.Address adr, { Identifier := targetName field tags, fieldType := "Address" }) id
      hpre hpost (by rw [he, if_neg hd, if_pos hc, hs]; simp only [ha]) hr

theorem encodeAll_error (r : InputResolver) (err : Failure) (x : Native) (post : List Native) :
    ∀ pre : List Native, (∀ y ∈ pre, ∃ v, InputToCadence y r = .ok v) →
    InputToCadence x r = .error err → encodeAll r (pre ++ x :: post) = .error err := by
  intro pre
  induction pre with
  | nil => intro _ hx; simp only [List.nil_append, encodeAll, hx]
  | cons y pre ih =>
    intro hpre hx
    obtain ⟨v, hv⟩ := hpre y (by simp)
    have ih := ih (fun z hz => hpre z (by simp [hz])) hx
    rw [List.cons_append]
    simp only [encodeAll, hv, ih]

theorem encodePairs_error (r : InputResolver) (err : Failure) (k v : Native)
    (post : List (Native × Native))
    (hkv : InputToCadence k r = .error err ∨
      ((∃ c, InputToCadence k r = .ok c) ∧ InputToCadence v r = .error err)) :
    ∀ pre : List (Native × Native),
    (∀ p ∈ pre, (∃ c, InputToCadence p.1 r = .ok c) ∧ ∃ c, InputToCadence p.2 r = .ok c) →
    encodePairs r (pre ++ (k, v) :: post) = .error err := by
  intro pre
  induction pre with
  | nil =>
    intro _
    rcases hkv with hk | ⟨⟨c, hk⟩, hv⟩
    · simp only [List.nil_append, encodePairs, hk]
    · simp only [List.nil_append, encodePairs, hk, hv]
  | cons p pre ih =>
    intro hpre
    obtain ⟨pk, pv⟩ := p
    obtain ⟨⟨c1, h1⟩, c2, h2⟩ := hpre (pk, pv) (by simp)
    simp only at h1 h2
    have ih := ih (fun z hz => hpre z (by simp [hz]))
    rw [List.cons_append]
    simp only [encodePairs, h1, h2, ih]

theorem encodeFields_error (r : InputResolver) (err : Failure) (p : StructField × Native)
    (post : List (StructField × Native)) :
    ∀ pre : List (StructField × Native), (∀ q ∈ pre, ∃ o, encodeField r q = .ok o) →
    encodeField r p = .error err → encodeFields r (pre ++ p :: post) = .error err := by
  intro pre
  induction pre with
  | nil => intro _ hx; simp only [List.nil_append, encodeFields, hx]
  | cons q pre ih =>
    intro hpre hx
    obtain ⟨o, ho⟩ := hpre q (by simp)
    have ih := ih (fun z hz => hpre z (by simp [hz])) hx
    rw [List.cons_append]
    simp only [encodeFields, ho, ih]

theorem encodeFields_fails (r : InputResolver) (err : Failure) (p : StructField × Native)
    (post : List (StructField × Native)) (hp : encodeField r p = .error err) :
    ∀ pre : List (StructField × Native), ∃ e, encodeFields r (pre ++ p :: post) = .error e := by
  intro pre
  induction pre with
  | nil => exact ⟨err, by simp only [List.nil_append, encodeFields, hp]⟩
  | cons q pre ih =>
    obtain ⟨e, he⟩ := ih
    rw [List.cons_append]
    cases hq : encodeField r q with
    | error e1 => exact ⟨e1, by simp only [encodeFields, hq]⟩
    | ok o => exact ⟨e, by simp only [encodeFields, hq, he]⟩

theorem encodeFields_first_failure (r : InputResolver) (p : StructField × Native)
    (post : List (StructField × Native)) (err : Failure) (hp : encodeField r p = .error err) :
    ∀ (pre : List (StructField × Native)) (e : Failure),
    encodeFields r (pre ++ p :: post) = .error e →
    e = err ∨ ∃ q ∈ pre, encodeField r q = .error e := by
  intro pre
  induction pre with
  | nil =>
    intro e he
    simp only [List.nil_append, encodeFields, hp, Except.error.injEq] at he
    exact Or.inl he.symm
  | cons q pre ih =>
    intro e he
    rw [List.cons_append] at he
    simp only [encodeFields] at he
    cases hq : encodeField r q with
    | error e1 =>
      rw [hq] at he
      simp only [Except.error.injEq] at he
      exact Or.inr ⟨q, by simp, by rw [hq, he]⟩
    | ok o =>
      rw [hq] at he
      simp only at he
      cases hrest : encodeFields r (pre ++ p :: post) with
      | error e2 =>
        rw [hrest] at he
        simp only [Except.error.injEq] at he
        rcases ih e2 hrest with h | ⟨q', hq', hf⟩
        · exact Or.inl (by rw [← he, h])
        · exact Or.inr ⟨q', List.mem_cons_of_mem _ hq', by rw [← he]; exact hf⟩
      | ok em =>
        rw [hrest] at he
        cases o <;> cases he

theorem structFieldsReturned_cons (field : StructField) (x : Native)
    (rest : List (StructField × Native)) (r : InputResolver)
    (val : List Value) (flds : List Field) :
    structFieldsReturned ((field, x) :: rest) r val flds =
      match ReflectToCadenceReturned x r with
      | .panics message => .error (.panics message)
      | .results _ (some err) => .error (.results .nil (some err))
      | .results cadenceVal none =>
        match fieldStep field cadenceVal with
        | .error err => .error err.returned
        | .ok none => structFieldsReturned rest r val flds
        | .ok (some e) => structFieldsReturned rest r (val ++ [e.1]) (flds ++ [e.2]) := by
  simp only [structFieldsReturned]
  rcases ReflectToCadenceReturned x r with ⟨cv, _ | e⟩ | m
  · have leaf : ∀ (v : Value) (tags : List Tag),
        (if directiveName tags = "-" then structFieldsReturned rest r val flds
          else if IsTagCadecenAddress (chosenTag tags) = true then
            match getAndUnquoteString v with
            | none =>
              .error (.panics "interface conversion: interface {} is not of the asserted type")
            | some stringVal =>
              match hexToAddress stringVal with
              | .error (.error err) => .error (.results .nil (some err))
              | .error (.panic message) => .error (.panics message)
              | .ok adr =>
                structFieldsReturned rest r (val ++ [.Address adr])
                  (flds ++ [{ Identifier := targetName field tags, fieldType := "Address" }])
          else
            structFieldsReturned rest r (val ++ [v])
              (flds ++ [{ Identifier := targetName field tags, fieldType := valueType v }])) =
        match (if directiveName tags = "-" then (.ok none : Except Failure (Option (Value × Field)))
          else if IsTagCadecenAddress (chosenTag tags) = true then
            match getAndUnquoteString v with
            | none => .error assertionPanic
            | some stringVal =>
              match hexToAddress stringVal with
              | .error err => .error err
              | .ok adr =>
                .ok (some (.Address adr,
                  { Identifier := targetName field tags, fieldType := "Address" }))
          else
            .ok (some (v,
              { Identifier := targetName field tags, fieldType := valueType v }))) with
        | .error err => .error err.returned
        | .ok none => structFieldsReturned rest r val flds
        | .ok (some e) => structFieldsReturned rest r (val ++ [e.1]) (flds ++ [e.2]) := by
      intro v tags
      split_ifs
      · rfl
      · cases getAndUnquoteString v with
        | none => rfl
        | some s =>
          simp only
          rcases hexToAddress s with (_ | _) | _ <;> rfl
      · rfl
    cases cv <;> simp only [fieldStep] <;> cases field.Tag <;> first | rfl | exact leaf _ _
  · rfl
  · rfl

theorem sliceElemsReturned_eq (r : InputResolver) (xs : List Native)
    (hx : ∀ x ∈ xs, InputToCadence x r = (ReflectToCadenceReturned x r).toExcept) :
    ∀ acc : List Value,
    sliceElemsReturned xs r acc =
      match encodeAll r xs with
      | .error err => .error err.returned
      | .ok vs => .ok (acc ++ vs) := by
  induction xs with
  | nil => intro acc; simp [sliceElemsReturned, encodeAll]
  | cons x xs ih =>
    intro acc
    have ih := ih (fun y hy => hx y (by simp [hy]))
    have h := hx x (by simp)
    simp only [sliceElemsReturned, encodeAll, h]
    rcases ReflectToCadenceReturned x r with ⟨v, _ | e⟩ | m
    · simp only [Returned.toExcept]
      rw [ih]
      cases encodeAll r xs with
      | error e => rfl
      | ok vs => simp
    · rfl
    · rfl

theorem mapEntriesReturned_eq (r : InputResolver) (ps : List (Native × Native))
    (hx : ∀ p ∈ ps, InputToCadence p.1 r = (ReflectToCadenceReturned p.1 r).toExcept ∧
      InputToCadence p.2 r = (ReflectToCadenceReturned p.2 r).toExcept) :
    ∀ acc : List (Value × Value),
    mapEntriesReturned ps r acc =
      match encodePairs r ps with
      | .error err => .error err.returned
      | .ok es => .ok (acc ++ es) := by
  induction ps with
  | nil => intro acc; simp [mapEntriesReturned, encodePairs]
  | cons p ps ih =>
    intro acc
    obtain ⟨key, val⟩ := p
    have ih := ih (fun y hy => hx y (by simp [hy]))
    obtain ⟨hk, hv⟩ := hx (key, val) (by simp)
    simp only at hk hv
    simp only [mapEntriesReturned, encodePairs, hk, hv]
    rcases ReflectToCadenceReturned key r with ⟨k, _ | e⟩ | m
    · simp only [Returned.toExcept]
      rcases ReflectToCadenceReturned val r with ⟨v, _ | e⟩ | m
      · simp only [Returned.toExcept]
        rw [ih]
        cases encodePairs r ps with
        | error e => rfl
        | ok es => simp
      · rfl
      · rfl
    · rfl
    · rfl

theorem structFieldsReturned_eq (r : InputResolver) (fs : List (StructField × Native))
    (hx : ∀ p ∈ fs, InputToCadence p.2 r = (ReflectToCadenceReturned p.2 r).toExcept) :
    ∀ (val : List Value) (flds : List Field),
    structFieldsReturned fs r val flds =
      match encodeFields r fs with
      | .error err => .error err.returned
      | .ok emitted => .ok (val ++ emitted.map Prod.fst, flds ++ emitted.map Prod.snd) := by
  induction fs with
  | nil => intro val flds; simp [structFieldsReturned, encodeFields]
  | cons p fs ih =>
    intro val flds
    obtain ⟨field, x⟩ := p
    have ih := ih (fun y hy => hx y (by simp [hy]))
    have h := hx (field, x) (by simp)
    simp only at h
    rw [structFieldsReturned_cons]
    simp only [encodeFields, encodeField, h]
    rcases ReflectToCadenceReturned x r with ⟨v, _ | e⟩ | m
    · simp only [Returned.toExcept]
      cases fieldStep field v with
      | error e => rfl
      | ok o =>
        cases o with
        | none =>
          simp only
          rw [ih]
          cases encodeFields r fs <;> rfl
        | some e =>
          simp only
          rw [ih]
          cases encodeFields r fs with
          | error e => rfl
          | ok es => simp
    · rfl
    · rfl

theorem toExcept_sized (r : InputResolver) : ∀ (n : Nat) (v : Native), sizeOf v ≤ n →
    InputToCadence v r = (ReflectToCadenceReturned v r).toExcept := by
  intro n
  induction n with
  | zero =>
    intro v hn
    cases v <;> simp at hn
  | succ n ih =>
    intro v hn
    cases v with
    | Struct typeName fields =>
      have := structFieldsReturned_eq r fields (fun p hp =>
        ih p.2 (by have := sizeOf_lt_of_mem_fields fields p hp; simp at hn; omega)) [] []
      rw [InputToCadence_Struct]
      simp only [ReflectToCadenceReturned]
      rw [this]
      cases encodeFields r fields with
      | error e => cases e <;> rfl
      | ok em =>
        simp only [List.nil_append]
        cases r typeName <;> rfl
    | Pointer elem =>
      have := ih elem (by simp at hn; omega)
      rw [InputToCadence_Pointer, this]
      simp only [ReflectToCadenceReturned]
      rcases ReflectToCadenceReturned elem r with ⟨v, _ | e⟩ | m <;> rfl
    | Map entries =>
      have := mapEntriesReturned_eq r entries (fun p hp =>
        ⟨ih p.1 (by have := sizeOf_lt_of_mem_entries entries p hp; simp at hn; omega),
         ih p.2 (by have := sizeOf_lt_of_mem_entries entries p hp; simp at hn; omega)⟩) []
      rw [InputToCadence_Map]
      simp only [ReflectToCadenceReturned]
      rw [this]
      cases encodePairs r entries with
      | error e => cases e <;> rfl
      | ok es => rfl
    | Slice elems =>
      have := sliceElemsReturned_eq r elems (fun x hx =>
        ih x (by have := List.sizeOf_lt_of_mem hx; simp at hn; omega)) []
      rw [InputToCadence_Slice]
      simp only [ReflectToCadenceReturned]
      rw [this]
      cases encodeAll r elems with
      | error e => cases e <;> rfl
      | ok es => rfl
    | Array elems =>
      have := sliceElemsReturned_eq r elems (fun x hx =>
        ih x (by have := List.sizeOf_lt_of_mem hx; simp at hn; omega)) []
      rw [InputToCadence_Array, InputToCadence_Slice]
      simp only [ReflectToCadenceReturned]
      rw [this]
      cases encodeAll r elems with
      | error e => cases e <;> rfl
      | ok es => rfl
    | Interface converted =>
      cases converted <;> rfl
    | Float64 defined converted =>
      cases defined <;> cases converted <;> rfl
    | Int kind defined v =>
      cases defined <;> rfl
    | Bool defined b =>
      cases defined <;> rfl
    | String defined s =>
      cases defined <;> rfl
    | Invalid => rfl
    | NilPointer => rfl
    | Unsupported kind => rfl

/-- The encoder as a value or a failure is the encoder with both results of
its `return`, the value that comes with an error dropped. -/
theorem InputToCadence_toExcept (r : InputResolver) (v : Native) :
    InputToCadence v r = (ReflectToCadenceReturned v r).toExcept :=
  toExcept_sized r _ v (Nat.le_refl _)

theorem toExcept_ok (ret : Returned) (v : Value) (h : ret.toExcept = .ok v) :
    ret = .results v none := by
  rcases ret with ⟨w, _ | e⟩ | m
  · simp only [Returned.toExcept, Except.ok.injEq] at h
    rw [h]
  · cases h
  · cases h

theorem Struct_returned (r : InputResolver) (typeName : String)
    (fs : List (StructField × Native)) :
    ReflectToCadenceReturned (.Struct typeName fs) r =
      match encodeFields r fs with
      | .error err => err.returned
      | .ok emitted =>
        match r typeName with
        | .error err => .results .nil (some err)
        | .ok resolvedIdentifier =>
          .results (.Struct { Location := none, QualifiedIdentifier := resolvedIdentifier,
                              Fields := emitted.map Prod.snd } (emitted.map Prod.fst)) none := by
  simp only [ReflectToCadenceReturned]
  rw [structFieldsReturned_eq r fs (fun p _ => InputToCadence_toExcept r p.2)]
  cases encodeFields r fs with
  | error e => rfl
  | ok em => simp only [List.nil_append]

theorem Slice_returned (r : InputResolver) (xs : List Native) :
    ReflectToCadenceReturned (.Slice xs) r =
      match encodeAll r xs with
      | .error err => err.returned
      | .ok vs => .results (.Array vs) none := by
  simp only [ReflectToCadenceReturned]
  rw [sliceElemsReturned_eq r xs (fun x _ => InputToCadence_toExcept r x)]
  cases encodeAll r xs with
  | error e => rfl
  | ok em => simp only [List.nil_append]

theorem Array_returned (r : InputResolver) (xs : List Native) :
    ReflectToCadenceReturned (.Array xs) r = ReflectToCadenceReturned (.Slice xs) r := by
  simp only [ReflectToCadenceReturned]

theorem Map_returned (r : InputResolver) (ps : List (Native × Native)) :
    ReflectToCadenceReturned (.Map ps) r =
      match encodePairs r ps with
      | .error err => err.returned
      | .ok es => .results (.Dictionary es) none := by
  simp only [ReflectToCadenceReturned]
  rw [mapEntriesReturned_eq r ps (fun p _ =>
    ⟨InputToCadence_toExcept r p.1, InputToCadence_toExcept r p.2⟩)]
  cases encodePairs r ps with
  | error e => rfl
  | ok em => simp only [List.nil_append]

theorem returned_nil (f : Failure) (value : Value) (e : String)
    (h : f.returned = .results value (some e)) : value = .nil := by
  cases f with
  | error msg =>
    simp only [Failure.returned, Returned.results.injEq] at h
    exact h.1.symm
  | panic msg => cases h

theorem toExcept_results_ok (r : InputResolver) (x : Native) (v : Value)
    (h : InputToCadenceReturned x r = .results v none) : InputToCadence x r = .ok v := by
  rw [InputToCadence_toExcept, ← InputToCadenceReturned, h]
  rfl

theorem toExcept_results_error (r : InputResolver) (x : Native) (w : Value) (err : String)
    (h : InputToCadenceReturned x r = .results w (some err)) :
    InputToCadence x r = .error (.error err) := by
  rw [InputToCadence_toExcept, ← InputToCadenceReturned, h]
  rfl

/-- C18: the encoder stops at the first error and returns it with the nil
value, here on the encoder with both results of its `return`.  The error of
the pointee is that of the pointer; the error of an element, after elements
that succeed, is that of the slice and of the array; the error of a key, or of
a value whose key succeeds, after entries that succeed, is that of the map; the
error on a field, after fields without a failure, is that of the struct, be it
the error of the value of the field, of the parsing of its tag or of the
hexadecimal decoding of its address; and the error of the resolver, after
fields without a failure, is that of the struct.  In each case the value
returned with the error is nil, whatever value the part returned with it, and
a struct, a pointer, a map, a slice or an array never returns another value
than nil with an error; a float64 does: the zero `UFix64`. -/
theorem C18_fail_fast (r : InputResolver) (err : String) :
    (∀ x, InputToCadence x r = (InputToCadenceReturned x r).toExcept)
    ∧ (∀ elem w, InputToCadenceReturned elem r = .results w (some err) →
      InputToCadenceReturned (.Pointer elem) r = .results .nil (some err))
    ∧ (∀ pre x post w, (∀ y ∈ pre, ∃ v, InputToCadenceReturned y r = .results v none) →
        InputToCadenceReturned x r = .results w (some err) →
        InputToCadenceReturned (.Slice (pre ++ x :: post)) r = .results .nil (some err) ∧
        InputToCadenceReturned (.Array (pre ++ x :: post)) r = .results .nil (some err))
    ∧ (∀ pre k v post w,
        (∀ p ∈ pre, (∃ c, InputToCadenceReturned p.1 r = .results c none) ∧
          ∃ c, InputToCadenceReturned p.2 r = .results c none) →
        InputToCadenceReturned k r = .results w (some err) →
        InputToCadenceReturned (.Map (pre ++ (k, v) :: post)) r = .results .nil (some err))
    ∧ (∀ pre k v post w,
        (∀ p ∈ pre, (∃ c, InputToCadenceReturned p.1 r = .results c none) ∧
          ∃ c, InputToCadenceReturned p.2 r = .results c none) →
        (∃ c, InputToCadenceReturned k r = .results c none) →
        InputToCadenceReturned v r = .results w (some err) →
        InputToCadenceReturned (.Map (pre ++ (k, v) :: post)) r = .results .nil (some err))
    ∧ (∀ typeName pre field x post w, (∀ q ∈ pre, ∃ o, encodeField r q = .ok o) →
        InputToCadenceReturned x r = .results w (some err) →
        InputToCadenceReturned (.Struct typeName (pre ++ (field, x) :: post)) r =
          .results .nil (some err))
    ∧ (∀ typeName pre field x post cv, (∀ q ∈ pre, ∃ o, encodeField r q = .ok o) →
        InputToCadenceReturned x r = .results cv none → cv ≠ .nil → field.Tag = .error err →
        InputToCadenceReturned (.Struct typeName (pre ++ (field, x) :: post)) r =
          .results .nil (some err))
    ∧ (∀ typeName pre field x post cv tags s, (∀ q ∈ pre, ∃ o, encodeField r q = .ok o) →
        InputToCadenceReturned x r = .results cv none → cv ≠ .nil → field.Tag = .tags tags →
        directiveName tags ≠ "-" → IsTagCadecenAddress (chosenTag tags) = true →
        getAndUnquoteString cv = some s → hexToAddress s = .error (.error err) →
        InputToCadenceReturned (.Struct typeName (pre ++ (field, x) :: post)) r =
          .results .nil (some err))
    ∧ (∀ typeName fs, (∀ q ∈ fs, ∃ o, encodeField r q = .ok o) →
        r typeName = .error err →
        InputToCadenceReturned (.Struct typeName fs) r = .results .nil (some err))
    ∧ (∀ x value e, encloses x = true →
        InputToCadenceReturned x r = .results value (some e) → value = .nil)
    ∧ InputToCadenceReturned (.Float64 false (.error err)) r = .results (.UFix64 0) (some err) := by
  have hstruct : ∀ typeName pre p post, (∀ q ∈ pre, ∃ o, encodeField r q = .ok o) →
      encodeField r p = .error (.error err) →
      InputToCadenceReturned (.Struct typeName (pre ++ p :: post)) r =
        .results .nil (some err) := by
    intro typeName pre p post hpre hp
    rw [InputToCadenceReturned, Struct_returned, encodeFields_error r _ p post pre hpre hp]
    rfl
  have hpairs : ∀ pre : List (Native × Native),
      (∀ p ∈ pre, (∃ c, InputToCadenceReturned p.1 r = .results c none) ∧
        ∃ c, InputToCadenceReturned p.2 r = .results c none) →
      ∀ p ∈ pre, (∃ c, InputToCadence p.1 r = .ok c) ∧ ∃ c, InputToCadence p.2 r = .ok c := by
    intro pre hpre p hp
    obtain ⟨⟨c1, h1⟩, c2, h2⟩ := hpre p hp
    exact ⟨⟨c1, toExcept_results_ok r _ _ h1⟩, c2, toExcept_results_ok r _ _ h2⟩
  refine ⟨fun x => InputToCadence_toExcept r x, ?_, ?_, ?_, ?_, ?_, ?_, ?_, ?_, ?_, rfl⟩
  · intro elem w h
    unfold InputToCadenceReturned at h ⊢
    simp only [ReflectToCadenceReturned, h]
  · intro pre x post w hpre hx
    have := encodeAll_error r (.error err) x post pre
      (fun y hy => (hpre y hy).imp (fun v hv => toExcept_results_ok r y v hv))
      (toExcept_results_error r x w err hx)
    rw [InputToCadenceReturned, InputToCadenceReturned, Array_returned, Slice_returned, this]
    exact ⟨rfl, rfl⟩
  · intro pre k v post w hpre hk
    rw [InputToCadenceReturned, Map_returned, encodePairs_error r (.error err) k v post
      (Or.inl (toExcept_results_error r k w err hk)) pre (hpairs pre hpre)]
    rfl
  · intro pre k v post w hpre hk hv
    rw [InputToCadenceReturned, Map_returned, encodePairs_error r (.error err) k v post
      (Or.inr ⟨hk.imp (fun c hc => toExcept_results_ok r k c hc),
        toExcept_results_error r v w err hv⟩) pre (hpairs pre hpre)]
    rfl
  · intro typeName pre field x post w hpre hx
    apply hstruct typeName pre (field, x) post hpre
    simp only [encodeField, toExcept_results_error r x w err hx]
  · intro typeName pre field x post cv hpre hv hnil ht
    apply hstruct typeName pre (field, x) post hpre
    simp only [encodeField, toExcept_results_ok r x cv hv, fieldStep_eq field cv hnil, ht]
  · intro typeName pre field x post cv tags s hpre hv hnil ht hd hc hs ha
    apply hstruct typeName pre (field, x) post hpre
    rw [encodeField_eq r field x cv tags ht (toExcept_results_ok r x cv hv) hnil, if_neg hd,
      if_pos hc, hs]
    simp only [ha]
  · intro typeName fs hfs hr
    obtain ⟨em, hem, -⟩ := encodeFields_ok r fs hfs
    rw [InputToCadenceReturned, Struct_returned, hem]
    simp only [hr]
  · intro x value e hx h
    unfold InputToCadenceReturned at h
    cases x with
    | Struct typeName fs =>
      rw [Struct_returned] at h
      cases he : encodeFields r fs with
      | error f => rw [he] at h; exact returned_nil f value e h
      | ok em =>
        rw [he] at h
        simp only at h
        cases hr : r typeName with
        | error msg =>
          rw [hr] at h
          simp only [Returned.results.injEq] at h
          exact h.1.symm
        | ok id => rw [hr] at h; cases h
    | NilPointer => cases h
    | Pointer elem =>
      simp only [ReflectToCadenceReturned] at h
      rcases hg : ReflectToCadenceReturned elem r with ⟨v, _ | e1⟩ | m
      · rw [hg] at h; cases h
      · rw [hg] at h
        simp only [Returned.results.injEq] at h
        exact h.1.symm
      · rw [hg] at h; cases h
    | Map ps =>
      rw [Map_returned] at h
      cases he : encodePairs r ps with
      | error f => rw [he] at h; exact returned_nil f value e h
      | ok em => rw [he] at h; cases h
    | Slice xs =>
      rw [Slice_returned] at h
      cases he : encodeAll r xs with
      | error f => rw [he] at h; exact returned_nil f value e h
      | ok em => rw [he] at h; cases h
    | Array xs =>
      rw [Array_returned, Slice_returned] at h
      cases he : encodeAll r xs with
      | error f => rw [he] at h; exact returned_nil f value e h
      | ok em => rw [he] at h; cases h
    | Invalid => cases hx
    | Interface c => cases hx
    | Int k d v => cases hx
    | Bool d b => cases hx
    | String d s => cases hx
    | Float64 d c => cases hx
    | Unsupported k => cases hx

/-- A value of a kind the encoder has no case for is an error that names the
kind, and a value of a predeclared integer type or of the type `bool` is
encoded. -/
theorem supported_kinds (r : InputResolver) :
    (∀ kind : String, InputToCadence (.Unsupported kind) r =
      .error (.error ("Not supported type for now. Type : " ++ kind)))
    ∧ (∀ (k : IntKind) (v : Int), InputToCadence (.Int k false v) r = .ok (newInteger k v))
    ∧ (∀ b : Bool, InputToCadence (.Bool false b) r = .ok (.Bool b)) :=
  ⟨fun _ => rfl, fun _ _ => rfl, fun _ => rfl⟩

/-- C19: a value of a defined type of kind `bool` such as `type Flag bool` is a
value of one of the listed kinds, and the encoder does not succeed on it: it
panics in the type assertion `value.Interface().(bool)`, with every resolver;
so it does on a defined type of every integer kind. -/
theorem C19_defined_bool_panics (r : InputResolver) :
    InputToCadence (.Bool true true) r = .error assertionPanic
    ∧ (∀ b : Bool, InputToCadence (.Bool true b) r = .error assertionPanic)
    ∧ InputToCadence (.Int .uint64 true 1) r = .error assertionPanic :=
  ⟨rfl, fun _ => rfl, rfl⟩

theorem isHexDigit_ne_nul (c : Char) (h : isHexDigit c = true) : c.toNat ≠ 0 := by
  intro h0
  have hc : c = Char.ofNat 0 := by rw [← Char.ofNat_toNat c, h0]
  rw [hc] at h
  exact absurd h (by decide)

theorem lookupLast_cons_some (e : String × IValue) (es : List (String × IValue)) (k : String)
    (v : IValue) (h : lookupLast es k = some v) : lookupLast (e :: es) k = some v := by
  obtain ⟨k0, v0⟩ := e
  simp only [lookupLast, h]

theorem lookupLast_filter_at (p : String × IValue → Bool) :
    ∀ (es : List (String × IValue)) (i : Nat) (k : String) (v : IValue),
    es[i]? = some (k, v) → p (k, v) = true →
    (∀ j e, i < j → es[j]? = some e → e.1 ≠ k) →
    lookupLast (es.filter p) k = some v := by
  intro es
  induction es with
  | nil => intro i k v hi; simp at hi
  | cons e0 es ih =>
    intro i k v hi hp hlater
    cases i with
    | zero =>
      simp only [List.getElem?_cons_zero, Option.some.injEq] at hi
      subst hi
      rw [List.filter_cons_of_pos hp]
      have hnone : lookupLast (es.filter p) k = none := by
        apply lookupLast_eq_none
        intro e he
        obtain ⟨j, hj⟩ := List.getElem?_of_mem (List.mem_filter.1 he).1
        exact hlater (j + 1) e (Nat.succ_pos j) (by simpa using hj)
      simp only [lookupLast, hnone, if_true]
    | succ i =>
      have h := ih i k v (by simpa using hi) hp
        (fun j e hj he => hlater (j + 1) e (by omega) (by simpa using he))
      by_cases hp0 : p e0 = true
      · rw [List.filter_cons_of_pos hp0]
        exact lookupLast_cons_some e0 _ k v h
      · rw [List.filter_cons_of_neg hp0]
        exact h

/-- The map of a composite has, under a name, the value of a field declared
under that name that is kept, when no later field is declared under it. -/
theorem mapGet_fieldMap_at (opt : Options) (names : List Field) (vs : List IValue)
    (i : Nat) (f : Field) (v : IValue) (hf : names[i]? = some f) (hv : vs[i]? = some v)
    (hk : kept opt v = true)
    (hlater : ∀ j g, i < j → names[j]? = some g → g.Identifier ≠ f.Identifier) :
    mapGet (fieldMap opt names vs) f.Identifier = some v := by
  have hl : lookupLast (keptEntries opt ((names.map Field.Identifier).zip vs)) f.Identifier =
      some v := by
    apply lookupLast_filter_at (fun kv => kept opt kv.2) _ i f.Identifier v
    · rw [List.getElem?_zip_eq_some]
      exact ⟨by simp [hf], hv⟩
    · exact hk
    · intro j e hj he
      rw [List.getElem?_zip_eq_some] at he
      have h1 := he.1
      rw [List.getElem?_map] at h1
      cases hg : names[j]? with
      | none => rw [hg] at h1; cases h1
      | some g =>
        rw [hg] at h1
        simp only [Option.map_some', Option.some.injEq] at h1
        rw [← h1]
        exact hlater j g hj hg
  rw [fieldMap, mapGet_mapSetAll, hl]

theorem mapGet_ne_nil (m : List (String × IValue)) (k : String) (v : IValue)
    (h : mapGet m k = some v) : m.length ≠ 0 := by
  cases m with
  | nil => cases h
  | cons e m => simp

/-- C20, counterexample: a field with the tag `cadence:"-,cadenceAddress"`
carries the option and holds `0x01`, and the Struct does not declare it, as the
field is skipped before the option is looked at; the text `"\x0000"`, which is
no text of hexadecimal digits, normalizes to the empty text, so that the
encoding succeeds, with the address of 8 zero bytes; when a later field is
declared under the same name `bar`, the decoding of the encoded struct has the
value of that later field under `bar`, not the canonical form of the address;
and when a field before the one that holds `0xfoo` fails, the struct fails with
the error of that field, not with the error of the hexadecimal decoding. -/
theorem C20_counterexample :
    InputToCadence (.Struct "Foo"
        [({ Name := "Bar", Lower := "bar",
            Tag := .tags [{ Key := "cadence", Name := "-", Options := ["cadenceAddress"] }] },
          .String false "0x01")]) (fun _ => .ok "A.123.Foo") =
      .ok (.Struct { Location := none, QualifiedIdentifier := "A.123.Foo", Fields := [] } [])
    ∧ InputToCadence (.Struct "Foo"
        [({ Name := "Bar", Lower := "bar",
            Tag := .tags [{ Key := "cadence", Name := "bar", Options := ["cadenceAddress"] }] },
          .String false "\x0000")]) (fun _ => .ok "A.123.Foo") =
      .ok (.Struct { Location := none, QualifiedIdentifier := "A.123.Foo",
                     Fields := [{ Identifier := "bar", fieldType := "Address" }] }
            [.Address [0, 0, 0, 0, 0, 0, 0, 0]])
    ∧ (∃ c ∈ ("\x0000" : String).data, isHexDigit c = false)
    ∧ InputToCadence (.Struct "Foo"
        [({ Name := "Bar", Lower := "bar",
            Tag := .tags [{ Key := "cadence", Name := "bar", Options := ["cadenceAddress"] }] },
          .String false "0x01"),
         ({ Name := "Baz", Lower := "baz",
            Tag := .tags [{ Key := "cadence", Name := "bar", Options := [] }] },
          .String false "x")]) (fun _ => .ok "A.123.Foo") =
      .ok (.Struct { Location := none, QualifiedIdentifier := "A.123.Foo",
                     Fields := [{ Identifier := "bar", fieldType := "Address" },
                                { Identifier := "bar", fieldType := "String" }] }
            [.Address [0, 0, 0, 0, 0, 0, 0, 1], .String "x"])
    ∧ CadenceValueToInterface
        (.Struct { Location := none, QualifiedIdentifier := "A.123.Foo",
                   Fields := [{ Identifier := "bar", fieldType := "Address" },
                              { Identifier := "bar", fieldType := "String" }] }
          [.Address [0, 0, 0, 0, 0, 0, 0, 1], .String "x"]) =
      some (.map [("bar", .string "x")])
    ∧ InputToCadence (.Struct "Foo"
        [({ Name := "Ch", Lower := "ch", Tag := .tags [] }, .Unsupported "chan"),
         ({ Name := "Bar", Lower := "bar",
            Tag := .tags [{ Key := "cadence", Name := "bar", Options := ["cadenceAddress"] }] },
          .String false "0xfoo")]) (fun _ => .ok "A.123.Foo") =
      .error (.error "Not supported type for now. Type : chan")
    ∧ hexToAddress "0xfoo" = .error (.error "encoding/hex: invalid byte: o") := by
  refine ⟨by rfl, by rfl, by decide, by rfl, by rfl, by rfl, by rfl⟩

/-- C20, amended: take a field that is not skipped and whose tag carries the
option `cadenceAddress`, with a value of the type `string`, in any struct.
When the value is a text of at most 16 hexadecimal digits, with or without `0x`
before it, and the other fields do not fail and the resolver succeeds, the
Struct the encoder returns declares the field with the type Address and holds
the address the digits denote, at the position that is the number of the fields
before it that are not skipped; and when no later field is declared under the
same name, the decoding of that Struct, if it does not panic on another field,
has the canonical form, `0x` and 16 digits in lower case, under the name of the
field.  When the value has no NUL and, after the removal of one leading `0x`, a
character that is no hexadecimal digit, the encoding of the struct fails: with
the error of the hexadecimal decoding when the fields before it do not fail,
and otherwise with the failure of a field before it. -/
theorem C20_address_field (r : InputResolver) (typeName : String)
    (pre post : List (StructField × Native)) (field : StructField) (tags : List Tag)
    (ht : field.Tag = .tags tags) (hd : directiveName tags ≠ "-")
    (hc : IsTagCadecenAddress (chosenTag tags) = true) :
    (∀ digits h : String, (h = digits ∨ h = "0x" ++ digits) → digits.length ≤ 16 →
      (∀ c ∈ digits.data, isHexDigit c = true) →
      (∀ q ∈ pre, ∃ o, encodeField r q = .ok o) →
      (∀ q ∈ post, ∃ o, encodeField r q = .ok o) →
      ∀ id, r typeName = .ok id →
      ∃ (a : List Nat) (flds : List Field) (vals : List Value),
        hexToAddress digits = .ok a
        ∧ addressString a = canonicalForm digits
        ∧ InputToCadence (.Struct typeName (pre ++ (field, .String false h) :: post)) r =
            .ok (.Struct { Location := none, QualifiedIdentifier := id, Fields := flds } vals)
        ∧ flds.length = vals.length
        ∧ flds[(pre.filter notSkipped).length]? =
            some { Identifier := targetName field tags, fieldType := "Address" }
        ∧ vals[(pre.filter notSkipped).length]? = some (.Address a)
        ∧ ((∀ j g, (pre.filter notSkipped).length < j → flds[j]? = some g →
              g.Identifier ≠ targetName field tags) →
            ∀ ds, decodeEach defaultOptions vals = some ds →
            ∃ m, CadenceValueToInterface
                (.Struct { Location := none, QualifiedIdentifier := id, Fields := flds } vals) =
                some (.map m)
              ∧ mapGet m (targetName field tags) = some (.string (canonicalForm digits))))
    ∧ (∀ h : String, (∀ c ∈ h.data, c.toNat ≠ 0) →
        (∃ c ∈ TrimPrefix h.data "0x".data, isHexDigit c = false) →
        ∃ msg, hexToAddress h = .error (.error msg)
          ∧ (∃ e, InputToCadence (.Struct typeName (pre ++ (field, .String false h) :: post)) r =
                .error e
              ∧ (e = .error msg ∨ ∃ q ∈ pre, encodeField r q = .error e))
          ∧ ((∀ q ∈ pre, ∃ o, encodeField r q = .ok o) →
              InputToCadence (.Struct typeName (pre ++ (field, .String false h) :: post)) r =
                .error (.error msg))) := by
  have henc : ∀ h : String, (∀ c ∈ h.data, c.toNat ≠ 0) →
      encodeField r (field, .String false h) =
        match hexToAddress h with
        | .error err => .error err
        | .ok adr =>
          .ok (some (.Address adr,
            { Identifier := targetName field tags, fieldType := "Address" })) := by
    intro h h0
    rw [encodeField_eq r field (.String false h) (.String h) tags ht rfl (by intro e; cases e),
      if_neg hd, if_pos hc, getAndUnquoteString_String h h0]
  refine ⟨?_, ?_⟩
  · intro digits h hh h16 hdig hpre hpost id hr
    obtain ⟨a, h1, h2, -, h4⟩ := hexToAddress_digits digits h16 hdig
    have h0 : ∀ c ∈ h.data, c.toNat ≠ 0 := by
      intro c hcm
      rcases hh with e | e
      · rw [e] at hcm; exact isHexDigit_ne_nul c (hdig c hcm)
      · rw [e, String.data_append] at hcm
        rcases List.mem_append.1 hcm with hm | hm
        · have : c = '0' ∨ c = 'x' := by simpa using hm
          rcases this with e' | e' <;> rw [e'] <;> decide
        · exact isHexDigit_ne_nul c (hdig c hm)
    have ha : hexToAddress h = .ok a := by
      rcases hh with e | e
      · rw [e]; exact h1
      · rw [e]; exact h2
    have hf : encodeField r (field, .String false h) =
        .ok (some (.Address a,
          { Identifier := targetName field tags, fieldType := "Address" })) := by
      rw [henc h h0, ha]
    obtain ⟨flds, vals, hs, hlen, hfi, hvi⟩ :=
      Struct_field_at r typeName pre post (field, .String false h)
        (.Address a, { Identifier := targetName field tags, fieldType := "Address" }) id
        hpre hpost hf hr
    refine ⟨a, flds, vals, h1, h4, hs, hlen, hfi, hvi, ?_⟩
    intro hlater ds hds
    have hdi : ds[(pre.filter notSkipped).length]? = some (.string (canonicalForm digits)) := by
      rw [← decodeEach_getElem defaultOptions vals ds hds _ _ hvi]
      simp only [CadenceValueToInterfaceWithOption, h4]
    have hget := mapGet_fieldMap_at defaultOptions flds ds _
      { Identifier := targetName field tags, fieldType := "Address" }
      (.string (canonicalForm digits)) hfi hdi rfl hlater
    refine ⟨fieldMap defaultOptions flds ds, ?_, hget⟩
    rw [CadenceValueToInterface,
      decode_Struct defaultOptions _ vals ds hds (by simp only []; omega)]
    simp only []
    rw [if_neg (fun hz => mapGet_ne_nil _ _ _ hget hz.1), if_pos (by simp [defaultOptions])]
  · intro h h0 hbad
    obtain ⟨msg, hm⟩ := (hexToAddress_error_iff h).2 hbad
    have hf : encodeField r (field, .String false h) = .error (.error msg) := by
      rw [henc h h0, hm]
    obtain ⟨e, he⟩ := encodeFields_fails r (.error msg) (field, .String false h) post hf pre
    refine ⟨msg, hm, ⟨e, ?_, encodeFields_first_failure r _ post _ hf pre e he⟩, ?_⟩
    · rw [InputToCadence_Struct, he]
    · intro hpre
      rw [InputToCadence_Struct, encodeFields_error r _ _ post pre hpre hf]

theorem Unquote_no_quote (c : Char) (rest : List Char)
    (h1 : c ≠ '"') (h2 : c ≠ '\'') (h3 : c ≠ '`') : Unquote ⟨c :: rest⟩ = none := by
  unfold Unquote
  cases rest with
  | nil => rfl
  | cons d rest =>
    simp only
    cases splitAtQuote c (d :: rest) with
    | none => rfl
    | some p =>
      obtain ⟨content, after⟩ := p
      simp only
      rw [if_neg h3, if_neg (by simp [h1, h2])]

/-- A value whose rendering does not begin with a quote and has no backslash and
no NUL normalizes to its rendering. -/
theorem getAndUnquoteString_raw (v : Value) (r : List Char) (hr : valueChars v = some r)
    (hq : ∀ c rest, r = c :: rest → c ≠ '"' ∧ c ≠ '\'' ∧ c ≠ '`')
    (hb : ∀ c ∈ r, c ≠ '\\' ∧ c.toNat ≠ 0) : getAndUnquoteString v = some ⟨r⟩ := by
  have hv : valueString v = some ⟨r⟩ := by simp [valueString, hr]
  have hu : Unquote ⟨r⟩ = none := by
    cases hr' : r with
    | nil => rfl
    | cons c rest =>
      obtain ⟨h1, h2, h3⟩ := hq c rest hr'
      exact Unquote_no_quote c rest h1 h2 h3
  have hno : '\\' ∉ r := fun hm => (hb _ hm).1 rfl
  have h1 : stringsContains r "\\u".data = false := stringsContains_backslash _ _ hno
  have h2 : stringsContains r "\\U".data = false := stringsContains_backslash _ _ hno
  simp only [getAndUnquoteString, hv, hu, h1, h2, Bool.or_false, Bool.false_eq_true, if_false,
    stripNul_of_no_nul ⟨r⟩ (fun c hc => (hb c hc).2)]

theorem isDigit_plain (c : Char) (h : c.isDigit = true) :
    c ≠ '"' ∧ c ≠ '\'' ∧ c ≠ '`' ∧ c ≠ '\\' ∧ c.toNat ≠ 0 := by
  refine ⟨?_, ?_, ?_, ?_, ?_⟩ <;> intro e
  · rw [e] at h; exact absurd h (by decide)
  · rw [e] at h; exact absurd h (by decide)
  · rw [e] at h; exact absurd h (by decide)
  · rw [e] at h; exact absurd h (by decide)
  · have hc : c = Char.ofNat 0 := by rw [← Char.ofNat_toNat c, e]
    rw [hc] at h; exact absurd h (by decide)

/-- C22: under every options record a Capability decodes to the map with
exactly the two keys `address`, under which is the canonical string of its
address, and `id`, under which is its id, both as the decoder returns them; the
map is never pruned to null, and under `WrapWithComplexTypes` it is the single
value of an outer map with the key `<Capability<`, the identifier of the borrow
type, `>>`. -/
theorem C22_capability (opt : Options) (id : Nat) (address : List Nat) (borrowType : String) :
    CadenceValueToInterfaceWithOption (.Capability id address borrowType) opt =
      some (if opt.WrapWithComplexTypes = true then
          .map [("<Capability<" ++ borrowType ++ ">>",
            .map [("address", .string (addressString address)), ("id", .num .uint64 id)])]
        else .map [("address", .string (addressString address)), ("id", .num .uint64 id)])
    ∧ CadenceValueToInterfaceWithOption (.Address address) opt =
        some (.string (addressString address))
    ∧ CadenceValueToInterfaceWithOption (.UInt64 id) opt = some (.num .uint64 id)
    ∧ (∀ k v, mapGet [("address", .string (addressString address)), ("id", .num .uint64 id)] k =
          some v ↔
        (k = "address" ∧ v = .string (addressString address)) ∨
        (k = "id" ∧ v = .num .uint64 id))
    ∧ CadenceValueToInterfaceWithOption (.Capability id address borrowType) opt ≠ some .null := by
  have hdec : CadenceValueToInterfaceWithOption (.Capability id address borrowType) opt =
      some (if opt.WrapWithComplexTypes = true then
          .map [("<Capability<" ++ borrowType ++ ">>",
            .map [("address", .string (addressString address)), ("id", .num .uint64 id)])]
        else .map [("address", .string (addressString address)), ("id", .num .uint64 id)]) := by
    have hm : mapSet (mapSet [] "address" (.string (addressString address))) "id"
        (.num .uint64 id) =
        [("address", .string (addressString address)), ("id", .num .uint64 id)] := by
      simp [mapSet]
    simp only [CadenceValueToInterfaceWithOption, hm]
    cases opt.WrapWithComplexTypes <;> simp
  refine ⟨hdec, (capability_calls opt id address).1, (capability_calls opt id address).2, ?_, ?_⟩
  · intro k v
    simp only [mapGet]
    by_cases h1 : "address" = k
    · subst h1
      simp only [if_true, Option.some.injEq]
      constructor
      · intro h; exact Or.inl ⟨trivial, h.symm⟩
      · rintro (⟨-, h⟩ | ⟨h, -⟩)
        · exact h.symm
        · exact absurd h (by decide)
    · by_cases h2 : "id" = k
      · subst h2
        simp only [if_neg h1, if_true, Option.some.injEq]
        constructor
        · intro h; exact Or.inr ⟨trivial, h.symm⟩
        · rintro (⟨h, -⟩ | ⟨-, h⟩)
          · exact absurd h (by decide)
          · exact h.symm
      · simp only [if_neg h1, if_neg h2]
        constructor
        · intro h; cases h
        · rintro (⟨h, -⟩ | ⟨h, -⟩)
          · exact absurd h.symm h1
          · exact absurd h.symm h2
  · rw [hdec]
    intro h
    split_ifs at h <;> cases h

/-- C23: whenever the decoded value is null, the JSON entry point returns the
empty text and no error, not the text `null`: so for nil and `Optional(nil)`
under every options record, and under the default configuration for the empty
String, for an array of empty Strings, for a dictionary whose values are empty
and for a struct whose fields are empty. -/
theorem C23_null_is_empty_text (leaves : JsonLeaves) (v : Value) (opt : Options)
    (h : CadenceValueToInterfaceWithOption v opt = some .null) :
    CadenceValueToJsonStringWithOption leaves v opt = some (.ok "")
    ∧ CadenceValueToJsonStringWithOption leaves v opt ≠ some (.ok "null")
    ∧ CadenceValueToJsonStringWithOption leaves .nil opt = some (.ok "")
    ∧ CadenceValueToJsonStringWithOption leaves (.Optional .nil) opt = some (.ok "")
    ∧ CadenceValueToJsonString leaves (.String "") = some (.ok "")
    ∧ CadenceValueToJsonString leaves (.Array [.String ""]) = some (.ok "")
    ∧ CadenceValueToJsonString leaves (.Dictionary [(.String "foo", .String "")]) = some (.ok "")
    ∧ CadenceValueToJsonString leaves (.Struct
        { Location := none, QualifiedIdentifier := "Contract.Bar",
          Fields := [{ Identifier := "foo", fieldType := "String" }] } [.String ""]) =
        some (.ok "") := by
  have main : CadenceValueToJsonStringWithOption leaves v opt = some (.ok "") := by
    simp only [CadenceValueToJsonStringWithOption, h, IValue.isNil, if_true]
  refine ⟨main, ?_, by rfl, by rfl, by rfl, by rfl, by rfl, by rfl⟩
  rw [main]
  intro e
  have : ("" : String) = "null" := Except.ok.inj (Option.some.inj e)
  exact absurd this (by decide)

theorem flatten_replicate_four (n : Nat) :
    (List.replicate n [' ', ' ', ' ', ' ']).flatten = List.replicate (4 * n) ' ' := by
  induction n with
  | zero => rfl
  | succ n ih =>
    rw [List.replicate_succ, List.flatten_cons, ih]
    have : 4 * (n + 1) = 4 * n + 1 + 1 + 1 + 1 := by omega
    rw [this]
    rfl

theorem indentLines_four (first : Nat × List Char) (rest : List (Nat × List Char)) :
    indentLines [] "    ".data (first :: rest) =
      first.2 ++ rest.flatMap (fun line => '\n' :: (List.replicate (4 * line.1) ' ' ++ line.2)) := by
  simp only [indentLines, List.nil_append, flatten_replicate_four]

theorem mem_prependFirst (pre : List Char) (ls : List (Nat × List Char)) (l : Nat × List Char)
    (h : l ∈ prependFirst pre ls) : l ∈ ls ∨ ∃ t, (l.1, t) ∈ ls ∧ l.2 = pre ++ t := by
  cases ls with
  | nil => simp [prependFirst] at h
  | cons a rest =>
    obtain ⟨level, text⟩ := a
    simp only [prependFirst, List.mem_cons] at h
    rcases h with h | h
    · right
      exact ⟨text, by rw [h]; simp, by rw [h]⟩
    · left
      exact List.mem_cons_of_mem _ h

theorem mem_appendLast (suf : List Char) : ∀ (ls : List (Nat × List Char)) (l : Nat × List Char),
    l ∈ appendLast suf ls → l ∈ ls ∨ ∃ t, (l.1, t) ∈ ls ∧ l.2 = t ++ suf
  | [], l, h => by simp [appendLast] at h
  | [(level, text)], l, h => by
    simp only [appendLast, List.mem_singleton] at h
    right
    exact ⟨text, by rw [h]; simp, by rw [h]⟩
  | a :: b :: rest, l, h => by
    simp only [appendLast, List.mem_cons] at h
    rcases h with h | h
    · left
      rw [h]; simp
    · have h' : l ∈ appendLast suf (b :: rest) := by
        cases rest with
        | nil => exact h
        | cons c rest => exact h
      rcases mem_appendLast suf (b :: rest) l h' with h2 | ⟨t, h2, h3⟩
      · left
        exact List.mem_cons_of_mem _ h2
      · right
        exact ⟨t, List.mem_cons_of_mem _ h2, h3⟩

theorem lineText_append (t suf : List Char) (h : lineText t) (hs : '\n' ∉ suf) :
    lineText (t ++ suf) := by
  obtain ⟨h1, h2, h3⟩ := h
  refine ⟨by simp [h1], ?_, ?_⟩
  · cases t with
    | nil => exact absurd rfl h1
    | cons c t => simpa using h2
  · simp [h3, hs]

theorem lineText_prepend (pre t : List Char) (hp : lineText pre) (ht : '\n' ∉ t) :
    lineText (pre ++ t) := lineText_append pre t hp ht

theorem digitChar_no_break (n : Nat) (h : n < 16) : Nat.digitChar n ≠ '\n' := by
  interval_cases n <;> decide

theorem jsonEscape_no_break (c : Char) : '\n' ∉ jsonEscape c := by
  unfold jsonEscape
  split_ifs with h1 h2 h3 h4 h5 h6 h7
  · decide
  · decide
  · decide
  · decide
  · decide
  · simp only [hexByte, List.mem_cons, List.mem_singleton, List.not_mem_nil, or_false]
    rintro (h | h | h | h | h | h)
    · exact absurd h (by decide)
    · exact absurd h (by decide)
    · exact absurd h (by decide)
    · exact absurd h (by decide)
    · exact digitChar_no_break _ (Nat.mod_lt _ (by decide)) h.symm
    · exact digitChar_no_break _ (Nat.mod_lt _ (by decide)) h.symm
  · simp only [List.mem_cons, List.mem_singleton, List.not_mem_nil, or_false]
    rintro (h | h | h | h | h | h)
    · exact absurd h (by decide)
    · exact absurd h (by decide)
    · exact absurd h (by decide)
    · exact absurd h (by decide)
    · exact absurd h (by decide)
    · exact digitChar_no_break _ (Nat.mod_lt _ (by decide)) h.symm
  · simp only [List.mem_singleton]
    exact fun h => h3 h.symm

theorem jsonString_lineText (s : String) : lineText (jsonString s) := by
  refine ⟨by simp [jsonString], by simp [jsonString], ?_⟩
  simp only [jsonString, List.mem_cons, List.mem_append, List.mem_flatMap, List.mem_singleton,
    List.not_mem_nil, or_false]
  rintro (h | ⟨c, -, h⟩ | h)
  · exact absurd h (by decide)
  · exact jsonEscape_no_break c h
  · exact absurd h (by decide)

theorem natDigits_lineText (n : Nat) : lineText (natDigits n) ∧ natDigits n ≠ [] := by
  obtain ⟨-, hd, hne⟩ := natDigits_spec n
  refine ⟨⟨hne, ?_, ?_⟩, hne⟩
  · cases hn : natDigits n with
    | nil => simp
    | cons c cs =>
      have := hd c (by rw [hn]; simp)
      simp only [List.head?_cons, ne_eq, Option.some.injEq]
      intro e
      rw [e] at this; exact absurd this (by decide)
  · intro hm
    have := hd _ hm
    exact absurd this (by decide)

theorem intDigits_lineText (v : Int) : lineText (intDigits v) := by
  unfold intDigits
  obtain ⟨⟨h1, h2, h3⟩, -⟩ := natDigits_lineText v.natAbs
  split_ifs
  · refine ⟨by simp, by simp, ?_⟩
    simp only [List.mem_cons, not_or]
    exact ⟨by decide, h3⟩
  · exact ⟨h1, h2, h3⟩

theorem jsonElems_ok (leaves : JsonLeaves) (xs : List IValue)
    (hx : ∀ x ∈ xs, ∀ d lines, jsonLines leaves x d = .ok lines →
      ∀ l ∈ lines, lineText l.2 ∧ d ≤ l.1) :
    ∀ d lines, jsonElems leaves xs d = .ok lines → ∀ l ∈ lines, lineText l.2 ∧ d ≤ l.1 := by
  induction xs with
  | nil =>
    intro d lines h l hl
    simp only [jsonElems, Except.ok.injEq] at h
    rw [← h] at hl; cases hl
  | cons x rest ih =>
    intro d lines h l hl
    have ih := ih (fun y hy => hx y (by simp [hy])) d
    simp only [jsonElems] at h
    cases h1 : jsonLines leaves x d with
    | error e => rw [h1] at h; cases h
    | ok ls =>
      rw [h1] at h
      simp only at h
      cases h2 : jsonElems leaves rest d with
      | error e => rw [h2] at h; cases h
      | ok more =>
        rw [h2] at h
        simp only [Except.ok.injEq] at h
        have hls := hx x (by simp) d ls h1
        rw [← h] at hl
        rcases List.mem_append.1 hl with hm | hm
        · split_ifs at hm
          · exact hls l hm
          · rcases mem_appendLast _ _ _ hm with hm | ⟨t, hm, ht⟩
            · exact hls l hm
            · have := hls (l.1, t) hm
              exact ⟨by rw [ht]; exact lineText_append t _ this.1 (by decide), this.2⟩
        · exact ih more h2 l hm

theorem jsonEntries_ok (leaves : JsonLeaves) (es : List (String × IValue))
    (hx : ∀ e ∈ es, ∀ d lines, jsonLines leaves e.2 d = .ok lines →
      ∀ l ∈ lines, lineText l.2 ∧ d ≤ l.1) :
    ∀ d lines, jsonEntries leaves es d = .ok lines → ∀ l ∈ lines, lineText l.2 ∧ d ≤ l.1 := by
  induction es with
  | nil =>
    intro d lines h l hl
    simp only [jsonEntries, Except.ok.injEq] at h
    rw [← h] at hl; cases hl
  | cons e rest ih =>
    intro d lines h l hl
    obtain ⟨k, v⟩ := e
    have ih := ih (fun y hy => hx y (by simp [hy])) d
    simp only [jsonEntries] at h
    cases h1 : jsonLines leaves v d with
    | error e => rw [h1] at h; cases h
    | ok ls =>
      rw [h1] at h
      simp only at h
      cases h2 : jsonEntries leaves rest d with
      | error e => rw [h2] at h; cases h
      | ok more =>
        rw [h2] at h
        simp only [Except.ok.injEq] at h
        have hls := hx (k, v) (by simp) d ls h1
        have hkey : lineText (jsonString k ++ [':', ' ']) :=
          lineText_append _ _ (jsonString_lineText k) (by decide)
        have hpre : ∀ l ∈ prependFirst (jsonString k ++ [':', ' ']) ls,
            lineText l.2 ∧ d ≤ l.1 := by
          intro l hm
          rcases mem_prependFirst _ _ _ hm with hm | ⟨t, hm, ht⟩
          · exact hls l hm
          · have := hls (l.1, t) hm
            exact ⟨by rw [ht]; exact lineText_prepend _ t hkey this.1.2.2, this.2⟩
        rw [← h] at hl
        rcases List.mem_append.1 hl with hm | hm
        · split_ifs at hm
          · exact hpre l hm
          · rcases mem_appendLast _ _ _ hm with hm | ⟨t, hm, ht⟩
            · exact hpre l hm
            · have := hpre (l.1, t) hm
              exact ⟨by rw [ht]; exact lineText_append t _ this.1 (by decide), this.2⟩
        · exact ih more h2 l hm

theorem sizeOf_lt_of_mem_ientries (es : List (String × IValue)) (e : String × IValue)
    (h : e ∈ es) : sizeOf e.2 < sizeOf es := by
  have h1 := List.sizeOf_lt_of_mem h
  obtain ⟨k, v⟩ := e
  have h2 : sizeOf v < sizeOf (k, v) := by simp
  simp only at h2 ⊢
  omega

theorem jsonLines_ok_sized (leaves : JsonLeaves) (hok : leavesOk leaves) :
    ∀ (n : Nat) (r : IValue), sizeOf r ≤ n → ∀ d lines, jsonLines leaves r d = .ok lines →
      ∀ l ∈ lines, lineText l.2 ∧ d ≤ l.1 := by
  intro n
  induction n with
  | zero =>
    intro r hn
    cases r <;> simp at hn
  | succ n ih =>
    intro r hn d lines h l hl
    have one : ∀ t : List Char, lineText t → lines = [(d, t)] → lineText l.2 ∧ d ≤ l.1 := by
      intro t ht he
      rw [he] at hl
      simp only [List.mem_singleton] at hl
      rw [hl]
      exact ⟨ht, Nat.le_refl _⟩
    have bracket : ∀ (o c : Char) (inner : List (Nat × List Char)), o ≠ ' ' → o ≠ '\n' →
        c ≠ ' ' → c ≠ '\n' →
        (∀ l ∈ inner, lineText l.2 ∧ d + 1 ≤ l.1) →
        lines = (d, [o]) :: (inner ++ [(d, [c])]) → lineText l.2 ∧ d ≤ l.1 := by
      intro o c inner ho1 ho2 hc1 hc2 hin he
      rw [he] at hl
      simp only [List.mem_cons, List.mem_append, List.mem_singleton, List.not_mem_nil,
        or_false] at hl
      rcases hl with hl | hl | hl
      · rw [hl]
        exact ⟨⟨by simp, by simpa using ho1, by simpa using Ne.symm ho2⟩, Nat.le_refl _⟩
      · have := hin l hl
        exact ⟨this.1, by omega⟩
      · rw [hl]
        exact ⟨⟨by simp, by simpa using hc1, by simpa using Ne.symm hc2⟩, Nat.le_refl _⟩
    cases r with
    | null =>
      simp only [jsonLines, Except.ok.injEq] at h
      exact one _ ⟨by decide, by decide, by decide⟩ h.symm
    | bool b =>
      simp only [jsonLines, Except.ok.injEq] at h
      cases b
      · exact one _ ⟨by decide, by decide, by decide⟩ h.symm
      · exact one _ ⟨by decide, by decide, by decide⟩ h.symm
    | num k v =>
      simp only [jsonLines, Except.ok.injEq] at h
      exact one _ (intDigits_lineText v) h.symm
    | bigInt v =>
      simp only [jsonLines, Except.ok.injEq] at h
      exact one _ (intDigits_lineText v) h.symm
    | float64 dec =>
      simp only [jsonLines, Except.ok.injEq] at h
      exact one _ (hok.1 dec) h.symm
    | string s =>
      simp only [jsonLines, Except.ok.injEq] at h
      exact one _ (jsonString_lineText s) h.symm
    | other t =>
      simp only [jsonLines] at h
      exact hok.2 t d lines h l hl
    | list xs =>
      simp only [jsonLines] at h
      split_ifs at h
      · simp only [Except.ok.injEq] at h
        exact one _ ⟨by decide, by decide, by decide⟩ h.symm
      · cases h1 : jsonElems leaves xs (d + 1) with
        | error e => rw [h1] at h; cases h
        | ok inner =>
          rw [h1] at h
          simp only [Except.ok.injEq] at h
          have hin := jsonElems_ok leaves xs (fun x hxm =>
            ih x (by have := List.sizeOf_lt_of_mem hxm; simp at hn; omega)) (d + 1) inner h1
          exact bracket '[' ']' inner (by decide) (by decide) (by decide) (by decide) hin h.symm
    | map es =>
      simp only [jsonLines] at h
      split_ifs at h
      · simp only [Except.ok.injEq] at h
        exact one _ ⟨by decide, by decide, by decide⟩ h.symm
      · cases h1 : jsonEntries leaves es (d + 1) with
        | error e => rw [h1] at h; cases h
        | ok inner =>
          rw [h1] at h
          simp only [Except.ok.injEq] at h
          have hin := jsonEntries_ok leaves es (fun e hem =>
            ih e.2 (by have := sizeOf_lt_of_mem_ientries es e hem; simp at hn; omega))
            (d + 1) inner h1
          exact bracket '{' '}' inner (by decide) (by decide) (by decide) (by decide) hin h.symm

theorem decode_string_pair (k s : String) (hk : ∀ c ∈ k.data, c.toNat ≠ 0) (hk0 : k ≠ "")
    (hs : ∀ c ∈ s.data, c.toNat ≠ 0) (hs0 : s ≠ "") :
    CadenceValueToInterface (.Dictionary [(.String k, .String s)]) =
      some (.map [(k, .string s)]) := by
  simp [CadenceValueToInterface, CadenceValueToInterfaceWithOption, dictLoop,
    getAndUnquoteString_String k hk, getAndUnquoteString_String s hs, hk0, hs0, mapSet,
    IValue.isNil, defaultOptions]

/-- C24, counterexample: the dictionary `{"foo": "bar"}` of the tests is
rendered with four blanks before `"foo"`, not with two. -/
theorem C24_counterexample :
    CadenceValueToJsonString sampleLeaves (.Dictionary [(.String "foo", .String "bar")]) =
      some (.ok "\x7b\n    \"foo\": \"bar\"\n\x7d")
    ∧ ("\x7b\n    \"foo\": \"bar\"\n\x7d" : String) ≠ "\x7b\n  \"foo\": \"bar\"\n\x7d" := by
  refine ⟨by rfl, by decide⟩

/-- C24, amended: a decoded value that is not null is rendered as indented JSON
with four blanks for each nesting level: the text is the first line and then,
each on a new line, the other lines, each after exactly four blanks for each of
its nesting levels; the text of a line has no line break and does not begin with
a blank, when the texts of the leaves have none.  A map or list that is not
empty opens and closes on lines of level 0 and has its entries or elements on
lines of level 1 or more.  So a map of one entry whose value is a string is
rendered as the line of the opening brace, the line of four blanks followed by
the key, a colon, a blank and the value, and the line of the closing brace. -/
theorem C24_json_indentation (leaves : JsonLeaves) (v : Value) (opt : Options) (r : IValue)
    (lines : List (Nat × List Char))
    (hd : CadenceValueToInterfaceWithOption v opt = some r) (hr : r.isNil = false)
    (hl : jsonLines leaves (sortKeys r) 0 = .ok lines) :
    CadenceValueToJsonStringWithOption leaves v opt =
      some (.ok ⟨indentLines [] "    ".data lines⟩)
    ∧ (∀ first rest, lines = first :: rest →
        indentLines [] "    ".data lines =
          first.2 ++ rest.flatMap (fun line =>
            '\n' :: (List.replicate (4 * line.1) ' ' ++ line.2)))
    ∧ (leavesOk leaves → ∀ l ∈ lines, lineText l.2)
    ∧ (∀ es, sortKeys r = .map es → es ≠ [] →
        ∃ inner, lines = (0, ['{']) :: (inner ++ [(0, ['}'])]) ∧
          (leavesOk leaves → ∀ l ∈ inner, 1 ≤ l.1))
    ∧ (∀ xs, sortKeys r = .list xs → xs ≠ [] →
        ∃ inner, lines = (0, ['[']) :: (inner ++ [(0, [']'])]) ∧
          (leavesOk leaves → ∀ l ∈ inner, 1 ≤ l.1))
    ∧ (∀ k s : String, (∀ c ∈ k.data, c.toNat ≠ 0) → k ≠ "" → (∀ c ∈ s.data, c.toNat ≠ 0) →
        s ≠ "" →
        CadenceValueToJsonString leaves (.Dictionary [(.String k, .String s)]) =
          some (.ok ⟨'{' :: '\n' :: (List.replicate 4 ' ' ++
            (jsonString k ++ [':', ' '] ++ jsonString s)) ++ ['\n', '}']⟩))
    ∧ CadenceValueToJsonString leaves (.Dictionary [(.String "foo", .String "bar")]) =
        some (.ok "\x7b\n    \"foo\": \"bar\"\n\x7d") := by
  have hnil : ¬ (r.isNil = true) := by rw [hr]; decide
  refine ⟨?_, ?_, ?_, ?_, ?_, ?_, by rfl⟩
  · simp only [CadenceValueToJsonStringWithOption, hd, if_neg hnil, MarshalIndent, hl]
  · intro first rest he
    rw [he]
    exact indentLines_four first rest
  · intro hok l hlm
    exact (jsonLines_ok_sized leaves hok _ (sortKeys r) (Nat.le_refl _) 0 lines hl l hlm).1
  · intro es hes hne
    rw [hes] at hl
    simp only [jsonLines] at hl
    have : es.isEmpty = false := by cases es <;> simp_all
    rw [this] at hl
    simp only [Bool.false_eq_true, if_false] at hl
    cases h1 : jsonEntries leaves es (0 + 1) with
    | error e => rw [h1] at hl; cases hl
    | ok inner =>
      rw [h1] at hl
      simp only [Except.ok.injEq] at hl
      refine ⟨inner, hl.symm, ?_⟩
      intro hok l hlm
      have := jsonEntries_ok leaves es (fun e _ =>
        jsonLines_ok_sized leaves hok _ e.2 (Nat.le_refl _)) (0 + 1) inner h1 l hlm
      omega
  · intro xs hxs hne
    rw [hxs] at hl
    simp only [jsonLines] at hl
    have : xs.isEmpty = false := by cases xs <;> simp_all
    rw [this] at hl
    simp only [Bool.false_eq_true, if_false] at hl
    cases h1 : jsonElems leaves xs (0 + 1) with
    | error e => rw [h1] at hl; cases hl
    | ok inner =>
      rw [h1] at hl
      simp only [Except.ok.injEq] at hl
      refine ⟨inner, hl.symm, ?_⟩
      intro hok l hlm
      have := jsonElems_ok leaves xs (fun x _ =>
        jsonLines_ok_sized leaves hok _ x (Nat.le_refl _)) (0 + 1) inner h1 l hlm
      omega
  · intro k s hk hk0 hs hs0
    have hdec := decode_string_pair k s hk hk0 hs hs0
    unfold CadenceValueToInterface at hdec
    simp only [CadenceValueToJsonString, CadenceValueToJsonStringWithOption, hdec, IValue.isNil,
      MarshalIndent]
    rfl

theorem stripNul_no_nul (s : String) : ∀ c ∈ (stripNul s).data, c.toNat ≠ 0 := by
  intro c hc
  simp only [stripNul, List.mem_filter, decide_eq_true_eq] at hc
  exact hc.2

theorem getAndUnquoteString_no_nul (v : Value) (res : String)
    (h : getAndUnquoteString v = some res) : ∀ c ∈ res.data, c.toNat ≠ 0 := by
  unfold getAndUnquoteString at h
  cases hv : valueString v with
  | none => rw [hv] at h; cases h
  | some r =>
    rw [hv] at h
    simp only at h
    cases hu : Unquote r with
    | some s =>
      rw [hu] at h
      simp only [Option.some.injEq] at h
      rw [← h]; exact stripNul_no_nul s
    | none =>
      rw [hu] at h
      simp only at h
      split_ifs at h
      · cases hg : ToGoValue v with
        | string p =>
          rw [hg] at h
          simp only [Option.some.injEq] at h
          rw [← h]; exact stripNul_no_nul p
        | _ => rw [hg] at h; cases h
      · simp only [Option.some.injEq] at h
        rw [← h]; exact stripNul_no_nul r

/-- C25: let `r` be the rendering of the value `v`.  When `r` is a quoted string
literal that denotes `s`, the normalizer returns `s` without its NULs;
otherwise, when `r` holds the marker `\u` or `\U`, it returns the Go string `p`
of `v` without its NULs; otherwise it returns `r` without its NULs.  No result
holds a NUL.  A String without NUL, as the emoji `"😁"`, normalizes to itself,
and the emoji decodes to itself as a value and as the key of a dictionary. -/
theorem C25_normalizer_chain (v : Value) (r : String) (hr : valueString v = some r) :
    (∀ s, Unquote r = some s → getAndUnquoteString v = some (stripNul s))
    ∧ (Unquote r = none →
        (stringsContains r.data "\\u".data || stringsContains r.data "\\U".data) = true →
        ∀ p, ToGoValue v = .string p → getAndUnquoteString v = some (stripNul p))
    ∧ (Unquote r = none →
        (stringsContains r.data "\\u".data || stringsContains r.data "\\U".data) = false →
        getAndUnquoteString v = some (stripNul r))
    ∧ (∀ s : String, (stripNul s).data = s.data.filter (fun c => c.toNat ≠ 0))
    ∧ (∀ res, getAndUnquoteString v = some res → ∀ c ∈ res.data, c.toNat ≠ 0)
    ∧ (∀ s : String, (∀ c ∈ s.data, c.toNat ≠ 0) → getAndUnquoteString (.String s) = some s)
    ∧ CadenceValueToInterface (.String "😁") = some (.string "😁")
    ∧ CadenceValueToInterface (.Dictionary [(.String "😁", .String "😁")]) =
        some (.map [("😁", .string "😁")]) := by
  refine ⟨?_, ?_, ?_, fun _ => rfl, getAndUnquoteString_no_nul v, getAndUnquoteString_String,
    by rfl, by rfl⟩
  · intro s hs
    simp only [getAndUnquoteString, hr, hs]
  · intro hu hc p hp
    simp only [getAndUnquoteString, hr, hu, hc, if_true, hp]
  · intro hu hc
    simp only [getAndUnquoteString, hr, hu, hc, Bool.false_eq_true, if_false]

theorem extract_otherVariant (v : Value) (h : otherVariant v = true) :
    ExtractAddresses v = some (.slice []) := by
  cases v <;> first | rfl | cases h

theorem extractValues_skip (l : Value) (hl : ExtractAddresses l = some (.slice []))
    (post : List Value) : ∀ (pre : List Value) (acc : List String),
    extractValues (pre ++ l :: post) acc = extractValues (pre ++ post) acc := by
  intro pre
  induction pre with
  | nil =>
    intro acc
    simp only [List.nil_append, extractValues, hl]
    rw [if_pos (by intro e; cases e)]
    simp [StringSlice.elems]
  | cons x pre ih =>
    intro acc
    rw [List.cons_append, List.cons_append]
    simp only [extractValues]
    cases ExtractAddresses x with
    | none => rfl
    | some value =>
      simp only
      split_ifs <;> exact ih _

theorem extractPairs_skip_some (k l : Value) (key : String)
    (hl : ExtractAddresses l = some (.slice [])) (hk : getAndUnquoteString k = some key)
    (post : List (Value × Value)) : ∀ (pre : List (Value × Value)) (acc : List String),
    extractPairs (pre ++ (k, l) :: post) acc = extractPairs (pre ++ post) acc := by
  intro pre
  induction pre with
  | nil =>
    intro acc
    simp only [List.nil_append, extractPairs, hl, hk]
    split_ifs <;> simp [StringSlice.elems]
  | cons p pre ih =>
    intro acc
    obtain ⟨pk, pv⟩ := p
    rw [List.cons_append, List.cons_append]
    simp only [extractPairs]
    cases ExtractAddresses pv with
    | none => rfl
    | some value =>
      simp only
      cases getAndUnquoteString pk with
      | none => rfl
      | some key =>
        simp only
        split_ifs <;> exact ih _

theorem extractPairs_skip_none (k l : Value)
    (hl : ExtractAddresses l = some (.slice [])) (hk : getAndUnquoteString k = none)
    (post : List (Value × Value)) : ∀ (pre : List (Value × Value)) (acc : List String),
    extractPairs (pre ++ (k, l) :: post) acc = none := by
  intro pre
  induction pre with
  | nil =>
    intro acc
    simp only [List.nil_append, extractPairs, hl, hk]
  | cons p pre ih =>
    intro acc
    obtain ⟨pk, pv⟩ := p
    rw [List.cons_append]
    simp only [extractPairs]
    cases ExtractAddresses pv with
    | none => rfl
    | some value =>
      simp only
      cases getAndUnquoteString pk with
      | none => rfl
      | some key =>
        simp only
        split_ifs <;> exact ih _

/-- C26: on a value of a variant that is not nil, an Optional, an Array, a
Struct, a Dictionary or an Address, `ExtractAddresses` returns a slice without
elements, also when the value is a Resource, an Event or a Capability that
holds addresses.  Such a value in an Array or among the fields of a Struct can
be taken away without a change of the result, and so can a pair of a Dictionary
with such a value, whenever the string normalizer accepts the key of the pair
(on another key the whole call panics). -/
theorem C26_other_variants (l : Value) (hl : otherVariant l = true) :
    ExtractAddresses l = some (.slice [])
    ∧ (∀ pre post : List Value,
        ExtractAddresses (.Array (pre ++ l :: post)) = ExtractAddresses (.Array (pre ++ post)))
    ∧ (∀ (t : CompositeType) (pre post : List Value),
        ExtractAddresses (.Struct t (pre ++ l :: post)) =
          ExtractAddresses (.Struct t (pre ++ post)))
    ∧ (∀ (k : Value) (pre post : List (Value × Value)),
        ExtractAddresses (.Dictionary (pre ++ (k, l) :: post)) =
          if (getAndUnquoteString k).isSome = true then
            ExtractAddresses (.Dictionary (pre ++ post))
          else none)
    ∧ (∀ (t : CompositeType) (a : List Nat),
        ExtractAddresses (.Resource t [.Address a]) = some (.slice []) ∧
        ExtractAddresses (.Event t [.Address a]) = some (.slice []))
    ∧ (∀ (id : Nat) (a : List Nat) (b : String),
        ExtractAddresses (.Capability id a b) = some (.slice [])) := by
  have h := extract_otherVariant l hl
  refine ⟨h, ?_, ?_, ?_, fun _ _ => ⟨rfl, rfl⟩, fun _ _ _ => rfl⟩
  · intro pre post
    simp only [ExtractAddresses, extractValues_skip l h post pre []]
  · intro t pre post
    simp only [ExtractAddresses, extractValues_skip l h post pre []]
  · intro k pre post
    cases hk : getAndUnquoteString k with
    | none =>
      simp only [ExtractAddresses, extractPairs_skip_none k l h hk post pre []]
      rfl
    | some key =>
      simp only [ExtractAddresses, extractPairs_skip_some k l key h hk post pre []]
      rfl

/-- When a field fails, the resolver is not called with the name of the type
of the struct: the calls are those made for the fields. -/
theorem Struct_calls_error (r : InputResolver) (typeName : String)
    (fs : List (StructField × Native)) (calls : List String) (e : Failure)
    (h : encodeFields r fs = .error e) :
    (ReflectToCadence (.Struct typeName fs) r calls).2 = (structFields fs r calls [] []).2 := by
  have hr := structFields_result r fs calls [] []
  rw [h] at hr
  simp only [ReflectToCadence]
  rcases hs : structFields fs r calls [] [] with ⟨_ | ⟨val, flds⟩, c⟩
  · rfl
  · rw [hs] at hr; cases hr

/-- C27, counterexample: in a struct whose first field is a channel and whose
second field, with the tag name `-`, is a `float32`, the failure is that of the
first field, not that of the skipped field. -/
theorem C27_counterexample :
    InputToCadence (.Struct "T"
        [({ Name := "A", Lower := "a", Tag := .tags [] }, .Unsupported "chan"),
         ({ Name := "B", Lower := "b", Tag := .tags [{ Key := "cadence", Name := "-", Options := [] }] },
           .Unsupported "float32")]) (fun _ => .ok "A.123.T") =
      .error (.error "Not supported type for now. Type : chan")
    ∧ InputToCadence (.Unsupported "float32") (fun _ => .ok "A.123.T") =
      .error (.error "Not supported type for now. Type : float32")
    ∧ Failure.error "Not supported type for now. Type : chan" ≠
      Failure.error "Not supported type for now. Type : float32" := by
  refine ⟨by rfl, by rfl, by decide⟩

/-- C27, amended: take a struct with a field whose tag has the name `-` and
whose value the encoder fails on.  The value of the field is encoded before its
tag is looked at, so the struct fails, and the resolver is not called with the
name of the type of the struct: the calls made are those made for the fields.
The failure of the struct is that of the field when the fields before it do not
fail, and otherwise that of a field before it.  Had the value been encoded, the
field would have been skipped. -/
theorem C27_skipped_field_is_encoded (r : InputResolver) (typeName : String)
    (pre post : List (StructField × Native)) (field : StructField) (x : Native)
    (tags : List Tag) (err : Failure)
    (ht : field.Tag = .tags tags) (hs : directiveName tags = "-")
    (hx : InputToCadence x r = .error err) :
    encodeField r (field, x) = .error err
    ∧ (∃ e, InputToCadence (.Struct typeName (pre ++ (field, x) :: post)) r = .error e ∧
        (e = err ∨ ∃ q ∈ pre, encodeField r q = .error e))
    ∧ (∀ calls, (ReflectToCadence (.Struct typeName (pre ++ (field, x) :: post)) r calls).2 =
        (structFields (pre ++ (field, x) :: post) r calls [] []).2)
    ∧ ((∀ q ∈ pre, ∃ o, encodeField r q = .ok o) →
        InputToCadence (.Struct typeName (pre ++ (field, x) :: post)) r = .error err)
    ∧ (∀ cv : Value, cv ≠ .nil → fieldStep field cv = .ok none)
    ∧ notSkipped (field, x) = false := by
  have hf : encodeField r (field, x) = .error err := by
    simp only [encodeField, hx]
  obtain ⟨e, he⟩ := encodeFields_fails r err (field, x) post hf pre
  refine ⟨hf, ⟨e, ?_, encodeFields_first_failure r (field, x) post err hf pre e he⟩, ?_, ?_, ?_, ?_⟩
  · rw [InputToCadence_Struct, he]
  · intro calls
    exact Struct_calls_error r typeName _ calls e he
  · intro hpre
    rw [InputToCadence_Struct, encodeFields_error r err (field, x) post pre hpre hf]
  · intro cv hnil
    rw [fieldStep_eq field cv hnil, ht]
    simp only [hs, if_true]
  · simp [notSkipped, ht, hs]

theorem cleanList_iff (xs : List IValue) :
    cleanList xs = true ↔ ∀ x ∈ xs, clean x = true := by
  induction xs with
  | nil => simp [cleanList]
  | cons x xs ih => simp [cleanList, ih]

theorem cleanEntries_iff (es : List (String × IValue)) :
    cleanEntries es = true ↔ ∀ e ∈ es, clean e.2 = true := by
  induction es with
  | nil => simp [cleanEntries]
  | cons e es ih =>
    obtain ⟨k, v⟩ := e
    simp [cleanEntries, ih]

theorem builtFromList_iff (xs : List Value) :
    builtFromList xs = true ↔ ∀ x ∈ xs, builtFrom x = true := by
  induction xs with
  | nil => simp [builtFromList]
  | cons x xs ih => simp [builtFromList, ih]

theorem builtFromPairs_iff (ps : List (Value × Value)) :
    builtFromPairs ps = true ↔
      ∀ p ∈ ps, (getAndUnquoteString p.1).isSome = true ∧ builtFrom p.2 = true := by
  induction ps with
  | nil => simp [builtFromPairs]
  | cons p ps ih =>
    obtain ⟨k, v⟩ := p
    simp [builtFromPairs, ih, and_assoc]

theorem mem_mapSet (m : List (String × IValue)) (k : String) (v : IValue)
    (e : String × IValue) (h : e ∈ mapSet m k v) : e = (k, v) ∨ e ∈ m := by
  induction m with
  | nil => simp [mapSet] at h; exact Or.inl h
  | cons e0 m ih =>
    obtain ⟨k0, v0⟩ := e0
    simp only [mapSet] at h
    split_ifs at h
    · rcases List.mem_cons.1 h with h | h
      · exact Or.inl h
      · exact Or.inr (List.mem_cons_of_mem _ h)
    · rcases List.mem_cons.1 h with h | h
      · exact Or.inr (by rw [h]; simp)
      · rcases ih h with h | h
        · exact Or.inl h
        · exact Or.inr (List.mem_cons_of_mem _ h)

theorem mem_mapSetAll (es m : List (String × IValue)) (e : String × IValue)
    (h : e ∈ mapSetAll m es) : e ∈ m ∨ e ∈ es := by
  induction es generalizing m with
  | nil => exact Or.inl (by simpa [mapSetAll] using h)
  | cons e0 es ih =>
    rw [mapSetAll_cons] at h
    rcases ih _ h with h | h
    · rcases mem_mapSet _ _ _ _ h with h | h
      · exact Or.inr (by rw [h]; simp)
      · exact Or.inl h
    · exact Or.inr (List.mem_cons_of_mem _ h)

theorem decodeEach_mem (opt : Options) (items : List Value) (vs : List IValue)
    (h : decodeEach opt items = some vs) :
    ∀ x ∈ vs, ∃ item ∈ items, CadenceValueToInterfaceWithOption item opt = some x := by
  induction items generalizing vs with
  | nil =>
    simp only [decodeEach, Option.some.injEq] at h
    rw [← h]; simp
  | cons y ys ih =>
    simp only [decodeEach] at h
    cases hy : CadenceValueToInterfaceWithOption y opt with
    | none => rw [hy] at h; cases h
    | some v =>
      rw [hy] at h
      simp only at h
      cases hs : decodeEach opt ys with
      | none => rw [hs] at h; cases h
      | some ws =>
        rw [hs] at h
        simp only [Option.some.injEq] at h
        rw [← h]
        intro x hx
        rcases List.mem_cons.1 hx with e | e
        · exact ⟨y, by simp, by rw [e]; exact hy⟩
        · obtain ⟨item, hi, hd⟩ := ih ws hs x e
          exact ⟨item, List.mem_cons_of_mem _ hi, hd⟩

theorem kept_default (v : IValue) : kept defaultOptions v = true ↔ v.isNil = false := by
  simp [kept, defaultOptions]

theorem clean_of_kept (v : IValue) (h : v = .null ∨ clean v = true)
    (hk : kept defaultOptions v = true) : clean v = true := by
  rcases h with h | h
  · rw [h] at hk; exact absurd hk (by decide)
  · exact h

theorem clean_sized : ∀ (n : Nat) (v : Value), sizeOf v ≤ n → builtFrom v = true →
    ∃ r, CadenceValueToInterface v = some r ∧ (r = .null ∨ clean r = true) := by
  intro n
  induction n with
  | zero =>
    intro v hn
    cases v <;> simp at hn
  | succ n ih =>
    intro v hn hb
    have hlist : ∀ xs : List Value, sizeOf xs ≤ n → builtFromList xs = true →
        ∃ vs, decodeEach defaultOptions xs = some vs ∧
          ∀ x ∈ vs, x = .null ∨ clean x = true := by
      intro xs hs hx
      have hall : ∀ x ∈ xs, ∃ r, CadenceValueToInterface x = some r ∧
          (r = .null ∨ clean r = true) := fun x hxm =>
        ih x (by have := List.sizeOf_lt_of_mem hxm; omega) ((builtFromList_iff xs).1 hx x hxm)
      obtain ⟨vs, hvs⟩ := decodeEach_of_forall defaultOptions xs
        (fun x hxm => let ⟨r, hr, _⟩ := hall x hxm; ⟨r, hr⟩)
      refine ⟨vs, hvs, ?_⟩
      intro x hxv
      obtain ⟨item, hi, hd⟩ := decodeEach_mem defaultOptions xs vs hvs x hxv
      obtain ⟨r, hr, hc⟩ := hall item hi
      have : r = x := Option.some.inj (hr.symm.trans hd)
      rw [← this]; exact hc
    cases v with
    | nil => exact ⟨.null, rfl, Or.inl rfl⟩
    | Optional v =>
      simp only [builtFrom] at hb
      obtain ⟨r, hr, hc⟩ := ih v (by simp at hn; omega) hb
      exact ⟨r, by simpa [CadenceValueToInterface, CadenceValueToInterfaceWithOption] using hr, hc⟩
    | String s =>
      obtain ⟨value, hv⟩ := getAndUnquoteString_String_isSome s
      simp only [CadenceValueToInterface, CadenceValueToInterfaceWithOption, hv]
      by_cases he : value = ""
      · exact ⟨.null, by simp [he, defaultOptions], Or.inl rfl⟩
      · exact ⟨.string value, by simp [he], Or.inr (by simp [clean, he])⟩
    | Address a =>
      refine ⟨.string (addressString a), rfl, Or.inr ?_⟩
      have : addressString a ≠ "" := by
        intro e
        have := congrArg String.length e
        simp [addressString, String.length] at this
      simp [clean, this]
    | Array values =>
      simp only [builtFrom] at hb
      obtain ⟨vs, hvs, hcl⟩ := hlist values (by simp at hn; omega) hb
      rw [CadenceValueToInterface, decode_Array, hvs]
      simp only [Option.map_some']
      split_ifs with hc
      · exact ⟨.null, rfl, Or.inl rfl⟩
      · refine ⟨_, rfl, Or.inr ?_⟩
        have hne : vs.filter (kept defaultOptions) ≠ [] := by
          intro e
          exact hc ⟨by rw [e]; rfl, by simp [defaultOptions]⟩
        have hall : cleanList (vs.filter (kept defaultOptions)) = true := by
          rw [cleanList_iff]
          intro x hx
          obtain ⟨hxm, hk⟩ := List.mem_filter.1 hx
          exact clean_of_kept x (hcl x hxm) hk
        cases hf : vs.filter (kept defaultOptions) with
        | nil => exact absurd hf hne
        | cons y ys =>
          rw [hf] at hall
          simp [clean, hall]
    | Dictionary pairs =>
      simp only [builtFrom] at hb
      have hp := (builtFromPairs_iff pairs).1 hb
      have hdec : ∀ p ∈ pairs, ∃ r, CadenceValueToInterface p.2 = some r ∧
          (r = .null ∨ clean r = true) := fun p hpm =>
        ih p.2 (by have := sizeOf_lt_of_mem_pairs pairs p hpm; simp at hn; omega) (hp p hpm).2
      obtain ⟨es, hes, -, hmem⟩ := dictEntries_spec defaultOptions pairs
        (fun p hpm => Option.isSome_iff_exists.1 (hp p hpm).1)
        (fun p hpm => let ⟨r, hr, _⟩ := hdec p hpm; ⟨r, hr⟩)
      rw [CadenceValueToInterface, decode_Dictionary, hes]
      simp only [Option.map_some']
      split_ifs with hc
      · exact ⟨.null, rfl, Or.inl rfl⟩
      · refine ⟨_, rfl, Or.inr ?_⟩
        have hne : mapSetAll [] (keptEntries defaultOptions (nonEmptyKeys es)) ≠ [] := by
          intro e
          exact hc ⟨by rw [e]; rfl, by simp [defaultOptions]⟩
        have hall : cleanEntries (mapSetAll [] (keptEntries defaultOptions (nonEmptyKeys es))) =
            true := by
          rw [cleanEntries_iff]
          intro e he
          rcases mem_mapSetAll _ _ e he with h | h
          · cases h
          · obtain ⟨hm, hk⟩ := List.mem_filter.1 h
            have hm2 : e ∈ es := (List.mem_filter.1 hm).1
            obtain ⟨p, hpm, -, hd⟩ := (hmem e.1 e.2).1 hm2
            obtain ⟨r, hr, hcl⟩ := hdec p hpm
            have : r = e.2 := Option.some.inj (hr.symm.trans hd)
            rw [← this] at hk ⊢
            exact clean_of_kept r hcl hk
        cases hf : mapSetAll [] (keptEntries defaultOptions (nonEmptyKeys es)) with
        | nil => exact absurd hf hne
        | cons y ys =>
          rw [hf] at hall
          simp [clean, hall]
    | Struct t fields =>
      simp only [builtFrom, Bool.and_eq_true, decide_eq_true_eq] at hb
      obtain ⟨vs, hvs, hcl⟩ := hlist fields (by simp at hn; omega) hb.2
      rw [CadenceValueToInterface, decode_Struct defaultOptions t fields vs hvs (le_of_eq hb.1)]
      split_ifs with hc hw
      · exact ⟨.null, rfl, Or.inl rfl⟩
      · exact absurd hw (by decide)
      · refine ⟨_, rfl, Or.inr ?_⟩
        have hne : fieldMap defaultOptions t.Fields vs ≠ [] := by
          intro e
          exact hc ⟨by rw [e]; rfl, by simp [defaultOptions]⟩
        have hall : cleanEntries (fieldMap defaultOptions t.Fields vs) = true := by
          rw [cleanEntries_iff]
          intro e he
          rcases mem_mapSetAll _ _ e he with h | h
          · cases h
          · obtain ⟨hm, hk⟩ := List.mem_filter.1 h
            have hv : e.2 ∈ vs := (List.of_mem_zip hm).2
            exact clean_of_kept e.2 (hcl e.2 hv) hk
        cases hf : fieldMap defaultOptions t.Fields vs with
        | nil => exact absurd hf hne
        | cons y ys =>
          rw [hf] at hall
          simp [clean, hall]
    | Bool b => exact ⟨_, rfl, Or.inr rfl⟩
    | Int8 v => exact ⟨_, rfl, Or.inr rfl⟩
    | Int16 v => exact ⟨_, rfl, Or.inr rfl⟩
    | Int32 v => exact ⟨_, rfl, Or.inr rfl⟩
    | Int64 v => exact ⟨_, rfl, Or.inr rfl⟩
    | UInt8 v => exact ⟨_, rfl, Or.inr rfl⟩
    | UInt16 v => exact ⟨_, rfl, Or.inr rfl⟩
    | UInt32 v => exact ⟨_, rfl, Or.inr rfl⟩
    | UInt64 v => exact ⟨_, rfl, Or.inr rfl⟩
    | _ => simp [builtFrom] at hb

theorem intDigits_plain (v : Int) :
    (∀ c rest, intDigits v = c :: rest → c ≠ '"' ∧ c ≠ '\'' ∧ c ≠ '`') ∧
    (∀ c ∈ intDigits v, c ≠ '\\' ∧ c.toNat ≠ 0) := by
  obtain ⟨-, hd, -⟩ := natDigits_spec v.natAbs
  have hall : ∀ c ∈ intDigits v, c = '-' ∨ c.isDigit = true := by
    intro c hc
    unfold intDigits at hc
    split_ifs at hc
    · rcases List.mem_cons.1 hc with e | e
      · exact Or.inl e
      · exact Or.inr (hd c e)
    · exact Or.inr (hd c hc)
  have hp : ∀ c ∈ intDigits v, c ≠ '"' ∧ c ≠ '\'' ∧ c ≠ '`' ∧ c ≠ '\\' ∧ c.toNat ≠ 0 := by
    intro c hc
    rcases hall c hc with e | e
    · rw [e]; decide
    · exact isDigit_plain c e
  refine ⟨?_, fun c hc => ⟨(hp c hc).2.2.2.1, (hp c hc).2.2.2.2⟩⟩
  intro c rest hr
  have := hp c (by rw [hr]; simp)
  exact ⟨this.1, this.2.1, this.2.2.1⟩

/-- The string normalizer accepts every key that is a String, an Address, a
Bool or an integer of fixed width. -/
theorem primitive_keys_accepted :
    (∀ s : String, (getAndUnquoteString (.String s)).isSome = true)
    ∧ (∀ a : List Nat, (getAndUnquoteString (.Address a)).isSome = true)
    ∧ (∀ b : Bool, (getAndUnquoteString (.Bool b)).isSome = true)
    ∧ (∀ v : Int, (getAndUnquoteString (.Int8 v)).isSome = true ∧
        (getAndUnquoteString (.Int16 v)).isSome = true ∧
        (getAndUnquoteString (.Int32 v)).isSome = true ∧
        (getAndUnquoteString (.Int64 v)).isSome = true)
    ∧ (∀ n : Nat, (getAndUnquoteString (.UInt8 n)).isSome = true ∧
        (getAndUnquoteString (.UInt16 n)).isSome = true ∧
        (getAndUnquoteString (.UInt32 n)).isSome = true ∧
        (getAndUnquoteString (.UInt64 n)).isSome = true) := by
  have hint : ∀ (k : Value) (v : Int), valueChars k = some (intDigits v) →
      (getAndUnquoteString k).isSome = true := by
    intro k v hk
    rw [getAndUnquoteString_raw k (intDigits v) hk (intDigits_plain v).1 (intDigits_plain v).2]
    rfl
  have hnat : ∀ (k : Value) (n : Nat), valueChars k = some (natDigits n) →
      (getAndUnquoteString k).isSome = true := by
    intro k n hk
    obtain ⟨-, hd, -⟩ := natDigits_spec n
    rw [getAndUnquoteString_raw k (natDigits n) hk
      (fun c rest hr => by
        have := isDigit_plain c (hd c (by rw [hr]; simp))
        exact ⟨this.1, this.2.1, this.2.2.1⟩)
      (fun c hc => by
        have := isDigit_plain c (hd c hc)
        exact ⟨this.2.2.2.1, this.2.2.2.2⟩)]
    rfl
  refine ⟨?_, ?_, ?_, ?_, ?_⟩
  · intro s
    obtain ⟨r, hr⟩ := getAndUnquoteString_String_isSome s
    rw [hr]; rfl
  · intro a
    rw [getAndUnquoteString_Address]; rfl
  · intro b
    cases b <;> decide
  · intro v
    exact ⟨hint _ v (by simp only [valueChars]), hint _ v (by simp only [valueChars]),
      hint _ v (by simp only [valueChars]), hint _ v (by simp only [valueChars])⟩
  · intro n
    exact ⟨hnat _ n (by simp only [valueChars]), hnat _ n (by simp only [valueChars]),
      hnat _ n (by simp only [valueChars]), hnat _ n (by simp only [valueChars])⟩

/-- Under the default configuration the decoder returns, on every value built
from nil, Optional, String, Address, Bool, the integers of fixed width, Array,
Dictionary and Struct whose structs have as many values as declared fields and
whose dictionary keys the string normalizer accepts, either null or a value
that holds, at every depth, no null element of a list, no null value of a map,
no empty string, no empty list and no empty map. -/
theorem default_decoding_clean (v : Value) (h : builtFrom v = true) :
    ∃ r, CadenceValueToInterface v = some r ∧ (r = .null ∨ clean r = true) :=
  clean_sized (sizeOf v) v (Nat.le_refl _) h

/-- C28: the dictionary under the key `a` is built from Dictionary, Array and
String, and its key `["😁"]` is an Array whose rendering holds `\u`: the string
normalizer panics on it in the type assertion `value.ToGoValue().(string)`, so
the decoder returns no value for the whole, neither null nor a value without
empty parts. -/
theorem C28_decoder_panics_inside :
    CadenceValueToInterface
      (.Dictionary [(.String "a", .Dictionary [(.Array [.String "😁"], .String "x")])]) = none
    ∧ getAndUnquoteString (.Array [.String "😁"]) = none := by
  refine ⟨by rfl, by rfl⟩

/-! ## Instances at the values of the tests -/

/-- Witness of C3 at the dictionary `{"foo": "bar"}` of the tests and at the
key `UInt64(42)`. -/
theorem C3_dictionary_default_witness :
    (∃ r, CadenceValueToInterface (.Dictionary [(.String "foo", .String "bar")]) = some r ∧
      r.hasEntry "foo" (.string "bar"))
    ∧ CadenceValueToInterface (.Dictionary [(.UInt64 42, .String "")]) = some .null := by
  constructor
  · obtain ⟨r, hr, hiff, -⟩ := C3_dictionary_default.1 [(.String "foo", .String "bar")]
      (by intro p hp; simp only [List.mem_singleton] at hp; subst hp; exact ⟨"foo", by decide⟩)
      (by simp)
      (by intro p hp; simp only [List.mem_singleton] at hp; subst hp
          exact ⟨.string "bar", by rfl⟩)
    exact ⟨r, hr, (hiff "foo" (.string "bar")).2
      ⟨(.String "foo", .String "bar"), by simp, by decide, by decide, by rfl, rfl⟩⟩
  · exact C3_dictionary_default.2 (.UInt64 42) ⟨"42", by decide⟩

/-- Witness of C4 at the struct `{foo: "bar"}` of the tests. -/
theorem C4_struct_default_witness :
    ∃ m, CadenceValueToInterface (.Struct
        { Location := none, QualifiedIdentifier := "Contract.Bar",
          Fields := [{ Identifier := "foo", fieldType := "String" }] } [.String "bar"]) =
        some (.map m) ∧ mapGet m "foo" = some (.string "bar") := by
  obtain ⟨m, hm, hiff⟩ := (C4_struct_default
    { Location := none, QualifiedIdentifier := "Contract.Bar",
      Fields := [{ Identifier := "foo", fieldType := "String" }] } [.String "bar"]
    [.string "bar"] rfl (by simp) (by rfl)).2 ⟨.string "bar", by simp, rfl⟩
  exact ⟨m, hm, (hiff "foo" (.string "bar")).2
    ⟨0, { Identifier := "foo", fieldType := "String" }, rfl, rfl, rfl, rfl⟩⟩

/-- Witness of C5 at the options of the tests, `IncludeEmptyValues` alone. -/
theorem C5_include_empty_values_witness :
    CadenceValueToInterfaceWithOption (.String "")
        { IncludeEmptyValues := true, WrapWithComplexTypes := false,
          UseStringForFixedNumbers := false } = some (.string "")
    ∧ CadenceValueToInterfaceWithOption (.Dictionary [(.String "foo", .String "")])
        { IncludeEmptyValues := true, WrapWithComplexTypes := false,
          UseStringForFixedNumbers := false } = some (.map [("foo", .string "")]) :=
  ⟨(C5_include_empty_values _ rfl).1,
    (C5_include_empty_values _ rfl).2.2.2.1 "foo" (by decide) (by decide)⟩

/-- Witness of C6 at the struct, resource and event with the single field
`foo` holding the empty string. -/
theorem C6_empty_composites_witness :
    CadenceValueToInterfaceWithOption (.Struct
        { Location := none, QualifiedIdentifier := "Contract.Bar",
          Fields := [{ Identifier := "foo", fieldType := "String" }] } [.String ""])
        defaultOptions = some .null
    ∧ CadenceValueToInterfaceWithOption (.Resource
        { Location := none, QualifiedIdentifier := "Contract.Bar",
          Fields := [{ Identifier := "foo", fieldType := "String" }] } [.String ""])
        defaultOptions = some (.map [])
    ∧ CadenceValueToInterfaceWithOption (.Event
        { Location := none, QualifiedIdentifier := "Contract.Bar",
          Fields := [{ Identifier := "foo", fieldType := "String" }] } [.String ""])
        defaultOptions = some (.map []) :=
  C6_empty_composites defaultOptions
    { Location := none, QualifiedIdentifier := "Contract.Bar",
      Fields := [{ Identifier := "foo", fieldType := "String" }] } [.String ""] rfl rfl
    (by intro x hx; simp only [List.mem_singleton] at hx; subst hx; exact decode_String_empty)

/-- Witness of C7 at the struct `{foo: "Foo"}` of the tests. -/
theorem C7_wrap_with_complex_types_witness :
    CadenceValueToInterfaceWithOption (.Struct
        { Location := some "A.f8d6e0586b0a20c7", QualifiedIdentifier := "Contract.Bar",
          Fields := [{ Identifier := "foo", fieldType := "String" }] } [.String "Foo"])
        { IncludeEmptyValues := false, WrapWithComplexTypes := true,
          UseStringForFixedNumbers := false } =
      some (.map [("<A.f8d6e0586b0a20c7.Contract.Bar>", .map [("foo", .string "Foo")])]) :=
  (C7_wrap_with_complex_types
    { IncludeEmptyValues := false, WrapWithComplexTypes := true,
      UseStringForFixedNumbers := false }
    { Location := some "A.f8d6e0586b0a20c7", QualifiedIdentifier := "Contract.Bar",
      Fields := [{ Identifier := "foo", fieldType := "String" }] } [.String "Foo"]
    [.string "Foo"] rfl rfl (by rfl) ⟨.string "Foo", by simp, rfl⟩).1.1

/-- Witness of C9 at the options of the tests, `UseStringForFixedNumbers`
alone. -/
theorem C9_fixed_point_as_string_witness :
    CadenceValueToInterfaceWithOption (.UFix64 4200000000)
        { IncludeEmptyValues := false, WrapWithComplexTypes := false,
          UseStringForFixedNumbers := true } = some (.string "42.00000000")
    ∧ parseFixed (formatFix64 (-200000000)) = some (-200000000) :=
  ⟨(C9_fixed_point_as_string _ rfl).2.2.1,
    ((C9_fixed_point_as_string
      { IncludeEmptyValues := false, WrapWithComplexTypes := false,
        UseStringForFixedNumbers := true } rfl).2.1 (-200000000)).2⟩

/-- Witness of C10 at the `int8` 8, the `uint64` 2^64-1 and the string "foo"
of the tests. -/
theorem C10_primitive_round_trip_witness :
    (∃ c, InputToCadence (.Int .int8 false 8) (fun _ => .ok "") = .ok c ∧
      CadenceValueToInterface c = some (.num .int8 8))
    ∧ (∃ c, InputToCadence (.Int .uint64 false 18446744073709551615) (fun _ => .ok "") = .ok c ∧
      CadenceValueToInterface c = some (.num .uint64 18446744073709551615))
    ∧ CadenceValueToInterface (.String "foo") = some (.string "foo") :=
  ⟨(C10_primitive_round_trip (fun _ => .ok "")).1 .int8 8 (by decide) (by decide)
      (by simp [IntKind.inRange]),
    (C10_primitive_round_trip (fun _ => .ok "")).1 .uint64 18446744073709551615
      (by decide) (by decide) (by simp [IntKind.inRange]),
    (C10_primitive_round_trip (fun _ => .ok "")).2.2.2.1 "foo" (by decide) (by decide)⟩

/-- Witness of C12 at the 15 digits `1CF0e2f2f715450`, of odd length and with
letters of both cases, of the second address of the tests. -/
theorem C12_address_round_trip_witness :
    (∃ a, hexToAddress "1CF0e2f2f715450" = .ok a ∧
      hexToAddress ("0x" ++ "1CF0e2f2f715450") = .ok a ∧ a.length = 8 ∧
      addressString a = canonicalForm "1CF0e2f2f715450" ∧
      (canonicalForm "1CF0e2f2f715450").length = 18 ∧
      CadenceValueToInterfaceWithOption (.Address a) defaultOptions =
        some (.string (canonicalForm "1CF0e2f2f715450")))
    ∧ canonicalForm "1CF0e2f2f715450" = "0x01cf0e2f2f715450" :=
  ⟨C12_address_round_trip "1CF0e2f2f715450" defaultOptions (by decide) (by decide), by decide⟩

/-- Witness of C14 at the dictionary `{"owner": A, "sender": B}` of the
tests. -/
theorem C14_extract_addresses_witness :
    ∃ r, ExtractAddresses (.Dictionary
        [(.String "owner", .Address [248, 214, 224, 88, 107, 10, 32, 199]),
         (.String "sender", .Address [1, 207, 14, 47, 47, 113, 84, 80])]) = some r ∧
      r.elems = ["0xf8d6e0586b0a20c7", "0x01cf0e2f2f715450"] := by
  obtain ⟨r, hr, he⟩ := C14_extract_addresses.1 (.Dictionary
    [(.String "owner", .Address [248, 214, 224, 88, 107, 10, 32, 199]),
     (.String "sender", .Address [1, 207, 14, 47, 47, 113, 84, 80])]) (by decide)
  exact ⟨r, hr, he.trans (by decide)⟩

/-- Witness of C16 at the struct `Debug_Foo_Skip` of the tests, whose second
field is skipped. -/
theorem C16_struct_fields_witness :
    ∃ (flds : List Field) (vals : List Value),
      InputToCadence (.Struct "Debug_Foo_Skip"
        [({ Name := "Bar", Lower := "bar", Tag := .tags [] }, .String false "foo"),
         ({ Name := "Skip", Lower := "skip", Tag := .tags [{ Key := "cadence", Name := "-", Options := [] }] },
           .String false "skipped")]) (fun _ => .ok "A.123.Foo.Bar") =
        .ok (.Struct
          { Location := none, QualifiedIdentifier := "A.123.Foo.Bar", Fields := flds } vals)
      ∧ flds.length = vals.length
      ∧ flds.map (fun f => f.Identifier) = ["bar"] := by
  obtain ⟨flds, vals, h1, h2, -, h4, -⟩ := C16_struct_fields (fun _ => .ok "A.123.Foo.Bar")
    "Debug_Foo_Skip"
    [({ Name := "Bar", Lower := "bar", Tag := .tags [] }, .String false "foo"),
     ({ Name := "Skip", Lower := "skip", Tag := .tags [{ Key := "cadence", Name := "-", Options := [] }] },
       .String false "skipped")] "A.123.Foo.Bar"
    (by
      intro p hp
      simp only [List.mem_cons, List.mem_singleton, List.not_mem_nil, or_false] at hp
      rcases hp with e | e
      · exact ⟨some (.String "foo", { Identifier := "bar", fieldType := "String" }),
          by rw [e]; rfl⟩
      · exact ⟨none, by rw [e]; rfl⟩)
    rfl
  exact ⟨flds, vals, h1, h2, h4.trans (by decide)⟩

/-- Witness of C17 at the struct `Baz` of the tests, whose field `Something`
has the tag `json:"bar"`. -/
theorem C17_field_directive_witness :
    (∃ (flds : List Field) (vals : List Value),
      InputToCadence (.Struct "Baz"
        [({ Name := "Something", Lower := "something",
            Tag := .tags [{ Key := "json", Name := "bar", Options := [] }] },
          .String false "foo")]) (fun _ => .ok "A.123.Foo.Baz") =
        .ok (.Struct { Location := none, QualifiedIdentifier := "A.123.Foo.Baz",
                       Fields := flds } vals)
      ∧ flds.length = vals.length
      ∧ flds[0]? = some { Identifier := "bar", fieldType := "String" }
      ∧ vals[0]? = some (.String "foo")) :=
  (C17_field_directive (fun _ => .ok "A.123.Foo.Baz")
    { Name := "Something", Lower := "something",
      Tag := .tags [{ Key := "json", Name := "bar", Options := [] }] }
    (.String false "foo") (.String "foo") [{ Key := "json", Name := "bar", Options := [] }]
    rfl rfl (by intro e; cases e)).2.2.2.2.2.1 (by decide) (by decide) "Baz" [] []
    "A.123.Foo.Baz" (by intro q hq; cases hq) (by intro q hq; cases hq) rfl

/-- Witness of C18 at the slice `[]float64{1, -1}` and at the array
`[2]float64{1, -1}`: the element `-1` returns the zero `UFix64` with its error,
and the slice and the array the nil value with that error. -/
theorem C18_fail_fast_witness :
    InputToCadenceReturned (.Float64 false (.error "invalid negative integer part"))
        (fun _ => .ok "") =
      .results (.UFix64 0) (some "invalid negative integer part")
    ∧ InputToCadenceReturned
        (.Slice [.Float64 false (.ok (.UFix64 100000000)),
                 .Float64 false (.error "invalid negative integer part")])
        (fun _ => .ok "") =
      .results .nil (some "invalid negative integer part")
    ∧ InputToCadenceReturned
        (.Array [.Float64 false (.ok (.UFix64 100000000)),
                 .Float64 false (.error "invalid negative integer part")])
        (fun _ => .ok "") =
      .results .nil (some "invalid negative integer part") :=
  ⟨rfl,
   (C18_fail_fast (fun _ => .ok "") "invalid negative integer part").2.2.1
    [.Float64 false (.ok (.UFix64 100000000))]
    (.Float64 false (.error "invalid negative integer part")) [] (.UFix64 0)
    (by
      intro y hy
      simp only [List.mem_singleton] at hy
      exact ⟨.UFix64 100000000, by rw [hy]; rfl⟩)
    rfl⟩

/-- Witness of C20 at the struct `Debug_Foo2` of the tests, with the value
`0xf8d6e0586b0a20c7`, and with the value `0xfoo`. -/
theorem C20_address_field_witness :
    (∃ (a : List Nat) (flds : List Field) (vals : List Value),
      hexToAddress "f8d6e0586b0a20c7" = .ok a
      ∧ InputToCadence (.Struct "Debug_Foo2"
        [({ Name := "Bar", Lower := "bar",
            Tag := .tags [{ Key := "cadence", Name := "bar", Options := ["cadenceAddress"] }] },
          .String false "0xf8d6e0586b0a20c7")]) (fun _ => .ok "A.123.Debug.Foo2") =
        .ok (.Struct
          { Location := none, QualifiedIdentifier := "A.123.Debug.Foo2", Fields := flds } vals)
      ∧ flds[0]? = some { Identifier := "bar", fieldType := "Address" }
      ∧ vals[0]? = some (.Address a)
      ∧ ∃ m, CadenceValueToInterface (.Struct
          { Location := none, QualifiedIdentifier := "A.123.Debug.Foo2", Fields := flds }
          vals) = some (.map m)
        ∧ mapGet m "bar" = some (.string "0xf8d6e0586b0a20c7"))
    ∧ ∃ msg, InputToCadence (.Struct "Debug_Foo2"
        [({ Name := "Bar", Lower := "bar",
            Tag := .tags [{ Key := "cadence", Name := "bar", Options := ["cadenceAddress"] }] },
          .String false "0xfoo")]) (fun _ => .ok "A.123.Debug.Foo2") = .error (.error msg) := by
  have h := C20_address_field (fun _ => .ok "A.123.Debug.Foo2") "Debug_Foo2" [] []
    { Name := "Bar", Lower := "bar",
      Tag := .tags [{ Key := "cadence", Name := "bar", Options := ["cadenceAddress"] }] }
    [{ Key := "cadence", Name := "bar", Options := ["cadenceAddress"] }] rfl (by decide)
    (by decide)
  constructor
  · obtain ⟨a, flds, vals, h1, -, h3, -, h5, h6, h7⟩ :=
      h.1 "f8d6e0586b0a20c7" "0xf8d6e0586b0a20c7" (Or.inr (by decide))
        (by decide) (by decide) (by intro q hq; cases hq) (by intro q hq; cases hq)
        "A.123.Debug.Foo2" rfl
    have hcalc : InputToCadence (.Struct "Debug_Foo2"
        [({ Name := "Bar", Lower := "bar",
            Tag := .tags [{ Key := "cadence", Name := "bar", Options := ["cadenceAddress"] }] },
          .String false "0xf8d6e0586b0a20c7")]) (fun _ => .ok "A.123.Debug.Foo2") =
        .ok (.Struct
          { Location := none, QualifiedIdentifier := "A.123.Debug.Foo2",
            Fields := [{ Identifier := "bar", fieldType := "Address" }] }
          [.Address [0xf8, 0xd6, 0xe0, 0x58, 0x6b, 0x0a, 0x20, 0xc7]]) := by rfl
    have h3c := hcalc.symm.trans h3
    simp only [Except.ok.injEq, Value.Struct.injEq, CompositeType.mk.injEq, true_and] at h3c
    obtain ⟨m, hm1, hm2⟩ := h7
      (by
        intro j g hj hg
        rw [← h3c.1] at hg
        cases j with
        | zero => exact absurd hj (by decide)
        | succ j => simp at hg)
      [.string "0xf8d6e0586b0a20c7"]
      (by rw [← h3c.2]; rfl)
    exact ⟨a, flds, vals, h1, h3, h5, h6, m, hm1, hm2⟩
  · obtain ⟨msg, -, -, h3⟩ := h.2 "0xfoo" (by decide) (by decide)
    exact ⟨msg, h3 (by intro q hq; cases hq)⟩

/-- Witness of C23 at the empty String of the tests, under the default
configuration. -/
theorem C23_null_is_empty_text_witness :
    CadenceValueToJsonStringWithOption sampleLeaves (.String "") defaultOptions = some (.ok "") :=
  (C23_null_is_empty_text sampleLeaves (.String "") defaultOptions (by rfl)).1

/-- Witness of C24 at the dictionary `{"foo": "bar"}` of the tests. -/
theorem C24_json_indentation_witness :
    CadenceValueToJsonStringWithOption sampleLeaves
        (.Dictionary [(.String "foo", .String "bar")]) defaultOptions =
      some (.ok "\x7b\n    \"foo\": \"bar\"\n\x7d") :=
  (C24_json_indentation sampleLeaves (.Dictionary [(.String "foo", .String "bar")])
    defaultOptions (.map [("foo", .string "bar")])
    [(0, ['{']), (1, "\"foo\": \"bar\"".data), (0, ['}'])] (by rfl) rfl (by rfl)).1

/-- Witness of C25 at the emoji of the tests, whose rendering holds the marker
`\u`. -/
theorem C25_normalizer_chain_witness :
    getAndUnquoteString (.String "😁") = some (stripNul "😁") ∧ stripNul "😁" = "😁" :=
  ⟨(C25_normalizer_chain (.String "😁") (QuoteString "😁") rfl).2.1 (by decide) (by decide)
      "😁" rfl, by decide⟩

/-- Witness of C26 at a Resource that holds an address, after an address in an
array. -/
theorem C26_other_variants_witness :
    ExtractAddresses (.Array [.Address [248, 214, 224, 88, 107, 10, 32, 199],
        .Resource { Location := none, QualifiedIdentifier := "Contract.Resource",
                    Fields := [{ Identifier := "owner", fieldType := "Address" }] }
          [.Address [1, 207, 14, 47, 47, 113, 84, 80]]]) =
      ExtractAddresses (.Array [.Address [248, 214, 224, 88, 107, 10, 32, 199]]) :=
  (C26_other_variants
    (.Resource { Location := none, QualifiedIdentifier := "Contract.Resource",
                 Fields := [{ Identifier := "owner", fieldType := "Address" }] }
      [.Address [1, 207, 14, 47, 47, 113, 84, 80]]) rfl).2.1
    [.Address [248, 214, 224, 88, 107, 10, 32, 199]] []

/-- Witness of C27 at the struct `Debug_Foo_Skip` of the tests with a channel
in the skipped field. -/
theorem C27_skipped_field_is_encoded_witness :
    InputToCadence (.Struct "Debug_Foo_Skip"
        [({ Name := "Bar", Lower := "bar", Tag := .tags [] }, .String false "foo"),
         ({ Name := "Skip", Lower := "skip", Tag := .tags [{ Key := "cadence", Name := "-", Options := [] }] },
           .Unsupported "chan")]) (fun _ => .ok "A.123.Foo.Bar") =
      .error (.error "Not supported type for now. Type : chan") :=
  (C27_skipped_field_is_encoded (fun _ => .ok "A.123.Foo.Bar") "Debug_Foo_Skip"
    [({ Name := "Bar", Lower := "bar", Tag := .tags [] }, .String false "foo")] []
    { Name := "Skip", Lower := "skip", Tag := .tags [{ Key := "cadence", Name := "-", Options := [] }] }
    (.Unsupported "chan") [{ Key := "cadence", Name := "-", Options := [] }]
    (.error "Not supported type for now. Type : chan") rfl (by decide) rfl).2.2.2.1
    (by
      intro q hq
      simp only [List.mem_singleton] at hq
      exact ⟨some (.String "foo", { Identifier := "bar", fieldType := "String" }),
        by rw [hq]; rfl⟩)

end Underflow
